import Mathlib

/-!
YP_Vector: `RawMemory<T>` and `Vector<T>` (src/include/vector.h)

A shallow embedding of the two class templates and a verification of their
contract.

Modelling decisions.

* A block of raw storage is a list of slots. A slot is `none` when it holds no
  object (uninitialised or destroyed storage) and `some x` when it holds a live
  object of value `x`. `RawMemory.buffer_` is `none` for `nullptr` and
  `some cells` for a pointer to a block with those slots.
* `size_t` is a natural number. The offset `int dist` of `Emplace` is the
  distance cut to a 32-bit two's-complement integer (`toInt`): it is the
  position itself only for positions below `2^31`.
* An iterator `begin() + i`, and a reference to `data_[i]`, is the index `i`.
* A slot that is `none` has no value that may be read: it holds no object, or
  an object that was default-initialised without initialisation.
* Construction (placement `new`) writes an object into a slot whatever the
  slot held. Assignment acts on the object of the slot (`assignSlot`). For a
  type with a non-trivial destructor a slot that is `none` holds no object:
  nothing is stored and the slot stays `none`. For a trivially destructible
  type, whose destructor call does nothing, a slot that is `none` is storage
  without a readable value that an assignment can still write: the value is
  stored.
* The element type `T` is a parameter `Elem α`: its default value, what its
  default-initialisation gives, the value a moved-from object is left with, and
  the two traits that `if constexpr` tests.
* Exceptions are injected by a fault schedule `Faults`: whether `operator new`
  throws, and how many potentially-throwing element operations complete before
  one throws. Every operation returns the vector as the call leaves it together
  with the value returned or the exception that escapes.
* `PushBack` and `EmplaceBack` construct the new element from their argument
  before they touch an element of the vector, so the argument is its value:
  `PushBack v x` is a call whose argument has value `x`. `Emplace` and `Insert`
  read their argument after the elements have been shifted when they insert in
  place, so their argument is an `Arg`: a value from outside the vector, or a
  reference to an element of the vector itself.
-/

namespace YP

/-! ## Failures and fault schedules -/

/-- The ways a call does not return normally. The two recoverable failures:
`std::bad_alloc` from `operator new`, and an exception thrown by an operation
of the element type. `UndefinedBehaviour`: the call reaches an access through a
pointer that lies before its block, where the program has no defined outcome. -/
inductive Failure where
  | AllocationFailure
  | ElementOperationFailure
  | UndefinedBehaviour
  deriving DecidableEq, Repr

deriving instance DecidableEq for Except

/-- Fault schedule of a call. `alloc`: the acquisition of a non-empty block
throws. `elem = some k`: the first `k` potentially-throwing element operations
complete and the next one throws; `elem = none`: no element operation throws. -/
structure Faults where
  alloc : Bool
  elem : Option Nat
  deriving DecidableEq, Repr

/-- The schedule without faults. -/
def noFaults : Faults := ⟨false, none⟩

/-- One potentially-throwing element operation: `none` when it throws, else
the rest of the schedule. -/
def Faults.tick (f : Faults) : Option Faults :=
  match f.elem with
  | none => some f
  | some 0 => none
  | some (k + 1) => some { f with elem := some k }

/-- The element type `T` as the container sees it. -/
structure Elem (α : Type) where
  /-- default value of `T`: the value of the value-initialised object `T()` -/
  dflt : α
  /-- default-initialisation `::new (p) T`: `some d` for a class type whose
  default constructor gives the object the value `d`; `none` for a type whose
  default-initialisation performs no initialisation (a scalar such as `int`),
  which leaves the object without a determinate value -/
  defaultInit : Option α
  /-- value an object is left with after it has been moved from -/
  movedFrom : α → α
  /-- `std::is_nothrow_move_constructible_v<T>` -/
  nothrowMove : Bool
  /-- `std::is_copy_constructible_v<T>` -/
  copyConstructible : Bool
  /-- `std::is_trivially_destructible_v<T>`: the destructor call `buf->~T()`
  does nothing, so that storage whose object was destroyed, like storage that
  was default-initialised without initialisation, can still be assigned to -/
  trivialDestructor : Bool

/-- The condition of every `if constexpr` in the source:
`is_nothrow_move_constructible_v<T> || !is_copy_constructible_v<T>`. -/
def Elem.relocatesByMove (E : Elem α) : Bool :=
  E.nothrowMove || !E.copyConstructible

/-- Move construction of one element: it cannot throw for a type that is
nothrow-move-constructible, and is a potentially-throwing operation otherwise. -/
def Elem.moveTick (E : Elem α) (f : Faults) : Option Faults :=
  if E.nothrowMove then some f else f.tick

/-! ## RawMemory -/

/-- `RawMemory<T>`: the fields `buffer_` and `capacity_`. -/
structure RawMemory (α : Type) where
  buffer_ : Option (List (Option α))
  capacity_ : Nat
  deriving DecidableEq, Repr

namespace RawMemory

/-- `RawMemory() = default`: null buffer, capacity 0. -/
def empty : RawMemory α := ⟨none, 0⟩

/-- `Allocate(n)`: `n != 0 ? operator new(n * sizeof(T)) : nullptr`. -/
def Allocate (f : Faults) (n : Nat) : Except Failure (Option (List (Option α))) :=
  if n ≠ 0 then
    if f.alloc then .error .AllocationFailure else .ok (some (List.replicate n none))
  else .ok none

/-- `explicit RawMemory(size_t capacity)`. -/
def ofCapacity (f : Faults) (capacity : Nat) : Except Failure (RawMemory α) :=
  match Allocate f capacity with
  | .error e => .error e
  | .ok b => .ok ⟨b, capacity⟩

/-- `Swap(other)`: exchanges both fields; returns (this, other) after the call. -/
def Swap (self other : RawMemory α) : RawMemory α × RawMemory α :=
  (⟨other.buffer_, other.capacity_⟩, ⟨self.buffer_, self.capacity_⟩)

/-- `Capacity()`. -/
def Capacity (m : RawMemory α) : Nat := m.capacity_

/-- The slots of the block `buffer_` points to (no slot behind `nullptr`). -/
def cells (m : RawMemory α) : List (Option α) := m.buffer_.getD []

/-- The same `RawMemory` after its block has been written to: the pointer and
the capacity stay, the slots become `c`. Nothing is written through `nullptr`. -/
def store (m : RawMemory α) (c : List (Option α)) : RawMemory α :=
  { m with buffer_ := m.buffer_.map (fun _ => c) }

end RawMemory

/-! ## The standard algorithms the source calls, on blocks of slots -/

/-- `std::destroy_n(first, n)`. -/
def destroy_n : List (Option α) → Nat → Nat → List (Option α)
  | cells, _, 0 => cells
  | cells, first, n + 1 => destroy_n (cells.set first none) (first + 1) n

/-- `std::uninitialized_copy_n(src + first, n, dst + d_first)`: copy-constructs
`n` objects; when a copy throws, the objects constructed so far are destroyed
and the exception (`none`) leaves. -/
def uninitialized_copy_n (src : List (Option α)) :
    Nat → Nat → List (Option α) → Nat → Faults → Option Faults × List (Option α)
  | _, 0, dst, _, f => (some f, dst)
  | first, n + 1, dst, d_first, f =>
    match f.tick with
    | none => (none, dst)
    | some f1 =>
      match uninitialized_copy_n src (first + 1) n
          (dst.set d_first (src.getD first none)) (d_first + 1) f1 with
      | (none, dst1) => (none, dst1.set d_first none)
      | r => r

/-- `std::uninitialized_move_n(src + first, n, dst + d_first)`: as the copy,
by move construction; the result holds the source block, whose objects are left
moved-from, and the destination block. -/
def uninitialized_move_n (E : Elem α) :
    List (Option α) → Nat → Nat → List (Option α) → Nat → Faults →
      Option Faults × List (Option α) × List (Option α)
  | src, _, 0, dst, _, f => (some f, src, dst)
  | src, first, n + 1, dst, d_first, f =>
    match E.moveTick f with
    | none => (none, src, dst)
    | some f1 =>
      match uninitialized_move_n E
          (src.set first ((src.getD first none).map E.movedFrom)) (first + 1) n
          (dst.set d_first (src.getD first none)) (d_first + 1) f1 with
      | (none, src1, dst1) => (none, src1, dst1.set d_first none)
      | r => r

/-- `std::uninitialized_value_construct_n(first, n)`: each object is
value-initialised, `::new (p) T()`. -/
def uninitialized_value_construct_n (E : Elem α) :
    List (Option α) → Nat → Nat → Faults → Option Faults × List (Option α)
  | cells, _, 0, f => (some f, cells)
  | cells, first, n + 1, f =>
    match f.tick with
    | none => (none, cells)
    | some f1 =>
      match uninitialized_value_construct_n E (cells.set first (some E.dflt)) (first + 1) n f1 with
      | (none, c1) => (none, c1.set first none)
      | r => r

/-- `std::uninitialized_default_construct_n(first, n)`: each object is
default-initialised, `::new (p) T`. -/
def uninitialized_default_construct_n (E : Elem α) :
    List (Option α) → Nat → Nat → Faults → Option Faults × List (Option α)
  | cells, _, 0, f => (some f, cells)
  | cells, first, n + 1, f =>
    match f.tick with
    | none => (none, cells)
    | some f1 =>
      match uninitialized_default_construct_n E (cells.set first E.defaultInit) (first + 1) n f1 with
      | (none, c1) => (none, c1.set first none)
      | r => r

/-- Move construction `new (cells + dst) T(std::move(cells[src]))` inside one
block: the target slot, raw storage, receives an object with the value of the
source; the source is left moved-from. -/
def moveConstruct (E : Elem α) (cells : List (Option α)) (src dst : Nat) : List (Option α) :=
  (cells.set dst (cells.getD src none)).set src ((cells.getD src none).map E.movedFrom)

/-- Assignment `cells[dst] = value` to the object in slot `dst`. An assignment
does not construct: where the slot holds no object of a type with a non-trivial
destructor (it was never constructed, or its destructor has run), no object
comes to life and the slot stays `none`. For a trivially destructible type the
value is stored in any case. -/
def assignSlot (E : Elem α) (cells : List (Option α)) (dst : Nat) (value : Option α) :
    List (Option α) :=
  if (cells.getD dst none).isSome || E.trivialDestructor then cells.set dst value else cells

/-- Move assignment `cells[dst] = std::move(cells[src])` inside one block: the
object in the target slot takes the value, the source is left moved-from. -/
def moveAssign (E : Elem α) (cells : List (Option α)) (src dst : Nat) : List (Option α) :=
  (assignSlot E cells dst (cells.getD src none)).set src
    ((cells.getD src none).map E.movedFrom)

/-- `std::move(first, first + n, d_first)` inside one block: move-assigns
front to back; an assignment that throws leaves the block as it is then. -/
def std_move (E : Elem α) :
    List (Option α) → Nat → Nat → Nat → Faults → Option Faults × List (Option α)
  | cells, _, 0, _, f => (some f, cells)
  | cells, first, n + 1, d_first, f =>
    match f.tick with
    | none => (none, cells)
    | some f1 => std_move E (moveAssign E cells first d_first) (first + 1) n (d_first + 1) f1

/-- `std::move_backward(last - n, last, d_last)` inside one block:
move-assigns back to front. -/
def move_backward (E : Elem α) :
    List (Option α) → Nat → Nat → Nat → Faults → Option Faults × List (Option α)
  | cells, _, 0, _, f => (some f, cells)
  | cells, last, n + 1, d_last, f =>
    match f.tick with
    | none => (none, cells)
    | some f1 => move_backward E (moveAssign E cells (last - 1) (d_last - 1)) (last - 1) n (d_last - 1) f1

/-- The loop `for (i = first; i < first + n; ++i) dst[i] = src[i];` of the copy
assignment: copy-assigns slot by slot. -/
def copy_assign_n (E : Elem α) (src : List (Option α)) :
    Nat → Nat → List (Option α) → Faults → Option Faults × List (Option α)
  | _, 0, dst, f => (some f, dst)
  | first, n + 1, dst, f =>
    match f.tick with
    | none => (none, dst)
    | some f1 =>
      copy_assign_n E src (first + 1) n (assignSlot E dst first (src.getD first none)) f1

/-! ## Vector -/

/-- `Vector<T>`: the fields `data_` and `size_`. -/
structure Vector (α : Type) where
  data_ : RawMemory α
  size_ : Nat
  deriving DecidableEq, Repr

/-- What a call leaves behind: the value returned or the way the call fails,
the vector after the call, and the rest of the fault schedule. -/
structure Ret (α ρ : Type) where
  res : Except Failure ρ
  vec : Vector α
  rest : Faults

namespace Vector

/-- `Vector() = default`. -/
def empty : Vector α := ⟨RawMemory.empty, 0⟩

/-- `Size()`. -/
def Size (v : Vector α) : Nat := v.size_

/-- `Capacity()`. -/
def Capacity (v : Vector α) : Nat := v.data_.Capacity

/-- The slots `[0, Size())` as `operator[]` reads them. -/
def contents (v : Vector α) : List (Option α) := v.data_.cells.take v.size_

/-- `operator[](index)`: the object in slot `index`, if there is one. -/
def elemAt (v : Vector α) (index : Nat) : Option α := v.data_.cells.getD index none

/-- `explicit Vector(size_t size)`. When construction throws, the members
already built are released and there is no vector. -/
def ofSize (E : Elem α) (size : Nat) (f : Faults) : Except Failure (Vector α) :=
  match RawMemory.ofCapacity f size with
  | .error e => .error e
  | .ok data =>
    match uninitialized_value_construct_n E data.cells 0 size f with
    | (none, _) => .error .ElementOperationFailure
    | (some _, c) => .ok ⟨data.store c, size⟩

/-- `Vector(const Vector& other)`; the rest of the schedule is returned for the
copy assignment, which goes on after it. -/
def copy (other : Vector α) (f : Faults) : Except Failure (Vector α × Faults) :=
  match RawMemory.ofCapacity f other.size_ with
  | .error e => .error e
  | .ok data =>
    match uninitialized_copy_n other.data_.cells 0 other.size_ data.cells 0 f with
    | (none, _) => .error .ElementOperationFailure
    | (some f1, c) => .ok (⟨data.store c, other.size_⟩, f1)

/-- `Swap(other)`: returns (this, other) after the call. -/
def Swap (self other : Vector α) : Vector α × Vector α :=
  let d := RawMemory.Swap self.data_ other.data_
  (⟨d.1, other.size_⟩, ⟨d.2, self.size_⟩)

/-- `Vector(Vector&& other) noexcept`: a default vector swapped with `other`;
returns (this, other) after the call. -/
def moveCtor (other : Vector α) : Vector α × Vector α :=
  Swap ⟨RawMemory.empty, 0⟩ other

/-- `operator=(Vector&& rhs) noexcept`: returns (this, rhs) after the call. -/
def moveAssignFrom (self rhs : Vector α) : Vector α × Vector α :=
  Swap self rhs

/-- The statements that `Reserve`, both `PushBack` and `EmplaceBack` repeat
word for word once the new block exists (lines 182-190, 213-221, 237-245,
268-276): relocate the `size_` elements into `new_cells` by move or by copy as
the `if constexpr` selects, destroy the old ones, swap the blocks. `none`: the
relocation threw; the new block is released, the old one stays. -/
def relocate (E : Elem α) (v : Vector α) (new_data : RawMemory α)
    (new_cells : List (Option α)) (f : Faults) : Option Faults × Vector α :=
  if E.relocatesByMove then
    match uninitialized_move_n E v.data_.cells 0 v.size_ new_cells 0 f with
    | (none, src1, _) => (none, { v with data_ := v.data_.store src1 })
    | (some f1, src1, dst1) =>
      let d := RawMemory.Swap (v.data_.store (destroy_n src1 0 v.size_)) (new_data.store dst1)
      (some f1, { v with data_ := d.1 })
  else
    match uninitialized_copy_n v.data_.cells 0 v.size_ new_cells 0 f with
    | (none, _) => (none, v)
    | (some f1, dst1) =>
      let d := RawMemory.Swap (v.data_.store (destroy_n v.data_.cells 0 v.size_))
        (new_data.store dst1)
      (some f1, { v with data_ := d.1 })

/-- `Reserve(new_capacity)`. -/
def Reserve (E : Elem α) (v : Vector α) (new_capacity : Nat) (f : Faults) : Ret α Unit :=
  if new_capacity ≤ v.data_.Capacity then ⟨.ok (), v, f⟩
  else
    match RawMemory.ofCapacity f new_capacity with
    | .error e => ⟨.error e, v, f⟩
    | .ok new_data =>
      match relocate E v new_data new_data.cells f with
      | (none, v1) => ⟨.error .ElementOperationFailure, v1, f⟩
      | (some f1, v1) => ⟨.ok (), v1, f1⟩

/-- `Resize(new_size)`. -/
def Resize (E : Elem α) (v : Vector α) (new_size : Nat) (f : Faults) : Ret α Unit :=
  match Reserve E v new_size f with
  | ⟨.error e, v1, f1⟩ => ⟨.error e, v1, f1⟩
  | ⟨.ok _, v1, f1⟩ =>
    if new_size < v1.size_ then
      ⟨.ok (), ⟨v1.data_.store (destroy_n v1.data_.cells new_size (v1.size_ - new_size)),
        new_size⟩, f1⟩
    else if new_size > v1.size_ then
      match uninitialized_default_construct_n E v1.data_.cells v1.size_
          (new_size - v1.size_) f1 with
      | (none, c) => ⟨.error .ElementOperationFailure, { v1 with data_ := v1.data_.store c }, f1⟩
      | (some f2, c) => ⟨.ok (), ⟨v1.data_.store c, new_size⟩, f2⟩
    else ⟨.ok (), { v1 with size_ := new_size }, f1⟩

/-- `PushBack(const T& value)`. -/
def PushBack (E : Elem α) (v : Vector α) (value : α) (f : Faults) : Ret α Unit :=
  if v.size_ = v.data_.Capacity then
    let temp_size := if v.size_ = 0 then 1 else v.size_ * 2
    match RawMemory.ofCapacity f temp_size with
    | .error e => ⟨.error e, v, f⟩
    | .ok new_data =>
      match f.tick with
      | none => ⟨.error .ElementOperationFailure, v, f⟩
      | some f1 =>
        match relocate E v new_data (new_data.cells.set v.size_ (some value)) f1 with
        | (none, v1) => ⟨.error .ElementOperationFailure, v1, f1⟩
        | (some f2, v1) => ⟨.ok (), { v1 with size_ := v1.size_ + 1 }, f2⟩
  else
    match f.tick with
    | none => ⟨.error .ElementOperationFailure, v, f⟩
    | some f1 =>
      ⟨.ok (), ⟨v.data_.store (v.data_.cells.set v.size_ (some value)), v.size_ + 1⟩, f1⟩

/-- `PushBack(T&& value)`: the new element is move-constructed. -/
def PushBackMove (E : Elem α) (v : Vector α) (value : α) (f : Faults) : Ret α Unit :=
  if v.size_ = v.data_.Capacity then
    let temp_size := if v.size_ = 0 then 1 else v.size_ * 2
    match RawMemory.ofCapacity f temp_size with
    | .error e => ⟨.error e, v, f⟩
    | .ok new_data =>
      match E.moveTick f with
      | none => ⟨.error .ElementOperationFailure, v, f⟩
      | some f1 =>
        match relocate E v new_data (new_data.cells.set v.size_ (some value)) f1 with
        | (none, v1) => ⟨.error .ElementOperationFailure, v1, f1⟩
        | (some f2, v1) => ⟨.ok (), { v1 with size_ := v1.size_ + 1 }, f2⟩
  else
    match E.moveTick f with
    | none => ⟨.error .ElementOperationFailure, v, f⟩
    | some f1 =>
      ⟨.ok (), ⟨v.data_.store (v.data_.cells.set v.size_ (some value)), v.size_ + 1⟩, f1⟩

/-- `PopBack() noexcept`; `none` when `assert(size_ > 0)` fails. -/
def PopBack (v : Vector α) : Option (Vector α) :=
  if 0 < v.size_ then
    some ⟨v.data_.store (v.data_.cells.set (v.size_ - 1) none), v.size_ - 1⟩
  else none

/-- `EmplaceBack(args...)`, where `value` is `T(args...)`; returns the
reference `data_[size_ - 1]`. -/
def EmplaceBack (E : Elem α) (v : Vector α) (value : α) (f : Faults) : Ret α Nat :=
  if v.size_ = v.data_.Capacity then
    let temp_size := if v.size_ = 0 then 1 else v.size_ * 2
    match RawMemory.ofCapacity f temp_size with
    | .error e => ⟨.error e, v, f⟩
    | .ok new_data =>
      match f.tick with
      | none => ⟨.error .ElementOperationFailure, v, f⟩
      | some f1 =>
        match relocate E v new_data (new_data.cells.set v.size_ (some value)) f1 with
        | (none, v1) => ⟨.error .ElementOperationFailure, v1, f1⟩
        | (some f2, v1) => ⟨.ok (v1.size_ + 1 - 1), { v1 with size_ := v1.size_ + 1 }, f2⟩
  else
    match f.tick with
    | none => ⟨.error .ElementOperationFailure, v, f⟩
    | some f1 =>
      ⟨.ok (v.size_ + 1 - 1),
        ⟨v.data_.store (v.data_.cells.set v.size_ (some value)), v.size_ + 1⟩, f1⟩

/-- The conversion in `int dist = std::distance(begin(), pos)`: the distance,
a `ptrdiff_t`, is cut to its low 32 bits, read as a two's-complement `int`. -/
def toInt (n : Nat) : Int :=
  if n % 2 ^ 32 < 2 ^ 31 then Int.ofNat (n % 2 ^ 32)
  else Int.negSucc (2 ^ 32 - n % 2 ^ 32 - 1)

/-- What the parameter `value` of `Insert`, or `args...` of `Emplace`, is bound
to. -/
inductive Arg (α : Type) where
  /-- an object outside the vector, or constructor arguments, from which
  `T(args...)` has the value `x` -/
  | val (x : α)
  /-- a reference `const T&` to the element `data_[j]` of the vector itself:
  `T(args...)` copies the object that slot `j` holds when it is evaluated -/
  | elem (j : Nat)
  /-- an rvalue reference `T&&` to the element `data_[j]` of the vector itself:
  `T(args...)` moves from the object that slot `j` holds when it is evaluated -/
  | moved (j : Nat)
  deriving DecidableEq, Repr

/-- The construction `T(std::forward<Args>(args)...)` as an element operation
of the fault schedule: a move construction for an rvalue reference, a
potentially-throwing construction otherwise. -/
def Arg.tick (E : Elem α) (f : Faults) : Arg α → Option Faults
  | .val _ => f.tick
  | .elem _ => f.tick
  | .moved _ => E.moveTick f

/-- The construction `T(std::forward<Args>(args)...)` evaluated when the block
of the vector holds `cells`: the value of the new object (`none` when it is
read from a slot without an object) and the block afterwards, in which an
element that was moved from is left moved-from. -/
def Arg.construct (E : Elem α) (cells : List (Option α)) : Arg α → Option α × List (Option α)
  | .val x => (some x, cells)
  | .elem j => (cells.getD j none, cells)
  | .moved j => (cells.getD j none, cells.set j ((cells.getD j none).map E.movedFrom))

/-- `Emplace(p, args...)` with `p = begin() + pos`; returns the iterator `it`
as its offset from `begin()`.

`dist` is an `int`: `toInt pos`. `it = &data_[dist]` only forms a pointer. The
first access through `dist` is the construction at `new_data.GetAddress() + dist`
on the reallocating branch and `std::move_backward(it, ...)` on the in-place
branch; for a negative `dist` it lies before the block and the call is
`UndefinedBehaviour`. For `dist >= 0` the offset `d = dist` is used as the
source does, also where it is not `pos`.

Reallocating branch (`size_ == Capacity()`): only `RawMemory<T> new_data(temp_size)`
stands before the `try`. The new element is constructed from `args` first, when
the old block is as the caller left it. The handler
`catch (...) { new_data.~RawMemory(); }` does not rethrow, so whatever the
element operations throw is swallowed and the call goes on to `return it`; the
block of `new_data`, released by the handler, is released again when `new_data`
leaves its scope, which has no effect on the fields of the vector and is not
tracked here.

In-place branch: `pos == end()` constructs at `end()` (the test `pos == nullptr`
is never true of a position `begin() + pos` here, the block being non-null);
otherwise the last element is move-constructed into the raw slot `size_`, the
range is shifted by `move_backward`, and only then the temporary `T(args...)`
is constructed, from the block as the shift has left it, and move-assigned to
`*it`. Nothing catches on this branch. -/
def Emplace (E : Elem α) (v : Vector α) (pos : Nat) (arg : Arg α) (f : Faults) : Ret α Int :=
  let dist : Int := toInt pos
  let it : Int := dist
  if v.size_ = v.Capacity then
    let temp_size := if v.size_ = 0 then 1 else v.size_ * 2
    match RawMemory.ofCapacity f temp_size with
    | .error e => ⟨.error e, v, f⟩
    | .ok new_data =>
      if dist < 0 then ⟨.error .UndefinedBehaviour, v, f⟩
      else
        let d := dist.toNat
        match arg.tick E f with
        | none => ⟨.ok it, v, f⟩
        | some f1 =>
          let value := (arg.construct E v.data_.cells).1
          let old := (arg.construct E v.data_.cells).2
          let c0 := new_data.cells.set d value
          if E.relocatesByMove then
            match uninitialized_move_n E old 0 d c0 0 f1 with
            | (none, src1, _) => ⟨.ok it, { v with data_ := v.data_.store src1 }, f1⟩
            | (some f2, src1, c1) =>
              match uninitialized_move_n E src1 d (v.size_ - d) c1 (d + 1) f2 with
              | (none, src2, _) => ⟨.ok it, { v with data_ := v.data_.store src2 }, f2⟩
              | (some f3, src2, c2) =>
                let b := RawMemory.Swap (v.data_.store (destroy_n src2 0 v.size_))
                  (new_data.store c2)
                ⟨.ok dist, ⟨b.1, v.size_ + 1⟩, f3⟩
          else
            match uninitialized_copy_n old 0 d c0 0 f1 with
            | (none, _) => ⟨.ok it, { v with data_ := v.data_.store old }, f1⟩
            | (some f2, c1) =>
              match uninitialized_copy_n old d (v.size_ - d) c1 (d + 1) f2 with
              | (none, _) => ⟨.ok it, { v with data_ := v.data_.store old }, f2⟩
              | (some f3, c2) =>
                let b := RawMemory.Swap (v.data_.store (destroy_n old 0 v.size_))
                  (new_data.store c2)
                ⟨.ok dist, ⟨b.1, v.size_ + 1⟩, f3⟩
  else
    if pos = v.size_ then
      match arg.tick E f with
      | none => ⟨.error .ElementOperationFailure, v, f⟩
      | some f1 =>
        let value := (arg.construct E v.data_.cells).1
        let c1 := (arg.construct E v.data_.cells).2
        ⟨.ok it, ⟨v.data_.store (c1.set v.size_ value), v.size_ + 1⟩, f1⟩
    else
      match E.moveTick f with
      | none => ⟨.error .ElementOperationFailure, v, f⟩
      | some f1 =>
        let c1 := moveConstruct E v.data_.cells (v.size_ - 1) v.size_
        if dist < 0 then
          ⟨.error .UndefinedBehaviour, { v with data_ := v.data_.store c1 }, f1⟩
        else
          let d := dist.toNat
          match move_backward E c1 (v.size_ - 1) (v.size_ - 1 - d) v.size_ f1 with
          | (none, c2) =>
            ⟨.error .ElementOperationFailure, { v with data_ := v.data_.store c2 }, f1⟩
          | (some f2, c2) =>
            match arg.tick E f2 with
            | none =>
              ⟨.error .ElementOperationFailure, { v with data_ := v.data_.store c2 }, f2⟩
            | some f3 =>
              let value := (arg.construct E c2).1
              let c3 := (arg.construct E c2).2
              match f3.tick with
              | none =>
                ⟨.error .ElementOperationFailure, { v with data_ := v.data_.store c3 }, f3⟩
              | some f4 =>
                ⟨.ok it, ⟨v.data_.store (assignSlot E c3 d value), v.size_ + 1⟩, f4⟩

/-- `Insert(pos, const T& value)`: `Emplace(pos, value)`; `value` is an object
outside the vector (`Arg.val`) or an element of it (`Arg.elem`). -/
def Insert (E : Elem α) (v : Vector α) (pos : Nat) (value : Arg α) (f : Faults) : Ret α Int :=
  Emplace E v pos value f

/-- `Insert(pos, T&& value)`: `Emplace(pos, std::move(value))`; `value` is an
object outside the vector (`Arg.val`) or an element of it (`Arg.moved`). -/
def InsertMove (E : Elem α) (v : Vector α) (pos : Nat) (value : Arg α) (f : Faults) :
    Ret α Int :=
  Emplace E v pos value f

/-- `Erase(p)` with `p = begin() + pos`: `Destroy(pos)`, then
`std::move(pos + 1, end(), pos)`, then `--size_`; returns `pos`. `Destroy(pos)`
runs the destructor of the object in slot `pos`, so the first assignment of
`std::move`, which has that slot as its target, finds no object there unless
the destructor is trivial. -/
def Erase (E : Elem α) (v : Vector α) (pos : Nat) (f : Faults) : Ret α Nat :=
  let c1 := v.data_.cells.set pos none
  match std_move E c1 (pos + 1) (v.size_ - (pos + 1)) pos f with
  | (none, c2) => ⟨.error .ElementOperationFailure, { v with data_ := v.data_.store c2 }, f⟩
  | (some f1, c2) => ⟨.ok pos, ⟨v.data_.store c2, v.size_ - 1⟩, f1⟩

/-- `operator=(const Vector& rhs)`. -/
def copyAssign (E : Elem α) (self rhs : Vector α) (f : Faults) : Ret α Unit :=
  if rhs.size_ > self.data_.Capacity then
    match copy rhs f with
    | .error e => ⟨.error e, self, f⟩
    | .ok (temp, f1) => ⟨.ok (), { (Swap self temp).1 with size_ := rhs.Size }, f1⟩
  else
    match copy_assign_n E rhs.data_.cells 0 (min self.Size rhs.Size) self.data_.cells f with
    | (none, c) => ⟨.error .ElementOperationFailure, { self with data_ := self.data_.store c }, f⟩
    | (some f1, c) =>
      if self.Size > rhs.Size then
        ⟨.ok (), ⟨self.data_.store (destroy_n c rhs.Size (self.Size - rhs.Size)), rhs.Size⟩, f1⟩
      else if self.Size < rhs.Size then
        match uninitialized_copy_n rhs.data_.cells self.Size (rhs.Size - self.Size) c
            self.Size f1 with
        | (none, c1) =>
          ⟨.error .ElementOperationFailure, { self with data_ := self.data_.store c1 }, f1⟩
        | (some f2, c1) => ⟨.ok (), ⟨self.data_.store c1, rhs.Size⟩, f2⟩
      else ⟨.ok (), ⟨self.data_.store c, rhs.Size⟩, f1⟩

/-- The vector is well formed and holds exactly the sequence `s`: the block has
`capacity_` slots, `size_` is within the capacity, and the slots `[0, size_)`
hold live objects with the values of `s`, in order. -/
def Holds (v : Vector α) (s : List α) : Prop :=
  v.data_.cells.length = v.data_.capacity_ ∧ v.size_ ≤ v.data_.capacity_ ∧
    v.contents = s.map some

instance [DecidableEq α] (v : Vector α) (s : List α) : Decidable (Holds v s) :=
  inferInstanceAs (Decidable (_ ∧ _ ∧ _))

/-- One call in a sequence of `PushBack` and `PopBack` calls. -/
inductive Call (α : Type) where
  | push (x : α)
  | pushMove (x : α)
  | pop

/-- Runs the calls in order, no fault injected; `none` when a call does not
return normally. -/
def runCalls (E : Elem α) : List (Call α) → Vector α → Option (Vector α)
  | [], v => some v
  | .push x :: cs, v =>
    match PushBack E v x noFaults with
    | ⟨.ok _, v1, _⟩ => runCalls E cs v1
    | ⟨.error _, _, _⟩ => none
  | .pushMove x :: cs, v =>
    match PushBackMove E v x noFaults with
    | ⟨.ok _, v1, _⟩ => runCalls E cs v1
    | ⟨.error _, _, _⟩ => none
  | .pop :: cs, v =>
    match PopBack v with
    | some v1 => runCalls E cs v1
    | none => none

/-- The sequence the calls lead to from `s`: a push appends its value, a pop
removes the last element. -/
def seqAfter : List (Call α) → List α → List α
  | [], s => s
  | .push x :: cs, s => seqAfter cs (s ++ [x])
  | .pushMove x :: cs, s => seqAfter cs (s ++ [x])
  | .pop :: cs, s => seqAfter cs s.dropLast

/-- No `PopBack` of the sequence is called on an empty vector, for a vector
that holds `n` elements at the start. -/
def popsValid : List (Call α) → Nat → Bool
  | [], _ => true
  | .push _ :: cs, n => popsValid cs (n + 1)
  | .pushMove _ :: cs, n => popsValid cs (n + 1)
  | .pop :: cs, n => decide (0 < n) && popsValid cs (n - 1)

/-- Number of pushes in the sequence. -/
def pushes : List (Call α) → Nat
  | [] => 0
  | .push _ :: cs => pushes cs + 1
  | .pushMove _ :: cs => pushes cs + 1
  | .pop :: cs => pushes cs

/-- Number of pops in the sequence. -/
def pops : List (Call α) → Nat
  | [] => 0
  | .push _ :: cs => pops cs
  | .pushMove _ :: cs => pops cs
  | .pop :: cs => pops cs + 1

/-- An element type like `int`: default value 0, no initialisation on
default-initialisation, a moved-from object keeps its value, move construction
cannot throw, the destructor is trivial. -/
def intElem : Elem Nat := ⟨0, none, fun x => x, true, true, true⟩

/-- The vector `[1, 2, 3]` in a block of capacity 4. -/
def sample3 : Vector Nat := ⟨⟨some [some 1, some 2, some 3, none], 4⟩, 3⟩

/-- The vector `[1, 2, 3, 4]` in a block of capacity 4: the next insertion
reallocates. -/
def full4 : Vector Nat := ⟨⟨some [some 1, some 2, some 3, some 4], 4⟩, 4⟩

/-- The vector `[7, 8, 9, 10, 11]` in a block of capacity 5. -/
def five5 : Vector Nat := ⟨⟨some [some 7, some 8, some 9, some 10, some 11], 5⟩, 5⟩

/-- A class type relocated by copy: its default constructor gives the value 0,
it is copy-constructible, its move construction may throw, a moved-from object
is left with the value 0, and its destructor is not trivial. -/
def copyElem : Elem Nat := ⟨0, some 0, fun _ => 0, false, true, false⟩

end Vector

end YP
namespace YP

namespace RawMemory

/-- `RawMemory(RawMemory&& other) noexcept`: the new buffer starts from the
default member initialisers (`nullptr`, 0) and is swapped with `other`; returns
(this, other) after the call. -/
def moveCtor (other : RawMemory α) : RawMemory α × RawMemory α :=
  Swap empty other

/-- `operator=(RawMemory&& rhs) noexcept`: `Swap(rhs)`; returns (this, rhs)
after the call. -/
def moveAssignFrom (self rhs : RawMemory α) : RawMemory α × RawMemory α :=
  Swap self rhs

/-- A buffer that owns a block of two slots. -/
def twoSlots : RawMemory Nat := ⟨some [none, none], 2⟩

/-- A buffer that owns a block of three slots. -/
def threeSlots : RawMemory Nat := ⟨some [none, none, none], 3⟩

end RawMemory

namespace Vector

/-- `v[index] = x`: assignment through the reference that `operator[]`
returns. -/
def assignAt (E : Elem α) (v : Vector α) (index : Nat) (x : α) : Vector α :=
  ⟨v.data_.store (assignSlot E v.data_.cells index (some x)), v.size_⟩

/-- A mutating call on a vector, with its arguments. -/
inductive Mutation (α : Type) where
  | pushBack (x : α)
  | popBack
  | insert (pos : Nat) (value : Arg α)
  | erase (pos : Nat)
  | resize (n : Nat)
  | reserve (n : Nat)
  | assignAt (index : Nat) (x : α)

/-- The vector after the call `w.m(...)` under the fault schedule `f`, whether
the call returns or throws (a `PopBack` whose assertion fails leaves `w`). -/
def Mutation.run (E : Elem α) (f : Faults) : Mutation α → Vector α → Vector α
  | .pushBack x, w => (PushBack E w x f).vec
  | .popBack, w => (PopBack w).getD w
  | .insert pos value, w => (Insert E w pos value f).vec
  | .erase pos, w => (Erase E w pos f).vec
  | .resize n, w => (Resize E w n f).vec
  | .reserve n, w => (Reserve E w n f).vec
  | .assignAt index x, w => w.assignAt E index x

/-- The storage invariant that the specification gives for the container: the
block has `capacity_` slots, `size_` is within the capacity, every slot below
`size_` holds a live object and every slot from `size_` on holds none. -/
def StorageInv (v : Vector α) : Prop :=
  v.data_.cells.length = v.data_.capacity_ ∧ v.size_ ≤ v.data_.capacity_ ∧
    ∀ k, k < v.data_.capacity_ → (v.data_.cells.getD k none).isSome = decide (k < v.size_)

instance (v : Vector α) : Decidable (StorageInv v) :=
  inferInstanceAs (Decidable (_ ∧ _ ∧ _))

end Vector

/-! ## Vector objects in one free store -/

/-- The free store: the blocks that `operator new` has handed out, in the order
of their acquisition; the address of a block is its index. A released block
keeps its entry: no address is handed out twice. -/
abbrev Heap (α : Type) := List (List (Option α))

/-- A `Vector<T>` object as it lies in memory: `data_.buffer_` is the address
of its block in the free store (`none` for `nullptr`), next to
`data_.capacity_` and `size_`. -/
structure VectorObject where
  buffer_ : Option Nat
  capacity_ : Nat
  size_ : Nat
  deriving DecidableEq, Repr

namespace VectorObject

/-- The vector an object is in the free store `h`: the slots are those of the
block at its address. -/
def read (h : Heap α) (p : VectorObject) : Vector α :=
  ⟨⟨p.buffer_.map (fun a => h.getD a []), p.capacity_⟩, p.size_⟩

/-- A new object for the vector `r` that a constructor has built: the block
that `Allocate` acquired for it, if any, lies at the next free address. -/
def fresh (h : Heap α) (r : Vector α) : Heap α × VectorObject :=
  match r.data_.buffer_ with
  | none => (h, ⟨none, r.data_.capacity_, r.size_⟩)
  | some cells => (h ++ [cells], ⟨some h.length, r.data_.capacity_, r.size_⟩)

/-- The object `p` after a member function has left it as the vector `r`. A
member function reaches storage through its own `data_`: it writes the block at
the address of `p`, or it has exchanged the block by `data_.Swap(new_data)` for
one it has just acquired, which then lies at the next free address. Every block
that is swapped in has another capacity than the one it replaces
(`new_capacity > Capacity()` in `Reserve`, `temp_size > size_ = Capacity()` in
the growing branches, `rhs.size_ > Capacity()` in the copy assignment), which
is how the two cases are told apart. -/
def write (h : Heap α) (p : VectorObject) (r : Vector α) : Heap α × VectorObject :=
  match p.buffer_, r.data_.buffer_ with
  | some a, some cells =>
    if r.data_.capacity_ = p.capacity_ then
      (h.set a cells, ⟨some a, r.data_.capacity_, r.size_⟩)
    else fresh h r
  | _, _ => fresh h r

/-- The call `p.m(...)` in the free store, under the fault schedule `f`. -/
def call (E : Elem α) (f : Faults) (m : Vector.Mutation α) (h : Heap α) (p : VectorObject) :
    Heap α × VectorObject :=
  write h p (m.run E f (p.read h))

/-- The statements `p.m1(...); ...; p.mk(...)`, each under its own fault
schedule. -/
def calls (E : Elem α) :
    List (Vector.Mutation α × Faults) → Heap α × VectorObject → Heap α × VectorObject
  | [], st => st
  | (m, f) :: ms, st => calls E ms (call E f m st.1 st.2)

/-- A free store with one block, which holds `[1, 2, 3]` in four slots. -/
def heap3 : Heap Nat := [[some 1, some 2, some 3, none]]

/-- The vector object of `sample3` in `heap3`. -/
def object3 : VectorObject := ⟨some 0, 4, 3⟩

end VectorObject

end YP

/-! ## Lemmas on slots and on the standard algorithms -/

namespace YP

theorem tick_noFaults : noFaults.tick = some noFaults := rfl

theorem moveTick_noFaults (E : Elem α) : E.moveTick noFaults = some noFaults := by
  unfold Elem.moveTick; split <;> rfl

theorem getD_set (cs : List (Option α)) (i k : Nat) (a : Option α) :
    (cs.set i a).getD k none = if i = k ∧ i < cs.length then a else cs.getD k none := by
  simp only [List.getD_eq_getElem?_getD, List.getElem?_set]
  by_cases h : i = k
  · subst h
    by_cases hl : i < cs.length
    · simp [hl]
    · simp [hl, List.getElem?_eq_none (Nat.le_of_not_lt hl)]
  · simp [h]

theorem getD_of_le (cs : List (Option α)) (k : Nat) (h : cs.length ≤ k) :
    cs.getD k none = none := by
  simp [List.getD_eq_getElem?_getD, List.getElem?_eq_none h]

/-- Two blocks of the same length with the same slot values are equal. -/
theorem ext_getD (l1 l2 : List (Option α)) (hl : l1.length = l2.length)
    (h : ∀ k, k < l1.length → l1.getD k none = l2.getD k none) : l1 = l2 := by
  apply List.ext_getElem hl
  intro k h1 h2
  have := h k h1
  simpa [List.getD_eq_getElem?_getD, List.getElem?_eq_getElem h1, List.getElem?_eq_getElem h2]
    using this

theorem destroy_n_length : ∀ (n : Nat) (cs : List (Option α)) (first : Nat),
    (destroy_n cs first n).length = cs.length := by
  intro n
  induction n with
  | zero => intro cs first; rfl
  | succ n ih => intro cs first; simp [destroy_n, ih]

theorem destroy_n_getD : ∀ (n : Nat) (cs : List (Option α)) (first k : Nat),
    (destroy_n cs first n).getD k none =
      if first ≤ k ∧ k < first + n then none else cs.getD k none := by
  intro n
  induction n with
  | zero => intro cs first k; rw [if_neg (by omega)]; rfl
  | succ n ih =>
    intro cs first k
    simp only [destroy_n, ih, getD_set]
    by_cases h1 : first + 1 ≤ k ∧ k < first + 1 + n
    · have h2 : first ≤ k ∧ k < first + (n + 1) := by omega
      simp only [h1, h2, and_self, if_true]
    · by_cases h2 : first = k
      · subst h2
        have h3 : first ≤ first ∧ first < first + (n + 1) := by omega
        simp only [h1, h3, and_self, if_true, if_false, true_and]
        by_cases hl : first < cs.length
        · simp only [hl, if_true]
        · simp only [hl, if_false]
          exact getD_of_le _ _ (by omega)
      · have h3 : ¬ (first ≤ k ∧ k < first + (n + 1)) := by omega
        simp only [h1, h2, h3, false_and, if_false]

theorem uninitialized_copy_n_length (src : List (Option α)) :
    ∀ (n first : Nat) (dst : List (Option α)) (d : Nat) (f : Faults),
      (uninitialized_copy_n src first n dst d f).2.length = dst.length := by
  intro n
  induction n with
  | zero => intro first dst d f; rfl
  | succ n ih =>
    intro first dst d f
    unfold uninitialized_copy_n
    cases f.tick with
    | none => rfl
    | some f1 =>
      have h := ih (first + 1) (dst.set d (src.getD first none)) (d + 1) f1
      simp only
      split
      · rename_i dst1 heq
        rw [heq] at h
        simpa using h
      · simpa using h

theorem uninitialized_copy_n_ok (src : List (Option α)) :
    ∀ (n first : Nat) (dst : List (Option α)) (d : Nat),
      (uninitialized_copy_n src first n dst d noFaults).1 = some noFaults := by
  intro n
  induction n with
  | zero => intro first dst d; rfl
  | succ n ih =>
    intro first dst d
    unfold uninitialized_copy_n
    rw [tick_noFaults]
    have h := ih (first + 1) (dst.set d (src.getD first none)) (d + 1)
    simp only
    split
    · rename_i dst1 heq
      rw [heq] at h
      simp at h
    · exact h

theorem uninitialized_copy_n_getD (src : List (Option α)) :
    ∀ (n first : Nat) (dst : List (Option α)) (d k : Nat),
      (uninitialized_copy_n src first n dst d noFaults).2.getD k none =
        if d ≤ k ∧ k < d + n ∧ k < dst.length then src.getD (first + (k - d)) none
        else dst.getD k none := by
  intro n
  induction n with
  | zero => intro first dst d k; rw [if_neg (by omega)]; rfl
  | succ n ih =>
    intro first dst d k
    unfold uninitialized_copy_n
    rw [tick_noFaults]
    have h := ih (first + 1) (dst.set d (src.getD first none)) (d + 1) k
    have h1 := uninitialized_copy_n_ok src n (first + 1) (dst.set d (src.getD first none)) (d + 1)
    simp only
    split
    · rename_i dst1 heq
      rw [heq] at h1
      simp at h1
    · rw [h]
      simp only [List.length_set, getD_set]
      by_cases h2 : d + 1 ≤ k
      · have e : first + 1 + (k - (d + 1)) = first + (k - d) := by omega
        rw [e]
        by_cases h3 : k < d + 1 + n ∧ k < dst.length
        · rw [if_pos (by omega), if_pos (by omega)]
        · rw [if_neg (by omega), if_neg (by omega), if_neg (by omega)]
      · rw [if_neg (by omega)]
        by_cases h3 : d = k
        · subst h3
          by_cases h4 : d < dst.length
          · rw [if_pos (by omega), if_pos (by omega)]; simp
          · rw [if_neg (by omega), if_neg (by omega)]
        · rw [if_neg (by omega), if_neg (by omega)]

theorem uninitialized_move_n_ok (E : Elem α) :
    ∀ (n : Nat) (src : List (Option α)) (first : Nat) (dst : List (Option α)) (d : Nat),
      (uninitialized_move_n E src first n dst d noFaults).1 = some noFaults := by
  intro n
  induction n with
  | zero => intro src first dst d; rfl
  | succ n ih =>
    intro src first dst d
    unfold uninitialized_move_n
    rw [moveTick_noFaults]
    have h := ih (src.set first ((src.getD first none).map E.movedFrom)) (first + 1)
      (dst.set d (src.getD first none)) (d + 1)
    simp only
    split
    · rename_i src1 dst1 heq
      rw [heq] at h
      simp at h
    · exact h

theorem uninitialized_move_n_dst_length (E : Elem α) :
    ∀ (n : Nat) (src : List (Option α)) (first : Nat) (dst : List (Option α)) (d : Nat)
      (f : Faults), (uninitialized_move_n E src first n dst d f).2.2.length = dst.length := by
  intro n
  induction n with
  | zero => intro src first dst d f; rfl
  | succ n ih =>
    intro src first dst d f
    unfold uninitialized_move_n
    cases E.moveTick f with
    | none => rfl
    | some f1 =>
      have h := ih (src.set first ((src.getD first none).map E.movedFrom)) (first + 1)
        (dst.set d (src.getD first none)) (d + 1) f1
      simp only
      split
      · rename_i src1 dst1 heq
        rw [heq] at h
        simpa using h
      · simpa using h

theorem uninitialized_move_n_src_length (E : Elem α) :
    ∀ (n : Nat) (src : List (Option α)) (first : Nat) (dst : List (Option α)) (d : Nat)
      (f : Faults), (uninitialized_move_n E src first n dst d f).2.1.length = src.length := by
  intro n
  induction n with
  | zero => intro src first dst d f; rfl
  | succ n ih =>
    intro src first dst d f
    unfold uninitialized_move_n
    cases E.moveTick f with
    | none => rfl
    | some f1 =>
      have h := ih (src.set first ((src.getD first none).map E.movedFrom)) (first + 1)
        (dst.set d (src.getD first none)) (d + 1) f1
      simp only
      split
      · rename_i src1 dst1 heq
        rw [heq] at h
        simpa using h
      · simpa using h

theorem uninitialized_move_n_dst_getD (E : Elem α) :
    ∀ (n : Nat) (src : List (Option α)) (first : Nat) (dst : List (Option α)) (d k : Nat),
      (uninitialized_move_n E src first n dst d noFaults).2.2.getD k none =
        if d ≤ k ∧ k < d + n ∧ k < dst.length then src.getD (first + (k - d)) none
        else dst.getD k none := by
  intro n
  induction n with
  | zero => intro src first dst d k; rw [if_neg (by omega)]; rfl
  | succ n ih =>
    intro src first dst d k
    unfold uninitialized_move_n
    rw [moveTick_noFaults]
    have h := ih (src.set first ((src.getD first none).map E.movedFrom)) (first + 1)
      (dst.set d (src.getD first none)) (d + 1) k
    have h1 := uninitialized_move_n_ok E n
      (src.set first ((src.getD first none).map E.movedFrom)) (first + 1)
      (dst.set d (src.getD first none)) (d + 1)
    simp only
    split
    · rename_i src1 dst1 heq
      rw [heq] at h1
      simp at h1
    · rw [h]
      simp only [List.length_set, getD_set]
      by_cases h2 : d + 1 ≤ k
      · have e : first + 1 + (k - (d + 1)) = first + (k - d) := by omega
        rw [e]
        by_cases h3 : k < d + 1 + n ∧ k < dst.length
        · rw [if_pos (by omega), if_neg (by omega), if_pos (by omega)]
        · rw [if_neg (by omega), if_neg (by omega), if_neg (by omega)]
      · rw [if_neg (by omega)]
        by_cases h3 : d = k
        · subst h3
          by_cases h4 : d < dst.length
          · rw [if_pos (by omega), if_pos (by omega)]; simp
          · rw [if_neg (by omega), if_neg (by omega)]
        · rw [if_neg (by omega), if_neg (by omega)]

theorem uninitialized_move_n_src_getD (E : Elem α) :
    ∀ (n : Nat) (src : List (Option α)) (first : Nat) (dst : List (Option α)) (d k : Nat)
      (f : Faults), ¬ (first ≤ k ∧ k < first + n) →
      (uninitialized_move_n E src first n dst d f).2.1.getD k none = src.getD k none := by
  intro n
  induction n with
  | zero => intro src first dst d k f _; rfl
  | succ n ih =>
    intro src first dst d k f hk
    unfold uninitialized_move_n
    cases E.moveTick f with
    | none => rfl
    | some f1 =>
      have h := ih (src.set first ((src.getD first none).map E.movedFrom)) (first + 1)
        (dst.set d (src.getD first none)) (d + 1) k f1 (by omega)
      rw [getD_set, if_neg (by omega)] at h
      simp only
      split
      · rename_i src1 dst1 heq
        rw [heq] at h
        simpa using h
      · exact h

/-- A copy that completes builds the same block under every fault schedule. -/
theorem uninitialized_copy_n_succ (src : List (Option α)) :
    ∀ (n first : Nat) (dst : List (Option α)) (d : Nat) (f f2 : Faults),
      (uninitialized_copy_n src first n dst d f).1 = some f2 →
      (uninitialized_copy_n src first n dst d f).2 =
        (uninitialized_copy_n src first n dst d noFaults).2 := by
  intro n
  induction n with
  | zero => intro first dst d f f2 _; rfl
  | succ n ih =>
    intro first dst d f f2 h
    have hok := uninitialized_copy_n_ok src n (first + 1) (dst.set d (src.getD first none))
      (d + 1)
    unfold uninitialized_copy_n at h ⊢
    rw [tick_noFaults]
    cases ht : f.tick with
    | none => rw [ht] at h; simp at h
    | some f1 =>
      rw [ht] at h
      simp only at h ⊢
      have hi := ih (first + 1) (dst.set d (src.getD first none)) (d + 1) f1
      generalize uninitialized_copy_n src (first + 1) n (dst.set d (src.getD first none))
        (d + 1) f1 = r at h hi ⊢
      generalize uninitialized_copy_n src (first + 1) n (dst.set d (src.getD first none))
        (d + 1) noFaults = r0 at hok hi ⊢
      obtain ⟨o, cs⟩ := r
      obtain ⟨o0, cs0⟩ := r0
      cases o with
      | none => simp at h
      | some g =>
        cases o0 with
        | none => simp at hok
        | some g0 => exact hi g rfl

theorem uninitialized_move_n_succ (E : Elem α) :
    ∀ (n : Nat) (src : List (Option α)) (first : Nat) (dst : List (Option α)) (d : Nat)
      (f f2 : Faults),
      (uninitialized_move_n E src first n dst d f).1 = some f2 →
      (uninitialized_move_n E src first n dst d f).2 =
        (uninitialized_move_n E src first n dst d noFaults).2 := by
  intro n
  induction n with
  | zero => intro src first dst d f f2 _; rfl
  | succ n ih =>
    intro src first dst d f f2 h
    have hok := uninitialized_move_n_ok E n
      (src.set first ((src.getD first none).map E.movedFrom)) (first + 1)
      (dst.set d (src.getD first none)) (d + 1)
    unfold uninitialized_move_n at h ⊢
    rw [moveTick_noFaults]
    cases ht : E.moveTick f with
    | none => rw [ht] at h; simp at h
    | some f1 =>
      rw [ht] at h
      simp only at h ⊢
      have hi := ih (src.set first ((src.getD first none).map E.movedFrom)) (first + 1)
        (dst.set d (src.getD first none)) (d + 1) f1
      generalize uninitialized_move_n E
        (src.set first ((src.getD first none).map E.movedFrom)) (first + 1) n
        (dst.set d (src.getD first none)) (d + 1) f1 = r at h hi ⊢
      generalize uninitialized_move_n E
        (src.set first ((src.getD first none).map E.movedFrom)) (first + 1) n
        (dst.set d (src.getD first none)) (d + 1) noFaults = r0 at hok hi ⊢
      obtain ⟨o, cs⟩ := r
      obtain ⟨o0, cs0⟩ := r0
      cases o with
      | none => simp at h
      | some g =>
        cases o0 with
        | none => simp at hok
        | some g0 => exact hi g rfl

theorem tick_zero (f : Faults) (h : f.elem = some 0) : f.tick = none := by
  unfold Faults.tick
  rw [h]

theorem tick_succ (f : Faults) (k : Nat) (h : f.elem = some (k + 1)) :
    f.tick = some { f with elem := some k } := by
  unfold Faults.tick
  rw [h]

/-- A copy of `n` objects throws when fewer than `n` element operations are
left before the fault. -/
theorem uninitialized_copy_n_fail (src : List (Option α)) :
    ∀ (n first : Nat) (dst : List (Option α)) (d : Nat) (f : Faults) (k : Nat),
      f.elem = some k → k < n → (uninitialized_copy_n src first n dst d f).1 = none := by
  intro n
  induction n with
  | zero => intro first dst d f k _ hk; omega
  | succ n ih =>
    intro first dst d f k hf hk
    unfold uninitialized_copy_n
    cases k with
    | zero => rw [tick_zero f hf]
    | succ k =>
      rw [tick_succ f k hf]
      simp only
      have h := ih (first + 1) (dst.set d (src.getD first none)) (d + 1)
        { f with elem := some k } k rfl (by omega)
      generalize uninitialized_copy_n src (first + 1) n (dst.set d (src.getD first none))
        (d + 1) { f with elem := some k } = r at h ⊢
      obtain ⟨o, cs⟩ := r
      cases o with
      | none => rfl
      | some g => simp at h

theorem uninitialized_default_construct_n_length (E : Elem α) :
    ∀ (n : Nat) (cs : List (Option α)) (first : Nat) (f : Faults),
      (uninitialized_default_construct_n E cs first n f).2.length = cs.length := by
  intro n
  induction n with
  | zero => intro cs first f; rfl
  | succ n ih =>
    intro cs first f
    unfold uninitialized_default_construct_n
    cases f.tick with
    | none => rfl
    | some f1 =>
      have h := ih (cs.set first E.defaultInit) (first + 1) f1
      simp only
      generalize uninitialized_default_construct_n E (cs.set first E.defaultInit) (first + 1) n
        f1 = r at h ⊢
      obtain ⟨o, c1⟩ := r
      cases o <;> simpa using h

theorem uninitialized_default_construct_n_ok (E : Elem α) :
    ∀ (n : Nat) (cs : List (Option α)) (first : Nat),
      (uninitialized_default_construct_n E cs first n noFaults).1 = some noFaults := by
  intro n
  induction n with
  | zero => intro cs first; rfl
  | succ n ih =>
    intro cs first
    unfold uninitialized_default_construct_n
    rw [tick_noFaults]
    have h := ih (cs.set first E.defaultInit) (first + 1)
    simp only
    generalize uninitialized_default_construct_n E (cs.set first E.defaultInit) (first + 1) n
      noFaults = r at h ⊢
    obtain ⟨o, c1⟩ := r
    cases o with
    | none => simp at h
    | some g => exact h

theorem uninitialized_default_construct_n_getD (E : Elem α) :
    ∀ (n : Nat) (cs : List (Option α)) (first k : Nat),
      (uninitialized_default_construct_n E cs first n noFaults).2.getD k none =
        if first ≤ k ∧ k < first + n ∧ k < cs.length then E.defaultInit else cs.getD k none := by
  intro n
  induction n with
  | zero => intro cs first k; rw [if_neg (by omega)]; rfl
  | succ n ih =>
    intro cs first k
    unfold uninitialized_default_construct_n
    rw [tick_noFaults]
    have h := ih (cs.set first E.defaultInit) (first + 1) k
    have h1 := uninitialized_default_construct_n_ok E n (cs.set first E.defaultInit) (first + 1)
    simp only
    generalize uninitialized_default_construct_n E (cs.set first E.defaultInit) (first + 1) n
      noFaults = r at h h1 ⊢
    obtain ⟨o, c1⟩ := r
    cases o with
    | none => simp at h1
    | some g =>
      simp only at h ⊢
      rw [h]
      simp only [List.length_set, getD_set]
      split_ifs <;> first | rfl | (exfalso; omega)

theorem moveConstruct_length (E : Elem α) (cs : List (Option α)) (a b : Nat) :
    (moveConstruct E cs a b).length = cs.length := by
  simp [moveConstruct]

theorem moveConstruct_getD (E : Elem α) (cs : List (Option α)) (a b k : Nat) :
    (moveConstruct E cs a b).getD k none =
      if a = k ∧ a < cs.length then (cs.getD a none).map E.movedFrom
      else if b = k ∧ b < cs.length then cs.getD a none else cs.getD k none := by
  simp only [moveConstruct, getD_set, List.length_set]

theorem assignSlot_length (E : Elem α) (cs : List (Option α)) (d : Nat) (a : Option α) :
    (assignSlot E cs d a).length = cs.length := by
  unfold assignSlot
  split_ifs
  · simp
  · rfl

theorem isSome_of_lt (cs : List (Option α)) (d : Nat) (h : (cs.getD d none).isSome) :
    d < cs.length := by
  by_contra hc
  rw [getD_of_le cs d (by omega)] at h
  simp at h

/-- An assignment stores its value where the slot holds an object or the
destructor is trivial, and nowhere else. -/
theorem assignSlot_getD (E : Elem α) (cs : List (Option α)) (d k : Nat) (a : Option α) :
    (assignSlot E cs d a).getD k none =
      if d = k ∧ d < cs.length ∧
          ((cs.getD d none).isSome = true ∨ E.trivialDestructor = true) then a
      else cs.getD k none := by
  unfold assignSlot
  by_cases h : ((cs.getD d none).isSome || E.trivialDestructor) = true
  · rw [if_pos h, getD_set]
    have h2 : (cs.getD d none).isSome = true ∨ E.trivialDestructor = true := by
      simpa using h
    split_ifs <;> first | rfl | (exfalso; tauto)
  · rw [if_neg h]
    have h2 : ¬ ((cs.getD d none).isSome = true ∨ E.trivialDestructor = true) := by
      simpa using h
    rw [if_neg (by tauto)]

theorem moveAssign_length (E : Elem α) (cs : List (Option α)) (a b : Nat) :
    (moveAssign E cs a b).length = cs.length := by
  simp [moveAssign, assignSlot_length]

theorem moveAssign_getD (E : Elem α) (cs : List (Option α)) (a b k : Nat) :
    (moveAssign E cs a b).getD k none =
      if a = k ∧ a < cs.length then (cs.getD a none).map E.movedFrom
      else if b = k ∧ b < cs.length ∧
          ((cs.getD b none).isSome = true ∨ E.trivialDestructor = true) then cs.getD a none
      else cs.getD k none := by
  simp only [moveAssign, getD_set, assignSlot_getD, assignSlot_length]

theorem std_move_length (E : Elem α) :
    ∀ (n : Nat) (cs : List (Option α)) (first d : Nat) (f : Faults),
      (std_move E cs first n d f).2.length = cs.length := by
  intro n
  induction n with
  | zero => intro cs first d f; rfl
  | succ n ih =>
    intro cs first d f
    unfold std_move
    cases f.tick with
    | none => rfl
    | some f1 => simp only [ih, moveAssign_length]

theorem std_move_ok (E : Elem α) :
    ∀ (n : Nat) (cs : List (Option α)) (first d : Nat),
      (std_move E cs first n d noFaults).1 = some noFaults := by
  intro n
  induction n with
  | zero => intro cs first d; rfl
  | succ n ih =>
    intro cs first d
    unfold std_move
    rw [tick_noFaults]
    exact ih _ _ _

/-- The shift to the left `std::move(d + 1, d + 1 + n, d)` when every target
slot can be assigned to: it holds an object, or the destructor is trivial. -/
theorem std_move_getD (E : Elem α) :
    ∀ (n : Nat) (cs : List (Option α)) (d k : Nat), d + n < cs.length →
      (∀ j, d ≤ j → j < d + n →
        ((cs.getD j none).isSome = true ∨ E.trivialDestructor = true)) →
      (std_move E cs (d + 1) n d noFaults).2.getD k none =
        if d ≤ k ∧ k < d + n then cs.getD (k + 1) none
        else if k = d + n ∧ 0 < n then (cs.getD k none).map E.movedFrom
        else cs.getD k none := by
  intro n
  induction n with
  | zero =>
    intro cs d k _ _
    rw [if_neg (by omega), if_neg (by omega)]
    rfl
  | succ n ih =>
    intro cs d k hlen hlive
    unfold std_move
    rw [tick_noFaults]
    simp only
    have h0 := hlive d (by omega) (by omega)
    rw [ih _ (d + 1) k (by rw [moveAssign_length]; omega)]
    · simp only [moveAssign_getD, h0, and_true]
      split_ifs <;>
        first | rfl | (exfalso; omega) | (congr 1; omega) | (congr 2; omega)
    · intro j hj1 hj2
      by_cases ht : E.trivialDestructor = true
      · exact Or.inr ht
      · left
        have hj := (hlive j (by omega) (by omega)).resolve_right ht
        rw [moveAssign_getD]
        split_ifs with a1 a2
        · simp only [Option.isSome_map']
          rw [a1.1]
          exact hj
        · exfalso; omega
        · exact hj

theorem move_backward_length (E : Elem α) :
    ∀ (n : Nat) (cs : List (Option α)) (last d : Nat) (f : Faults),
      (move_backward E cs last n d f).2.length = cs.length := by
  intro n
  induction n with
  | zero => intro cs last d f; rfl
  | succ n ih =>
    intro cs last d f
    unfold move_backward
    cases f.tick with
    | none => rfl
    | some f1 => simp only [ih, moveAssign_length]

theorem move_backward_ok (E : Elem α) :
    ∀ (n : Nat) (cs : List (Option α)) (last d : Nat),
      (move_backward E cs last n d noFaults).1 = some noFaults := by
  intro n
  induction n with
  | zero => intro cs last d; rfl
  | succ n ih =>
    intro cs last d
    unfold move_backward
    rw [tick_noFaults]
    exact ih _ _ _

/-- The shift to the right of `Emplace`,
`std::move_backward(last - n, last, last + 1)`, when every target slot can be
assigned to: it holds an object, or the destructor is trivial. -/
theorem move_backward_getD (E : Elem α) :
    ∀ (n : Nat) (cs : List (Option α)) (last k : Nat), n ≤ last → last < cs.length →
      (∀ j, last - n < j → j ≤ last →
        ((cs.getD j none).isSome = true ∨ E.trivialDestructor = true)) →
      (move_backward E cs last n (last + 1) noFaults).2.getD k none =
        if last - n < k ∧ k ≤ last then cs.getD (k - 1) none
        else if k = last - n ∧ 0 < n then (cs.getD k none).map E.movedFrom
        else cs.getD k none := by
  intro n
  induction n with
  | zero =>
    intro cs last k _ _ _
    rw [if_neg (by omega), if_neg (by omega)]
    rfl
  | succ n ih =>
    intro cs last k hn hlen hlive
    unfold move_backward
    rw [tick_noFaults]
    simp only
    obtain ⟨l, rfl⟩ : ∃ l, last = l + 1 := ⟨last - 1, by omega⟩
    simp only [Nat.add_sub_cancel]
    have h0 := hlive (l + 1) (by omega) (by omega)
    rw [ih _ l k (by omega) (by rw [moveAssign_length]; omega)]
    · simp only [moveAssign_getD, h0, and_true]
      split_ifs <;>
        first | rfl | (exfalso; omega) | (congr 1; omega) | (congr 2; omega)
    · intro j hj1 hj2
      by_cases ht : E.trivialDestructor = true
      · exact Or.inr ht
      · left
        have hj := (hlive j (by omega) (by omega)).resolve_right ht
        rw [moveAssign_getD]
        split_ifs with a1 a2
        · simp only [Option.isSome_map']
          rw [a1.1]
          exact hj
        · exfalso; omega
        · exact hj

/-! ## RawMemory -/

theorem cells_store (m : RawMemory α) (cs : List (Option α))
    (h : cs.length = m.cells.length) : (m.store cs).cells = cs := by
  unfold RawMemory.store RawMemory.cells at *
  cases hb : m.buffer_ with
  | none =>
    rw [hb] at h
    simp at h
    simp [h]
  | some b => simp

theorem capacity_store (m : RawMemory α) (cs : List (Option α)) :
    (m.store cs).capacity_ = m.capacity_ := rfl

theorem ofCapacity_ok (f : Faults) (n : Nat) (h : f.alloc = false) :
    ∃ m : RawMemory α, RawMemory.ofCapacity f n = .ok m ∧
      m.cells = List.replicate n none ∧ m.capacity_ = n := by
  unfold RawMemory.ofCapacity RawMemory.Allocate
  by_cases hn : n = 0
  · subst hn
    exact ⟨⟨none, 0⟩, by simp, rfl, rfl⟩
  · exact ⟨⟨some (List.replicate n none), n⟩, by simp [hn, h], rfl, rfl⟩

theorem ofCapacity_fail (f : Faults) (n : Nat) (h : f.alloc = true) (hn : n ≠ 0) :
    (RawMemory.ofCapacity f n : Except Failure (RawMemory α)) =
      .error .AllocationFailure := by
  simp [RawMemory.ofCapacity, RawMemory.Allocate, hn, h]

theorem ofCapacity_capacity (f : Faults) (n : Nat) (m : RawMemory α)
    (h : RawMemory.ofCapacity f n = .ok m) : m.capacity_ = n := by
  unfold RawMemory.ofCapacity at h
  split at h
  · simp at h
  · simp at h
    rw [← h]

theorem getD_replicate_none (n k : Nat) :
    (List.replicate n (none : Option α)).getD k none = none := by
  simp only [List.getD_eq_getElem?_getD, List.getElem?_replicate]
  split <;> rfl

namespace Vector

/-! ## Reading a well-formed vector -/

theorem holds_iff (v : Vector α) (s : List α) :
    Holds v s ↔ v.data_.cells.length = v.data_.capacity_ ∧ v.size_ ≤ v.data_.capacity_ ∧
      v.size_ = s.length ∧ ∀ k, k < v.size_ → v.data_.cells.getD k none = s[k]? := by
  unfold Holds contents
  constructor
  · rintro ⟨h1, h2, h3⟩
    have hlen : v.size_ = s.length := by
      have := congrArg List.length h3
      simp at this
      omega
    refine ⟨h1, h2, hlen, ?_⟩
    intro k hk
    have := congrArg (fun l => l[k]?) h3
    simp only [List.getElem?_take, hk, if_true, List.getElem?_map] at this
    rw [List.getD_eq_getElem?_getD, this]
    cases s[k]? <;> rfl
  · rintro ⟨h1, h2, h3, h4⟩
    refine ⟨h1, h2, ?_⟩
    apply List.ext_getElem?
    intro k
    simp only [List.getElem?_take, List.getElem?_map]
    by_cases hk : k < v.size_
    · have h5 := h4 k hk
      have h6 : k < v.data_.cells.length := by omega
      rw [List.getD_eq_getElem?_getD, List.getElem?_eq_getElem h6] at h5
      simp only [hk, if_true, List.getElem?_eq_getElem h6]
      simp at h5
      rw [h5]
      have h7 : k < s.length := by omega
      simp [List.getElem?_eq_getElem h7]
    · simp only [hk, if_false]
      rw [List.getElem?_eq_none (by omega)]
      rfl

theorem swap_fst (a b : RawMemory α) : (RawMemory.Swap a b).1 = b := rfl

/-! ## Relocation into a new block -/

theorem relocate_ok (E : Elem α) (v : Vector α) (new_data : RawMemory α)
    (nc : List (Option α)) (hlen : nc.length = new_data.cells.length) :
    (relocate E v new_data nc noFaults).1 = some noFaults ∧
    (relocate E v new_data nc noFaults).2.size_ = v.size_ ∧
    (relocate E v new_data nc noFaults).2.data_.capacity_ = new_data.capacity_ ∧
    (relocate E v new_data nc noFaults).2.data_.cells.length = nc.length ∧
    ∀ k, (relocate E v new_data nc noFaults).2.data_.cells.getD k none =
      if k < v.size_ ∧ k < nc.length then v.data_.cells.getD k none else nc.getD k none := by
  unfold relocate
  split
  · have h1 := uninitialized_move_n_ok E v.size_ v.data_.cells 0 nc 0
    have h2 := uninitialized_move_n_dst_getD E v.size_ v.data_.cells 0 nc 0
    have h3 := uninitialized_move_n_dst_length E v.size_ v.data_.cells 0 nc 0 noFaults
    split
    · rename_i src1 dst1 heq
      rw [heq] at h1
      simp at h1
    · rename_i f1 src1 dst1 heq
      rw [heq] at h1 h2 h3
      simp only at h1 h2 h3
      have e := cells_store new_data dst1 (by omega)
      refine ⟨h1, rfl, rfl, ?_, ?_⟩
      · show (new_data.store dst1).cells.length = nc.length
        rw [e]; exact h3
      · intro k
        show (new_data.store dst1).cells.getD k none = _
        rw [e, h2]
        simp
  · have h1 := uninitialized_copy_n_ok v.data_.cells v.size_ 0 nc 0
    have h2 := uninitialized_copy_n_getD v.data_.cells v.size_ 0 nc 0
    have h3 := uninitialized_copy_n_length v.data_.cells v.size_ 0 nc 0 noFaults
    split
    · rename_i dst1 heq
      rw [heq] at h1
      simp at h1
    · rename_i f1 dst1 heq
      rw [heq] at h1 h2 h3
      simp only at h1 h2 h3
      have e := cells_store new_data dst1 (by omega)
      refine ⟨h1, rfl, rfl, ?_, ?_⟩
      · show (new_data.store dst1).cells.length = nc.length
        rw [e]; exact h3
      · intro k
        show (new_data.store dst1).cells.getD k none = _
        rw [e, h2]
        simp

theorem ofCapacity_succ (f : Faults) (n : Nat) (m : RawMemory α)
    (h : RawMemory.ofCapacity f n = .ok m) : RawMemory.ofCapacity noFaults n = .ok m := by
  unfold RawMemory.ofCapacity RawMemory.Allocate at h ⊢
  by_cases hn : n = 0
  · simpa [hn] using h
  · cases ha : f.alloc with
    | true => simp [hn, ha] at h
    | false => simpa [hn, ha, noFaults] using h

/-- A relocation that completes gives the same vector under every fault
schedule. -/
theorem relocate_succ (E : Elem α) (v : Vector α) (new_data : RawMemory α)
    (nc : List (Option α)) (f f2 : Faults) (h : (relocate E v new_data nc f).1 = some f2) :
    (relocate E v new_data nc f).2 = (relocate E v new_data nc noFaults).2 := by
  unfold relocate at h ⊢
  by_cases hm : E.relocatesByMove = true
  · simp only [hm, if_true] at h ⊢
    have hok := uninitialized_move_n_ok E v.size_ v.data_.cells 0 nc 0
    have hs := uninitialized_move_n_succ E v.size_ v.data_.cells 0 nc 0 f
    generalize uninitialized_move_n E v.data_.cells 0 v.size_ nc 0 f = r at h hs ⊢
    generalize uninitialized_move_n E v.data_.cells 0 v.size_ nc 0 noFaults = r0 at hok hs ⊢
    obtain ⟨o, a, b⟩ := r
    obtain ⟨o0, a0, b0⟩ := r0
    cases o with
    | none => simp at h
    | some g =>
      cases o0 with
      | none => simp at hok
      | some g0 =>
        have := hs g rfl
        simp only [Prod.mk.injEq] at this
        simp only [this.1, this.2]
  · simp only [Bool.not_eq_true] at hm
    simp only [hm, Bool.false_eq_true, if_false] at h ⊢
    have hok := uninitialized_copy_n_ok v.data_.cells v.size_ 0 nc 0
    have hs := uninitialized_copy_n_succ v.data_.cells v.size_ 0 nc 0 f
    generalize uninitialized_copy_n v.data_.cells 0 v.size_ nc 0 f = r at h hs ⊢
    generalize uninitialized_copy_n v.data_.cells 0 v.size_ nc 0 noFaults = r0 at hok hs ⊢
    obtain ⟨o, b⟩ := r
    obtain ⟨o0, b0⟩ := r0
    cases o with
    | none => simp at h
    | some g =>
      cases o0 with
      | none => simp at hok
      | some g0 =>
        have := hs g rfl
        simp only at this
        simp only [this]

theorem relocate_size (E : Elem α) (v : Vector α) (new_data : RawMemory α)
    (nc : List (Option α)) (f : Faults) : (relocate E v new_data nc f).2.size_ = v.size_ := by
  unfold relocate
  split <;> split <;> rfl

theorem relocate_capacity (E : Elem α) (v : Vector α) (new_data : RawMemory α)
    (nc : List (Option α)) (f : Faults) :
    (relocate E v new_data nc f).2.data_.capacity_ =
      if (relocate E v new_data nc f).1 = none then v.data_.capacity_
      else new_data.capacity_ := by
  unfold relocate
  split <;> split <;> simp [RawMemory.store, RawMemory.Swap]

/-- A type relocated by copy: a relocation that throws leaves the vector as it
was. -/
theorem relocate_copy_fail (E : Elem α) (v : Vector α) (new_data : RawMemory α)
    (nc : List (Option α)) (f : Faults) (hE : E.relocatesByMove = false)
    (h : (relocate E v new_data nc f).1 = none) : (relocate E v new_data nc f).2 = v := by
  unfold relocate at h ⊢
  simp only [hE, Bool.false_eq_true, if_false] at h ⊢
  split
  · rfl
  · rename_i heq
    rw [heq] at h
    simp at h

theorem relocate_copy_elem_fail (E : Elem α) (v : Vector α) (new_data : RawMemory α)
    (nc : List (Option α)) (f : Faults) (k : Nat) (hE : E.relocatesByMove = false)
    (hf : f.elem = some k) (hk : k < v.size_) : (relocate E v new_data nc f).1 = none := by
  have h := uninitialized_copy_n_fail v.data_.cells v.size_ 0 nc 0 f k hf hk
  unfold relocate
  simp only [hE, Bool.false_eq_true, if_false]
  split
  · rfl
  · rename_i heq
    rw [heq] at h
    simp at h

/-- From slot values to `Holds`. -/
theorem holds_of_getD (v : Vector α) (s : List α)
    (h1 : v.data_.cells.length = v.data_.capacity_) (h2 : v.size_ ≤ v.data_.capacity_)
    (h3 : v.size_ = s.length) (h4 : ∀ k, k < v.size_ → v.data_.cells.getD k none = s[k]?) :
    Holds v s := (holds_iff v s).2 ⟨h1, h2, h3, h4⟩

/-! ## Reserve -/

theorem Reserve_ok (E : Elem α) (v : Vector α) (s : List α) (n : Nat) (h : Holds v s) :
    (Reserve E v n noFaults).res = .ok () ∧ Holds (Reserve E v n noFaults).vec s ∧
    (Reserve E v n noFaults).vec.Capacity = (if n ≤ v.Capacity then v.Capacity else n) ∧
    (Reserve E v n noFaults).rest = noFaults := by
  obtain ⟨h1, h2, h3, h4⟩ := (holds_iff v s).1 h
  unfold Reserve
  by_cases hn : n ≤ v.data_.Capacity
  · simp only [hn, if_true, Capacity]
    exact ⟨trivial, h, trivial, trivial⟩
  · simp only [hn, if_false, Capacity]
    obtain ⟨m, hm, hc, hcap⟩ := ofCapacity_ok (α := α) noFaults n rfl
    rw [hm]
    simp only
    obtain ⟨r1, r2, r3, r4, r5⟩ := relocate_ok E v m m.cells rfl
    split
    · rename_i v1 heq
      rw [heq] at r1
      simp at r1
    · rename_i f1 v1 heq
      rw [heq] at r1 r2 r3 r4 r5
      simp only at r1 r2 r3 r4 r5
      simp only [RawMemory.Capacity] at hn
      refine ⟨rfl, ?_, by show v1.data_.capacity_ = n; rw [r3, hcap], by simpa using r1⟩
      apply holds_of_getD
      · rw [r4, hc, r3, hcap]; simp
      · rw [r2, r3, hcap]; omega
      · rw [r2]; exact h3
      · intro k hk
        rw [r2] at hk
        rw [r5, if_pos, h4 k hk]
        rw [hc]
        simp
        omega

/-- A `Reserve` that returns leaves the same vector under every fault schedule. -/
theorem Reserve_succ (E : Elem α) (v : Vector α) (n : Nat) (f : Faults)
    (h : (Reserve E v n f).res = .ok ()) :
    (Reserve E v n f).vec = (Reserve E v n noFaults).vec := by
  unfold Reserve at h ⊢
  by_cases hn : n ≤ v.data_.Capacity
  · simp only [hn, if_true]
  · simp only [hn, if_false] at h ⊢
    cases hm : (RawMemory.ofCapacity f n : Except Failure (RawMemory α)) with
    | error e => rw [hm] at h; simp at h
    | ok m =>
      rw [ofCapacity_succ f n m hm]
      rw [hm] at h
      simp only at h ⊢
      have hok := (relocate_ok E v m m.cells rfl).1
      have hs := relocate_succ E v m m.cells f
      generalize relocate E v m m.cells f = r at h hs ⊢
      generalize relocate E v m m.cells noFaults = r0 at hok hs ⊢
      obtain ⟨o, a⟩ := r
      obtain ⟨o0, a0⟩ := r0
      cases o with
      | none => simp at h
      | some g =>
        cases o0 with
        | none => simp at hok
        | some g0 => exact hs g rfl

/-! ## PushBack, EmplaceBack, PopBack -/

theorem get_snoc (s : List α) (x : α) (k : Nat) :
    (s ++ [x])[k]? = if k < s.length then s[k]? else if k = s.length then some x else none := by
  rw [List.getElem?_append]
  by_cases h : k < s.length
  · simp only [h, if_true]
  · simp only [h, if_false]
    by_cases h2 : k = s.length
    · subst h2; simp
    · simp only [h2, if_false]
      apply List.getElem?_eq_none
      simp
      omega

/-- The growth step of `PushBack`, `EmplaceBack` and `Emplace`. -/
theorem temp_size_gt (n : Nat) : n < (if n = 0 then 1 else n * 2) := by
  split <;> omega

theorem EmplaceBack_ok (E : Elem α) (v : Vector α) (s : List α) (x : α) (h : Holds v s) :
    (EmplaceBack E v x noFaults).res = .ok s.length ∧
    Holds (EmplaceBack E v x noFaults).vec (s ++ [x]) ∧
    (EmplaceBack E v x noFaults).vec.Capacity =
      (if v.Size = v.Capacity then (if v.Size = 0 then 1 else v.Size * 2) else v.Capacity) := by
  obtain ⟨h1, h2, h3, h4⟩ := (holds_iff v s).1 h
  unfold EmplaceBack
  by_cases hn : v.size_ = v.data_.Capacity
  · simp only [hn, if_true, Capacity, Size]
    rw [← hn]
    have hgt := temp_size_gt v.size_
    generalize (if v.size_ = 0 then 1 else v.size_ * 2) = t at hgt ⊢
    obtain ⟨m, hm, hc, hcap⟩ := ofCapacity_ok (α := α) noFaults t rfl
    rw [hm]
    simp only [tick_noFaults]
    obtain ⟨r1, r2, r3, r4, r5⟩ := relocate_ok E v m (m.cells.set v.size_ (some x)) (by simp)
    split
    · rename_i v1 heq
      rw [heq] at r1
      simp at r1
    · rename_i f1 v1 heq
      rw [heq] at r1 r2 r3 r4 r5
      simp only at r1 r2 r3 r4 r5
      simp only [List.length_set, hc, List.length_replicate] at r4 r5
      refine ⟨by simp [r2, h3], ?_, by show v1.data_.capacity_ = _; rw [r3, hcap]⟩
      apply holds_of_getD
      · show v1.data_.cells.length = v1.data_.capacity_
        rw [r4, r3, hcap]
      · show v1.size_ + 1 ≤ v1.data_.capacity_
        rw [r2, r3, hcap]; omega
      · show v1.size_ + 1 = _
        rw [r2, h3]; simp
      · intro k hk
        have hk2 : k < v.size_ + 1 := by rw [← r2]; exact hk
        show v1.data_.cells.getD k none = _
        rw [r5, get_snoc]
        by_cases hk3 : k < v.size_
        · rw [if_pos (by omega), if_pos (by omega), h4 k hk3]
        · have e : k = v.size_ := by omega
          subst e
          have c1 : ¬ (v.size_ < v.size_ ∧ v.size_ < t) := by omega
          have c2 : ¬ (v.size_ < s.length) := by omega
          rw [if_neg c1, if_neg c2, if_pos h3, getD_set,
            if_pos ⟨rfl, by rw [List.length_replicate]; exact hgt⟩]
  · simp only [hn, if_false, Capacity, Size, tick_noFaults]
    have hlt : v.size_ < v.data_.capacity_ := by
      simp only [RawMemory.Capacity] at hn; omega
    have e := cells_store v.data_ (v.data_.cells.set v.size_ (some x)) (by simp)
    refine ⟨by simp [h3], ?_, rfl⟩
    apply holds_of_getD
    · show (v.data_.store _).cells.length = v.data_.capacity_
      rw [e]; simpa using h1
    · show v.size_ + 1 ≤ v.data_.capacity_
      omega
    · show v.size_ + 1 = _
      rw [h3]; simp
    · intro k hk
      have hk2 : k < v.size_ + 1 := hk
      show (v.data_.store _).cells.getD k none = _
      rw [e, get_snoc, getD_set]
      by_cases hk3 : k < v.size_
      · rw [if_neg (by omega), if_pos (by omega), h4 k hk3]
      · rw [if_pos (by omega), if_neg (by omega), if_pos (by omega)]

/-- The two `PushBack` overloads and `EmplaceBack` have the same body but for
the value returned. -/
theorem PushBack_eq_EmplaceBack (E : Elem α) (v : Vector α) (x : α) (f : Faults) :
    (PushBack E v x f).vec = (EmplaceBack E v x f).vec ∧
    (PushBack E v x f).rest = (EmplaceBack E v x f).rest ∧
    (PushBack E v x f).res = (EmplaceBack E v x f).res.map (fun _ => ()) := by
  unfold PushBack EmplaceBack
  split
  · simp only
    split
    · exact ⟨rfl, rfl, rfl⟩
    · split
      · exact ⟨rfl, rfl, rfl⟩
      · split <;> exact ⟨rfl, rfl, rfl⟩
  · split <;> exact ⟨rfl, rfl, rfl⟩

theorem PushBackMove_noFaults (E : Elem α) (v : Vector α) (x : α) :
    PushBackMove E v x noFaults = PushBack E v x noFaults := by
  unfold PushBackMove PushBack
  simp only [tick_noFaults, moveTick_noFaults]

theorem PushBack_ok (E : Elem α) (v : Vector α) (s : List α) (x : α) (h : Holds v s) :
    (PushBack E v x noFaults).res = .ok () ∧
    Holds (PushBack E v x noFaults).vec (s ++ [x]) ∧
    (PushBack E v x noFaults).vec.Capacity =
      (if v.Size = v.Capacity then (if v.Size = 0 then 1 else v.Size * 2) else v.Capacity) := by
  obtain ⟨e1, _, e3⟩ := PushBack_eq_EmplaceBack E v x noFaults
  obtain ⟨r1, r2, r3⟩ := EmplaceBack_ok E v s x h
  rw [e1, e3, r1]
  exact ⟨rfl, r2, r3⟩

theorem PopBack_ok (v : Vector α) (s : List α) (h : Holds v s) (hs : s ≠ []) :
    ∃ v1, PopBack v = some v1 ∧ Holds v1 s.dropLast ∧ v1.Capacity = v.Capacity := by
  obtain ⟨h1, h2, h3, h4⟩ := (holds_iff v s).1 h
  have hpos : 0 < v.size_ := by
    rw [h3]; exact List.length_pos.2 hs
  unfold PopBack
  rw [if_pos hpos]
  refine ⟨_, rfl, ?_, rfl⟩
  have e := cells_store v.data_ (v.data_.cells.set (v.size_ - 1) none) (by simp)
  apply holds_of_getD
  · show (v.data_.store _).cells.length = v.data_.capacity_
    rw [e]; simpa using h1
  · show v.size_ - 1 ≤ v.data_.capacity_
    omega
  · show v.size_ - 1 = _
    rw [h3]; simp
  · intro k hk
    have hk2 : k < v.size_ - 1 := hk
    show (v.data_.store _).cells.getD k none = _
    rw [e, getD_set, if_neg (by omega), h4 k (by omega), List.dropLast_eq_take,
      List.getElem?_take]
    rw [if_pos (by omega)]

theorem holds_empty : Holds (Vector.empty : Vector α) [] := by
  refine ⟨rfl, Nat.le_refl _, rfl⟩

theorem runCalls_ok (E : Elem α) : ∀ (calls : List (Call α)) (v : Vector α) (s : List α),
    Holds v s → popsValid calls s.length = true →
    ∃ v1, runCalls E calls v = some v1 ∧ Holds v1 (seqAfter calls s) ∧
      (seqAfter calls s).length + pops calls = s.length + pushes calls := by
  intro calls
  induction calls with
  | nil => intro v s h _; exact ⟨v, rfl, h, rfl⟩
  | cons c cs ih =>
    intro v s h hv
    cases c with
    | push x =>
      obtain ⟨r1, r2, _⟩ := PushBack_ok E v s x h
      have hv2 : popsValid cs (s ++ [x]).length = true := by simpa [popsValid] using hv
      obtain ⟨v1, a1, a2, a3⟩ := ih _ _ r2 hv2
      refine ⟨v1, ?_, a2, ?_⟩
      · simp only [runCalls]
        split
        · rename_i heq
          rw [← a1]
          have := congrArg Ret.vec heq
          simp only at this
          rw [this]
        · rename_i heq
          have := congrArg Ret.res heq
          rw [r1] at this
          simp at this
      · simp only [seqAfter, pops, pushes]
        simp at a3
        omega
    | pushMove x =>
      obtain ⟨r1, r2, _⟩ := PushBack_ok E v s x h
      rw [← PushBackMove_noFaults] at r1 r2
      have hv2 : popsValid cs (s ++ [x]).length = true := by simpa [popsValid] using hv
      obtain ⟨v1, a1, a2, a3⟩ := ih _ _ r2 hv2
      refine ⟨v1, ?_, a2, ?_⟩
      · simp only [runCalls]
        split
        · rename_i heq
          rw [← a1]
          have := congrArg Ret.vec heq
          simp only at this
          rw [this]
        · rename_i heq
          have := congrArg Ret.res heq
          rw [r1] at this
          simp at this
      · simp only [seqAfter, pops, pushes]
        simp at a3
        omega
    | pop =>
      simp only [popsValid, Bool.and_eq_true, decide_eq_true_eq] at hv
      have hs : s ≠ [] := List.length_pos.1 hv.1
      obtain ⟨v0, p1, p2, _⟩ := PopBack_ok v s h hs
      have hv2 : popsValid cs s.dropLast.length = true := by simpa using hv.2
      obtain ⟨v1, a1, a2, a3⟩ := ih _ _ p2 hv2
      refine ⟨v1, ?_, a2, ?_⟩
      · simp only [runCalls, p1]
        exact a1
      · simp only [seqAfter, pops, pushes]
        simp at a3
        omega

end Vector

end YP

namespace YP

namespace Vector

/-! ## Emplace and Erase -/

theorem get_insert (s : List α) (x : α) (i k : Nat) (hi : i ≤ s.length) :
    (s.take i ++ [x] ++ s.drop i)[k]? =
      if k < i then s[k]? else if k = i then some x else s[k - 1]? := by
  rw [List.getElem?_append, List.getElem?_append]
  simp only [List.length_append, List.length_take, List.length_singleton,
    List.getElem?_take, List.getElem?_drop, Nat.min_eq_left hi]
  by_cases h1 : k < i
  · rw [if_pos (by omega), if_pos h1, if_pos h1, if_pos h1]
  · by_cases h2 : k = i
    · subst h2
      rw [if_pos (by omega), if_neg h1, if_neg h1, if_pos rfl]
      simp
    · rw [if_neg (by omega), if_neg h1, if_neg h2]
      congr 1
      omega

theorem toInt_of_lt (n : Nat) (h : n < 2 ^ 31) : toInt n = (n : Int) := by
  unfold toInt
  have e : n % 2 ^ 32 = n := Nat.mod_eq_of_lt (by omega)
  rw [e, if_pos h]
  rfl

/-- An argument from outside the vector at a position below `2^31`: the element
is inserted at that position, on both branches. -/
theorem Emplace_ok (E : Elem α) (v : Vector α) (s : List α) (pos : Nat) (x : α)
    (h : Holds v s) (hpos : pos ≤ s.length) (hint : pos < 2 ^ 31) :
    (Emplace E v pos (.val x) noFaults).res = .ok (pos : Int) ∧
    Holds (Emplace E v pos (.val x) noFaults).vec (s.take pos ++ [x] ++ s.drop pos) ∧
    (Emplace E v pos (.val x) noFaults).vec.Capacity =
      (if v.Size = v.Capacity then (if v.Size = 0 then 1 else v.Size * 2) else v.Capacity) := by
  obtain ⟨h1, h2, h3, h4⟩ := (holds_iff v s).1 h
  have hd : toInt pos = (pos : Int) := toInt_of_lt pos hint
  have hneg : ¬ ((pos : Int) < 0) := by omega
  have hlen : (s.take pos ++ [x] ++ s.drop pos).length = v.size_ + 1 := by
    simp only [List.length_append, List.length_take, List.length_singleton, List.length_drop]
    omega
  unfold Emplace
  by_cases hn : v.size_ = v.Capacity
  · simp only [hn, if_true, Capacity, Size]
    simp only [Capacity] at hn
    rw [← hn]
    have hgt := temp_size_gt v.size_
    generalize (if v.size_ = 0 then 1 else v.size_ * 2) = t at hgt ⊢
    obtain ⟨m, hm, hc, hcap⟩ := ofCapacity_ok (α := α) noFaults t rfl
    rw [hm]
    simp only [hd, hneg, if_false, Int.toNat_ofNat, Arg.tick, Arg.construct, tick_noFaults]
    have hc0 : (m.cells.set pos (some x)).length = t := by simp [hc]
    split
    · -- relocation by move
      have a1 := uninitialized_move_n_ok E pos v.data_.cells 0 (m.cells.set pos (some x)) 0
      have a2 := uninitialized_move_n_dst_getD E pos v.data_.cells 0
        (m.cells.set pos (some x)) 0
      have a3 := uninitialized_move_n_dst_length E pos v.data_.cells 0
        (m.cells.set pos (some x)) 0 noFaults
      have a4 := fun k => uninitialized_move_n_src_getD E pos v.data_.cells 0
        (m.cells.set pos (some x)) 0 k noFaults
      split
      · rename_i src1 dst1 heq
        rw [heq] at a1
        simp at a1
      · rename_i f2 src1 c1 heq
        rw [heq] at a1 a2 a3 a4
        simp only [Option.some.injEq] at a1 a2 a3 a4
        subst a1
        have b1 := uninitialized_move_n_ok E (v.size_ - pos) src1 pos c1 (pos + 1)
        have b2 := uninitialized_move_n_dst_getD E (v.size_ - pos) src1 pos c1 (pos + 1)
        have b3 := uninitialized_move_n_dst_length E (v.size_ - pos) src1 pos c1 (pos + 1)
          noFaults
        split
        · rename_i src2 dst2 heq2
          rw [heq2] at b1
          simp at b1
        · rename_i f3 src2 c2 heq2
          rw [heq2] at b1 b2 b3
          simp only at b1 b2 b3
          have e := cells_store m c2 (by rw [b3, a3, hc0, hc]; simp)
          refine ⟨rfl, ?_, by show m.capacity_ = t; exact hcap⟩
          apply holds_of_getD
          · show (m.store c2).cells.length = m.capacity_
            rw [e, b3, a3, hc0, hcap]
          · show v.size_ + 1 ≤ m.capacity_
            rw [hcap]; omega
          · show v.size_ + 1 = _
            rw [hlen]
          · intro k hk
            have hk2 : k < v.size_ + 1 := hk
            show (m.store c2).cells.getD k none = _
            rw [e, b2, get_insert _ _ _ _ hpos, a3, hc0]
            by_cases c1 : k < pos
            · rw [if_neg (by omega), a2, if_pos (by omega), if_pos c1]
              simp only [Nat.zero_add, Nat.sub_zero]
              exact h4 k (by omega)
            · by_cases c2 : k = pos
              · subst c2
                rw [if_neg (by omega), a2, if_neg (by omega), if_neg c1, if_pos rfl,
                  getD_set, if_pos ⟨rfl, by rw [hc]; simp; omega⟩]
              · rw [if_pos (by omega), if_neg c1, if_neg c2, a4 _ (by omega)]
                have : pos + (k - (pos + 1)) = k - 1 := by omega
                rw [this]
                exact h4 _ (by omega)
    · -- relocation by copy
      have a1 := uninitialized_copy_n_ok v.data_.cells pos 0 (m.cells.set pos (some x)) 0
      have a2 := uninitialized_copy_n_getD v.data_.cells pos 0 (m.cells.set pos (some x)) 0
      have a3 := uninitialized_copy_n_length v.data_.cells pos 0
        (m.cells.set pos (some x)) 0 noFaults
      split
      · rename_i dst1 heq
        rw [heq] at a1
        simp at a1
      · rename_i f2 c1 heq
        rw [heq] at a1 a2 a3
        simp only [Option.some.injEq] at a1 a2 a3
        subst a1
        have b1 := uninitialized_copy_n_ok v.data_.cells (v.size_ - pos) pos c1 (pos + 1)
        have b2 := uninitialized_copy_n_getD v.data_.cells (v.size_ - pos) pos c1 (pos + 1)
        have b3 := uninitialized_copy_n_length v.data_.cells (v.size_ - pos) pos c1 (pos + 1)
          noFaults
        split
        · rename_i dst2 heq2
          rw [heq2] at b1
          simp at b1
        · rename_i f3 c2 heq2
          rw [heq2] at b1 b2 b3
          simp only at b1 b2 b3
          have e := cells_store m c2 (by rw [b3, a3, hc0, hc]; simp)
          refine ⟨rfl, ?_, by show m.capacity_ = t; exact hcap⟩
          apply holds_of_getD
          · show (m.store c2).cells.length = m.capacity_
            rw [e, b3, a3, hc0, hcap]
          · show v.size_ + 1 ≤ m.capacity_
            rw [hcap]; omega
          · show v.size_ + 1 = _
            rw [hlen]
          · intro k hk
            have hk2 : k < v.size_ + 1 := hk
            show (m.store c2).cells.getD k none = _
            rw [e, b2, get_insert _ _ _ _ hpos, a3, hc0]
            by_cases c1 : k < pos
            · rw [if_neg (by omega), a2, if_pos (by omega), if_pos c1]
              simp only [Nat.zero_add, Nat.sub_zero]
              exact h4 k (by omega)
            · by_cases c2 : k = pos
              · subst c2
                rw [if_neg (by omega), a2, if_neg (by omega), if_neg c1, if_pos rfl,
                  getD_set, if_pos ⟨rfl, by rw [hc]; simp; omega⟩]
              · rw [if_pos (by omega), if_neg c1, if_neg c2]
                have : pos + (k - (pos + 1)) = k - 1 := by omega
                rw [this]
                exact h4 _ (by omega)
  · simp only [Capacity] at hn
    simp only [hn, if_false, Capacity, Size]
    have hlt : v.size_ < v.data_.capacity_ := by
      simp only [RawMemory.Capacity] at hn; omega
    by_cases hp : pos = v.size_
    · subst hp
      simp only [if_true, hd, Arg.tick, Arg.construct, tick_noFaults]
      have e := cells_store v.data_ (v.data_.cells.set v.size_ (some x)) (by simp)
      refine ⟨trivial, ?_, rfl⟩
      apply holds_of_getD
      · show (v.data_.store _).cells.length = v.data_.capacity_
        rw [e]; simpa using h1
      · show v.size_ + 1 ≤ v.data_.capacity_
        omega
      · show v.size_ + 1 = _
        rw [hlen]
      · intro k hk
        have hk2 : k < v.size_ + 1 := hk
        show (v.data_.store _).cells.getD k none = _
        rw [e, get_insert _ _ _ _ hpos, getD_set]
        by_cases hk3 : k < v.size_
        · rw [if_neg (by omega), if_pos hk3, h4 k (by omega)]
        · rw [if_pos (by omega), if_neg hk3, if_pos (by omega)]
    · simp only [hp, if_false, moveTick_noFaults, hd, hneg, Int.toNat_ofNat, Arg.tick,
        Arg.construct]
      have hps : pos < v.size_ := by omega
      have hsome : ∀ k, k < v.size_ → (v.data_.cells.getD k none).isSome := by
        intro k hk
        rw [h4 k hk, List.getElem?_eq_getElem (by omega)]
        rfl
      have b1 := move_backward_ok E (v.size_ - 1 - pos)
        (moveConstruct E v.data_.cells (v.size_ - 1) v.size_) (v.size_ - 1) v.size_
      have b2 := fun k => move_backward_getD E (v.size_ - 1 - pos)
        (moveConstruct E v.data_.cells (v.size_ - 1) v.size_) (v.size_ - 1) k (by omega)
        (by rw [moveConstruct_length]; omega)
        (by
          intro j hj1 hj2
          left
          rw [moveConstruct_getD]
          split_ifs
          · simp only [Option.isSome_map']
            exact hsome _ (by omega)
          · exfalso; omega
          · exact hsome _ (by omega))
      have b3 := move_backward_length E (v.size_ - 1 - pos)
        (moveConstruct E v.data_.cells (v.size_ - 1) v.size_) (v.size_ - 1) v.size_ noFaults
      have es : v.size_ - 1 + 1 = v.size_ := by omega
      rw [es] at b2
      split
      · rename_i c2 heq
        rw [heq] at b1
        simp at b1
      · rename_i f2 c2 heq
        rw [heq] at b1 b2 b3
        simp only [Option.some.injEq] at b1 b2 b3
        subst b1
        simp only [tick_noFaults]
        rw [moveConstruct_length] at b3
        have hl : (c2.getD pos none).isSome := by
          rw [b2]
          simp only [moveConstruct_getD]
          split_ifs <;>
            first
            | (exfalso; omega)
            | (simp only [Option.isSome_map']; exact hsome _ (by omega))
        have hpl : pos < c2.length := isSome_of_lt c2 pos hl
        have e := cells_store v.data_ (assignSlot E c2 pos (some x))
          (by rw [assignSlot_length, b3])
        refine ⟨trivial, ?_, rfl⟩
        apply holds_of_getD
        · show (v.data_.store _).cells.length = v.data_.capacity_
          rw [e, assignSlot_length, b3, h1]
        · show v.size_ + 1 ≤ v.data_.capacity_
          omega
        · show v.size_ + 1 = _
          rw [hlen]
        · intro k hk
          have hk2 : k < v.size_ + 1 := hk
          show (v.data_.store _).cells.getD k none = _
          rw [e, get_insert _ _ _ _ hpos, assignSlot_getD]
          simp only [hl, hpl, true_or, and_true]
          rw [b2]
          simp only [moveConstruct_getD]
          split_ifs <;>
            first
            | rfl
            | (exfalso; omega)
            | (apply h4; omega)
            | (rw [h4 _ (by omega)]; congr 1; omega)

/-- The offset `int dist` depends on the low 32 bits of the position only:
positions `2^32` apart get the same offset. -/
theorem toInt_add_wrap (n : Nat) : toInt (n + 2 ^ 32) = toInt n := by
  unfold toInt
  rw [Nat.add_mod_right]

/-- A position whose offset `int dist` is negative, on the reallocating branch:
once the new block is acquired, the construction of the new element is an
access before that block. -/
theorem Emplace_realloc_negative (E : Elem α) (v : Vector α) (pos : Nat) (a : Arg α)
    (f : Faults) (ha : f.alloc = false) (hn : v.Size = v.Capacity) (hd : toInt pos < 0) :
    (Emplace E v pos a f).res = .error .UndefinedBehaviour ∧ (Emplace E v pos a f).vec = v := by
  unfold Emplace
  simp only
  rw [if_pos (show v.size_ = v.Capacity from hn)]
  obtain ⟨m, hm, _, _⟩ := ofCapacity_ok (α := α) f (if v.size_ = 0 then 1 else v.size_ * 2) ha
  rw [hm]
  simp only
  rw [if_pos hd]
  exact ⟨rfl, rfl⟩

/-- A position other than `end()` whose offset `int dist` is negative, on the
in-place branch: once the last element is move-constructed into slot `size_`,
`std::move_backward` starts before the block; `size_` is not changed. -/
theorem Emplace_in_place_negative (E : Elem α) (v : Vector α) (pos : Nat) (a : Arg α)
    (hn : v.Size ≠ v.Capacity) (hp : pos ≠ v.Size) (hd : toInt pos < 0) :
    (Emplace E v pos a noFaults).res = .error .UndefinedBehaviour ∧
    (Emplace E v pos a noFaults).vec.Size = v.Size := by
  unfold Emplace
  simp only
  rw [if_neg (show ¬ v.size_ = v.Capacity from hn), if_neg (show ¬ pos = v.size_ from hp),
    moveTick_noFaults]
  simp only
  rw [if_pos hd]
  exact ⟨rfl, rfl⟩

/-- `Erase` for a trivially destructible element type: the sequence loses the
element at the position, the elements after it move one to the left. -/
theorem Erase_ok (E : Elem α) (hE : E.trivialDestructor = true) (v : Vector α) (s : List α)
    (pos : Nat) (h : Holds v s) (hpos : pos < s.length) :
    (Erase E v pos noFaults).res = .ok pos ∧
    Holds (Erase E v pos noFaults).vec (s.eraseIdx pos) ∧
    (Erase E v pos noFaults).vec.Capacity = v.Capacity ∧
    (Erase E v pos noFaults).vec.Size = v.Size - 1 := by
  obtain ⟨h1, h2, h3, h4⟩ := (holds_iff v s).1 h
  unfold Erase
  simp only
  have b1 := std_move_ok E (v.size_ - (pos + 1)) (v.data_.cells.set pos none) (pos + 1) pos
  have b2 := fun k => std_move_getD E (v.size_ - (pos + 1)) (v.data_.cells.set pos none) pos k
    (by rw [List.length_set]; omega) (fun _ _ _ => Or.inr hE)
  have b3 := std_move_length E (v.size_ - (pos + 1)) (v.data_.cells.set pos none) (pos + 1) pos
    noFaults
  split
  · rename_i c2 heq
    rw [heq] at b1
    simp at b1
  · rename_i f1 c2 heq
    rw [heq] at b1 b2 b3
    simp only [List.length_set] at b1 b2 b3
    have e := cells_store v.data_ c2 b3
    refine ⟨rfl, ?_, rfl, rfl⟩
    apply holds_of_getD
    · show (v.data_.store _).cells.length = v.data_.capacity_
      rw [e, b3, h1]
    · show v.size_ - 1 ≤ v.data_.capacity_
      omega
    · show v.size_ - 1 = _
      rw [List.length_eraseIdx, if_pos hpos, h3]
    · intro k hk
      have hk2 : k < v.size_ - 1 := hk
      show (v.data_.store _).cells.getD k none = _
      rw [e, b2, List.getElem?_eraseIdx]
      simp only [getD_set]
      split_ifs <;>
        first
        | rfl
        | (exfalso; omega)
        | (apply h4; omega)

/-- The shift to the left of `Erase`, `std::move(d + 1, d + 1 + n, d)`, for an
element type whose destructor is not trivial, when the first target slot `d`
holds no object: that slot stays without one, and the value that was to be
assigned to it is lost with its source, which is left moved-from and then
assigned to by the next step. -/
theorem std_move_dead_getD (E : Elem α) (hE : E.trivialDestructor = false) (n : Nat)
    (cs : List (Option α)) (d k : Nat)
    (hlen : d + n < cs.length) (hd : cs.getD d none = none)
    (hlive : ∀ j, d < j → j ≤ d + n → (cs.getD j none).isSome) :
    (std_move E cs (d + 1) n d noFaults).2.getD k none =
      if d < k ∧ k < d + n then cs.getD (k + 1) none
      else if k = d + n ∧ 0 < n then (cs.getD k none).map E.movedFrom
      else cs.getD k none := by
  cases n with
  | zero =>
    rw [if_neg (by omega), if_neg (by omega)]
    rfl
  | succ m =>
    simp only [std_move, tick_noFaults]
    rw [std_move_getD E m _ (d + 1) k (by rw [moveAssign_length]; omega)]
    · simp only [moveAssign_getD, hd, hE, Option.isSome_none, Bool.false_eq_true, or_self,
        and_false, if_false]
      split_ifs <;>
        first | rfl | (exfalso; omega) | (congr 1; omega) | (congr 2; omega)
    · intro j hj1 hj2
      left
      rw [moveAssign_getD]
      split_ifs with a1 a2
      · simp only [Option.isSome_map']
        exact hlive (d + 1) (by omega) (by omega)
      · exfalso; omega
      · exact hlive j (by omega) (by omega)

/-- The block after `Erase` at a valid position, for an element type whose
destructor is not trivial and a vector whose slots below `size_` hold objects:
slot `pos` holds none, the slots after `pos + 1` have moved one to the left,
and the last slot keeps a moved-from object. -/
theorem Erase_getD (E : Elem α) (hE : E.trivialDestructor = false) (v : Vector α) (pos : Nat)
    (hlen : v.size_ ≤ v.data_.cells.length)
    (hlive : ∀ k, k < v.size_ → (v.data_.cells.getD k none).isSome) (hpos : pos < v.size_) :
    (Erase E v pos noFaults).res = .ok pos ∧
    (Erase E v pos noFaults).vec.size_ = v.size_ - 1 ∧
    (Erase E v pos noFaults).vec.data_.capacity_ = v.data_.capacity_ ∧
    ∀ k, (Erase E v pos noFaults).vec.data_.cells.getD k none =
      if k = pos then none
      else if pos < k ∧ k + 1 < v.size_ then v.data_.cells.getD (k + 1) none
      else if k + 1 = v.size_ then (v.data_.cells.getD k none).map E.movedFrom
      else v.data_.cells.getD k none := by
  unfold Erase
  simp only
  have b1 := std_move_ok E (v.size_ - (pos + 1)) (v.data_.cells.set pos none) (pos + 1) pos
  have b2 := fun k => std_move_dead_getD E hE (v.size_ - (pos + 1))
    (v.data_.cells.set pos none)
    pos k (by rw [List.length_set]; omega) (by rw [getD_set, if_pos ⟨rfl, by omega⟩])
    (by
      intro j hj1 hj2
      rw [getD_set, if_neg (by omega)]
      exact hlive j (by omega))
  have b3 := std_move_length E (v.size_ - (pos + 1)) (v.data_.cells.set pos none) (pos + 1) pos
    noFaults
  split
  · rename_i c2 heq
    rw [heq] at b1
    simp at b1
  · rename_i f1 c2 heq
    rw [heq] at b1 b2 b3
    simp only [List.length_set] at b1 b2 b3
    have e := cells_store v.data_ c2 b3
    refine ⟨rfl, rfl, rfl, ?_⟩
    intro k
    show (v.data_.store _).cells.getD k none = _
    rw [e, b2]
    simp only [getD_set]
    split_ifs <;>
      first
      | rfl
      | (exfalso; omega)

theorem holds_live (v : Vector α) (s : List α) (h : Holds v s) :
    v.size_ ≤ v.data_.cells.length ∧
      ∀ k, k < v.size_ → (v.data_.cells.getD k none).isSome := by
  obtain ⟨h1, h2, h3, h4⟩ := (holds_iff v s).1 h
  refine ⟨by omega, ?_⟩
  intro k hk
  rw [h4 k hk, List.getElem?_eq_getElem (by omega)]
  rfl

/-- `Erase` of the last element, for every element type: nothing is shifted,
the sequence loses its last element. -/
theorem Erase_last_ok (E : Elem α) (v : Vector α) (s : List α) (pos : Nat)
    (h : Holds v s) (hpos : pos + 1 = s.length) :
    (Erase E v pos noFaults).res = .ok pos ∧
    Holds (Erase E v pos noFaults).vec (s.eraseIdx pos) ∧
    (Erase E v pos noFaults).vec.Capacity = v.Capacity ∧
    (Erase E v pos noFaults).vec.Size = v.Size - 1 := by
  obtain ⟨h1, h2, h3, h4⟩ := (holds_iff v s).1 h
  have hn : v.size_ - (pos + 1) = 0 := by omega
  unfold Erase
  simp only [hn, std_move]
  have e := cells_store v.data_ (v.data_.cells.set pos none) (by simp)
  refine ⟨trivial, ?_, rfl, rfl⟩
  apply holds_of_getD
  · show (v.data_.store _).cells.length = v.data_.capacity_
    rw [e, List.length_set, h1]
  · show v.size_ - 1 ≤ v.data_.capacity_
    omega
  · show v.size_ - 1 = _
    rw [List.length_eraseIdx, if_pos (by omega), h3]
  · intro k hk
    have hk2 : k < v.size_ - 1 := hk
    show (v.data_.store _).cells.getD k none = _
    rw [e, getD_set, if_neg (by omega), List.getElem?_eraseIdx, if_pos (by omega)]
    exact h4 k (by omega)

/-- `Erase` at a position that is not the last, for an element type whose
destructor is not trivial: the slot at `pos` holds no object afterwards, so the
vector does not hold the sequence without element `pos`, nor any other
sequence. -/
theorem Erase_slot_dead (E : Elem α) (hE : E.trivialDestructor = false) (v : Vector α)
    (s : List α) (pos : Nat) (h : Holds v s) (hpos : pos + 1 < s.length) :
    (Erase E v pos noFaults).vec.elemAt pos = none ∧
    (Erase E v pos noFaults).vec.Size = v.Size - 1 ∧
    ∀ t : List α, ¬ Holds (Erase E v pos noFaults).vec t := by
  obtain ⟨h1, h2, h3, h4⟩ := (holds_iff v s).1 h
  obtain ⟨l1, l2⟩ := holds_live v s h
  obtain ⟨r1, r2, r3, r4⟩ := Erase_getD E hE v pos l1 l2 (by omega)
  have hdead : (Erase E v pos noFaults).vec.data_.cells.getD pos none = none := by
    rw [r4, if_pos rfl]
  refine ⟨hdead, r2, ?_⟩
  intro t ht
  obtain ⟨t1, t2, t3, t4⟩ := (holds_iff _ t).1 ht
  have := t4 pos (by rw [r2]; omega)
  rw [hdead, List.getElem?_eq_getElem (by rw [← t3, r2]; omega)] at this
  simp at this

end Vector

end YP

namespace YP

namespace Vector

/-! ## Resize -/

theorem get_resized (cs : List α) (d : α) (n k : Nat) :
    (cs.take n ++ List.replicate (n - cs.length) d)[k]? =
      if k < n ∧ k < cs.length then cs[k]? else if k < n then some d else none := by
  rw [List.getElem?_append]
  simp only [List.length_take, List.getElem?_take, List.getElem?_replicate]
  split_ifs <;> first | rfl | (exfalso; omega)

/-- Resize for an element type whose default-initialisation gives the value
`d`. -/
theorem Resize_ok (E : Elem α) (d : α) (hd : E.defaultInit = some d) (v : Vector α)
    (cs : List α) (n : Nat) (h : Holds v cs) :
    (Resize E v n noFaults).res = .ok () ∧
    Holds (Resize E v n noFaults).vec (cs.take n ++ List.replicate (n - cs.length) d) := by
  obtain ⟨r1, r2, r3, r4⟩ := Reserve_ok E v cs n h
  have hcap : n ≤ (Reserve E v n noFaults).vec.Capacity := by
    rw [r3]; split <;> omega
  have hlen : (cs.take n ++ List.replicate (n - cs.length) d).length = n := by
    simp only [List.length_append, List.length_take, List.length_replicate]
    omega
  unfold Resize
  generalize Reserve E v n noFaults = r at r1 r2 r4 hcap
  obtain ⟨res, v1, f1⟩ := r
  simp only at r1 r2 r4 hcap
  subst r1 r4
  obtain ⟨h1, h2, h3, h4⟩ := (holds_iff v1 cs).1 r2
  simp only [Capacity, RawMemory.Capacity] at hcap
  simp only
  by_cases c1 : n < v1.size_
  · rw [if_pos c1]
    have e := cells_store v1.data_ (destroy_n v1.data_.cells n (v1.size_ - n))
      (destroy_n_length _ _ _)
    refine ⟨rfl, ?_⟩
    apply holds_of_getD
    · show (v1.data_.store _).cells.length = v1.data_.capacity_
      rw [e, destroy_n_length, h1]
    · exact hcap
    · show n = _
      rw [hlen]
    · intro k hk
      have hk2 : k < n := hk
      show (v1.data_.store _).cells.getD k none = _
      rw [e, destroy_n_getD, get_resized, if_neg (by omega), if_pos (by omega)]
      exact h4 k (by omega)
  · rw [if_neg c1]
    by_cases c2 : n > v1.size_
    · rw [if_pos c2]
      have b1 := uninitialized_default_construct_n_ok E (n - v1.size_) v1.data_.cells v1.size_
      have b2 := uninitialized_default_construct_n_getD E (n - v1.size_) v1.data_.cells v1.size_
      have b3 := uninitialized_default_construct_n_length E (n - v1.size_) v1.data_.cells
        v1.size_ noFaults
      generalize uninitialized_default_construct_n E v1.data_.cells v1.size_ (n - v1.size_)
        noFaults = r at b1 b2 b3 ⊢
      obtain ⟨o, c3⟩ := r
      simp only at b1 b2 b3
      subst b1
      simp only
      have e := cells_store v1.data_ c3 b3
      refine ⟨trivial, ?_⟩
      apply holds_of_getD
      · show (v1.data_.store _).cells.length = v1.data_.capacity_
        rw [e, b3, h1]
      · exact hcap
      · show n = _
        rw [hlen]
      · intro k hk
        have hk2 : k < n := hk
        show (v1.data_.store _).cells.getD k none = _
        rw [e, b2, get_resized]
        by_cases c4 : k < v1.size_
        · rw [if_neg (by omega), if_pos (by omega)]
          exact h4 k c4
        · rw [if_pos (by omega), if_neg (by omega), if_pos hk2, hd]
    · rw [if_neg c2]
      have e : n = v1.size_ := by omega
      subst e
      refine ⟨rfl, ?_⟩
      have : cs.take v1.size_ ++ List.replicate (v1.size_ - cs.length) d = cs := by
        rw [h3]; simp
      rw [this]
      exact r2

/-! ## Capacity under every fault schedule -/

theorem relocate_capacity_le (E : Elem α) (v : Vector α) (new_data : RawMemory α)
    (nc : List (Option α)) (f : Faults) (hle : v.data_.capacity_ ≤ new_data.capacity_) :
    v.data_.capacity_ ≤ (relocate E v new_data nc f).2.data_.capacity_ := by
  rw [relocate_capacity]
  split <;> omega

theorem Reserve_capacity_le (E : Elem α) (v : Vector α) (n : Nat) (f : Faults) :
    v.Capacity ≤ (Reserve E v n f).vec.Capacity := by
  unfold Reserve
  split
  · exact Nat.le_refl _
  · rename_i hn
    split
    · exact Nat.le_refl _
    · rename_i new_data heq
      have hc := ofCapacity_capacity f n new_data heq
      have hr := relocate_capacity_le E v new_data new_data.cells f
        (by simp only [RawMemory.Capacity] at hn; omega)
      split
      · rename_i v1 heq2
        rw [heq2] at hr
        exact hr
      · rename_i f1 v1 heq2
        rw [heq2] at hr
        exact hr

theorem Resize_capacity_le (E : Elem α) (v : Vector α) (n : Nat) (f : Faults) :
    v.Capacity ≤ (Resize E v n f).vec.Capacity := by
  have hr := Reserve_capacity_le E v n f
  unfold Resize
  split
  · rename_i e v1 f1 heq
    rw [heq] at hr
    exact hr
  · rename_i u v1 f1 heq
    rw [heq] at hr
    split
    · exact hr
    · split
      · split <;> exact hr
      · exact hr

theorem EmplaceBack_capacity_le (E : Elem α) (v : Vector α) (x : α) (f : Faults) :
    v.Capacity ≤ (EmplaceBack E v x f).vec.Capacity := by
  unfold EmplaceBack
  split
  · rename_i hn
    simp only
    split
    · exact Nat.le_refl _
    · rename_i new_data heq
      have hc := ofCapacity_capacity f _ new_data heq
      have hgt := temp_size_gt v.size_
      split
      · exact Nat.le_refl _
      · rename_i f1 _
        have hr := relocate_capacity_le E v new_data (new_data.cells.set v.size_ (some x)) f1
          (by simp only [RawMemory.Capacity] at hn; omega)
        split
        · rename_i v1 heq2
          rw [heq2] at hr
          exact hr
        · rename_i f2 v1 heq2
          rw [heq2] at hr
          exact hr
  · split <;> exact Nat.le_refl _

theorem PushBackMove_capacity_le (E : Elem α) (v : Vector α) (x : α) (f : Faults) :
    v.Capacity ≤ (PushBackMove E v x f).vec.Capacity := by
  unfold PushBackMove
  split
  · rename_i hn
    simp only
    split
    · exact Nat.le_refl _
    · rename_i new_data heq
      have hc := ofCapacity_capacity f _ new_data heq
      have hgt := temp_size_gt v.size_
      split
      · exact Nat.le_refl _
      · rename_i f1 _
        have hr := relocate_capacity_le E v new_data (new_data.cells.set v.size_ (some x)) f1
          (by simp only [RawMemory.Capacity] at hn; omega)
        split
        · rename_i v1 heq2
          rw [heq2] at hr
          exact hr
        · rename_i f2 v1 heq2
          rw [heq2] at hr
          exact hr
  · split <;> exact Nat.le_refl _

theorem Emplace_capacity_le (E : Elem α) (v : Vector α) (pos : Nat) (a : Arg α) (f : Faults) :
    v.Capacity ≤ (Emplace E v pos a f).vec.Capacity := by
  unfold Emplace
  simp only
  split
  · rename_i hn
    split
    · exact Nat.le_refl _
    · rename_i new_data heq
      have hc := ofCapacity_capacity f _ new_data heq
      have hgt := temp_size_gt v.size_
      have hle : v.Capacity ≤ new_data.capacity_ := by
        simp only [Capacity, RawMemory.Capacity] at hn ⊢; omega
      repeat' split
      all_goals first | exact Nat.le_refl _ | exact hle
  · repeat' split
    all_goals exact Nat.le_refl _

theorem Erase_capacity (E : Elem α) (v : Vector α) (pos : Nat) (f : Faults) :
    (Erase E v pos f).vec.Capacity = v.Capacity := by
  unfold Erase
  simp only
  split <;> rfl

theorem copy_shape (other t : Vector α) (f f1 : Faults) (h : copy other f = .ok (t, f1)) :
    t.data_.capacity_ = other.size_ ∧ t.size_ = other.size_ := by
  unfold copy at h
  split at h
  · simp at h
  · rename_i data heq
    have hc := ofCapacity_capacity f _ data heq
    split at h
    · simp at h
    · simp only [Except.ok.injEq, Prod.mk.injEq] at h
      rw [← h.1]
      exact ⟨hc, rfl⟩

theorem copyAssign_capacity_le (E : Elem α) (v rhs : Vector α) (f : Faults) :
    v.Capacity ≤ (copyAssign E v rhs f).vec.Capacity := by
  unfold copyAssign
  split
  · rename_i hn
    split
    · exact Nat.le_refl _
    · rename_i temp f1 heq
      obtain ⟨hc, _⟩ := copy_shape rhs temp f f1 heq
      show v.data_.capacity_ ≤ temp.data_.capacity_
      simp only [RawMemory.Capacity] at hn
      omega
  · split
    · exact Nat.le_refl _
    · split
      · exact Nat.le_refl _
      · split
        · split <;> exact Nat.le_refl _
        · exact Nat.le_refl _

/-- In its reallocating branch `Emplace` returns the iterator whatever the
element operations do: once the new block is acquired no failure leaves the
call. -/
theorem Emplace_realloc_returns (E : Elem α) (v : Vector α) (pos : Nat) (a : Arg α)
    (f : Faults) (ha : f.alloc = false) (hn : v.Size = v.Capacity) (hd : ¬ toInt pos < 0) :
    (Emplace E v pos a f).res = .ok (toInt pos) := by
  unfold Emplace
  simp only
  rw [if_pos (show v.size_ = v.Capacity from hn)]
  obtain ⟨m, hm, _, _⟩ := ofCapacity_ok (α := α) f (if v.size_ = 0 then 1 else v.size_ * 2) ha
  rw [hm]
  simp only
  rw [if_neg hd]
  repeat' split
  all_goals rfl

/-! ## Failures of a type that is relocated by copy -/

theorem Reserve_ok_or_same (E : Elem α) (hE : E.relocatesByMove = false) (v : Vector α)
    (n : Nat) (f : Faults) :
    (∃ r, (Reserve E v n f).res = .ok r) ∨ (Reserve E v n f).vec = v := by
  unfold Reserve
  split
  · exact Or.inr rfl
  · split
    · exact Or.inr rfl
    · rename_i new_data heq
      have hr := relocate_copy_fail E v new_data new_data.cells f hE
      split
      · rename_i v1 heq2
        rw [heq2] at hr
        exact Or.inr (hr rfl)
      · exact Or.inl ⟨_, rfl⟩

theorem Reserve_strong (E : Elem α) (hE : E.relocatesByMove = false) (v : Vector α) (n : Nat)
    (f : Faults) (e : Failure) (h : (Reserve E v n f).res = .error e) :
    (Reserve E v n f).vec = v := by
  rcases Reserve_ok_or_same E hE v n f with ⟨r, hr⟩ | hs
  · rw [hr] at h
    simp at h
  · exact hs

theorem Reserve_elem_fail (E : Elem α) (hE : E.relocatesByMove = false) (v : Vector α)
    (n k : Nat) (f : Faults) (ha : f.alloc = false) (hf : f.elem = some k)
    (hn : v.Capacity < n) (hk : k < v.Size) :
    (Reserve E v n f).res = .error .ElementOperationFailure := by
  unfold Reserve
  rw [if_neg (show ¬ n ≤ v.data_.Capacity from by simp only [Capacity] at hn; omega)]
  obtain ⟨m, hm, _, _⟩ := ofCapacity_ok (α := α) f n ha
  rw [hm]
  have hr := relocate_copy_elem_fail E v m m.cells f k hE hf hk
  simp only
  split
  · rfl
  · rename_i heq
    rw [heq] at hr
    simp at hr

theorem EmplaceBack_ok_or_same (E : Elem α) (hE : E.relocatesByMove = false) (v : Vector α)
    (x : α) (f : Faults) :
    (∃ r, (EmplaceBack E v x f).res = .ok r) ∨ (EmplaceBack E v x f).vec = v := by
  unfold EmplaceBack
  split
  · simp only
    split
    · exact Or.inr rfl
    · rename_i new_data heq
      split
      · exact Or.inr rfl
      · rename_i f1 ht
        have hr := relocate_copy_fail E v new_data (new_data.cells.set v.size_ (some x)) f1 hE
        split
        · rename_i v1 heq2
          rw [heq2] at hr
          exact Or.inr (hr rfl)
        · exact Or.inl ⟨_, rfl⟩
  · split
    · exact Or.inr rfl
    · exact Or.inl ⟨_, rfl⟩

theorem EmplaceBack_strong (E : Elem α) (hE : E.relocatesByMove = false) (v : Vector α)
    (x : α) (f : Faults) (e : Failure) (h : (EmplaceBack E v x f).res = .error e) :
    (EmplaceBack E v x f).vec = v := by
  rcases EmplaceBack_ok_or_same E hE v x f with ⟨r, hr⟩ | hs
  · rw [hr] at h
    simp at h
  · exact hs

theorem moveTick_of_copy (E : Elem α) (hE : E.relocatesByMove = false) (f : Faults) :
    E.moveTick f = f.tick := by
  unfold Elem.relocatesByMove at hE
  unfold Elem.moveTick
  cases hm : E.nothrowMove with
  | true => rw [hm] at hE; simp at hE
  | false => simp

/-- For a type relocated by copy the overload `PushBack(T&&)` runs as
`PushBack(const T&)`: its move construction is a potentially-throwing
operation like the copy. -/
theorem PushBackMove_of_copy (E : Elem α) (hE : E.relocatesByMove = false) (v : Vector α)
    (x : α) (f : Faults) : PushBackMove E v x f = PushBack E v x f := by
  unfold PushBackMove PushBack
  rw [moveTick_of_copy E hE]

theorem EmplaceBack_elem_fail (E : Elem α) (hE : E.relocatesByMove = false) (v : Vector α)
    (x : α) (k : Nat) (f : Faults) (ha : f.alloc = false) (hf : f.elem = some k)
    (hk : if v.Size = v.Capacity then k < v.Size + 1 else k = 0) :
    (EmplaceBack E v x f).res = .error .ElementOperationFailure := by
  unfold EmplaceBack
  by_cases hn : v.size_ = v.data_.Capacity
  · rw [if_pos (show v.Size = v.Capacity from hn)] at hk
    rw [if_pos hn]
    simp only
    obtain ⟨m, hm, _, _⟩ := ofCapacity_ok (α := α) f (if v.size_ = 0 then 1 else v.size_ * 2) ha
    rw [hm]
    simp only
    cases k with
    | zero => rw [tick_zero f hf]
    | succ k =>
      rw [tick_succ f k hf]
      simp only
      have hr := relocate_copy_elem_fail E v m (m.cells.set v.size_ (some x))
        { f with elem := some k } k hE rfl (by simp only [Size] at hk; omega)
      split
      · rfl
      · rename_i heq
        rw [heq] at hr
        simp at hr
  · rw [if_neg (show ¬ v.Size = v.Capacity from hn)] at hk
    rw [if_neg hn]
    subst hk
    rw [tick_zero f hf]

theorem copyAssign_strong (E : Elem α) (v rhs : Vector α) (f : Faults) (e : Failure)
    (hn : v.Capacity < rhs.Size) (h : (copyAssign E v rhs f).res = .error e) :
    (copyAssign E v rhs f).vec = v := by
  have hn2 : rhs.size_ > v.data_.Capacity := hn
  have key : (∃ r, (copyAssign E v rhs f).res = .ok r) ∨ (copyAssign E v rhs f).vec = v := by
    unfold copyAssign
    rw [if_pos hn2]
    split
    · exact Or.inr rfl
    · exact Or.inl ⟨_, rfl⟩
  rcases key with ⟨r, hr⟩ | hs
  · rw [hr] at h
    simp at h
  · exact hs

theorem copyAssign_elem_fail (E : Elem α) (v rhs : Vector α) (k : Nat) (f : Faults) (ha : f.alloc = false)
    (hf : f.elem = some k) (hn : v.Capacity < rhs.Size) (hk : k < rhs.Size) :
    (copyAssign E v rhs f).res = .error .ElementOperationFailure := by
  have hc : copy rhs f = .error .ElementOperationFailure := by
    unfold copy
    obtain ⟨m, hm, _, _⟩ := ofCapacity_ok (α := α) f rhs.size_ ha
    rw [hm]
    simp only
    have h := uninitialized_copy_n_fail rhs.data_.cells rhs.size_ 0 m.cells 0 f k hf hk
    split
    · rfl
    · rename_i heq
      rw [heq] at h
      simp at h
  unfold copyAssign
  have hn2 : rhs.size_ > v.data_.Capacity := hn
  simp only [hn2, if_true, hc]

end Vector

end YP

namespace YP

/-! ## The contract of the container -/

open Vector

/-- C1: starting from an empty Vector, for every sequence of PushBack (either
overload) and PopBack calls in which PopBack is never called on an empty
vector, every call returns, Size() afterwards is the number of pushes minus the
number of pops, and the elements read back by index are the pushed values that
were not popped, in the order they were pushed: each push turns the contents
`s` into `s ++ [x]`, each pop removes the last element. -/
theorem C1_push_pop_sequence (E : Elem α) (calls : List (Call α))
    (hvalid : popsValid calls 0 = true) :
    ∃ v, runCalls E calls Vector.empty = some v ∧
      pops calls ≤ pushes calls ∧ v.Size = pushes calls - pops calls ∧
      v.contents = (seqAfter calls []).map some ∧
      ∀ i, i < v.Size → v.elemAt i = (seqAfter calls [])[i]? := by
  obtain ⟨v, h1, h2, h3⟩ := runCalls_ok E calls Vector.empty [] holds_empty hvalid
  obtain ⟨_, _, b3, b4⟩ := (holds_iff _ _).1 h2
  simp only [List.length_nil, Nat.zero_add] at h3
  refine ⟨v, h1, by omega, ?_, h2.2.2, b4⟩
  show v.size_ = _
  omega

/-- Witness of C1: push 1, push 2, pop, push 3 on the empty vector. -/
theorem C1_push_pop_sequence_witness :
    ∃ v, runCalls intElem [Call.push 1, Call.pushMove 2, Call.pop, Call.push 3]
        Vector.empty = some v ∧
      pops [Call.push 1, Call.pushMove 2, Call.pop, Call.push 3] ≤
        pushes [Call.push 1, Call.pushMove 2, Call.pop, Call.push 3] ∧
      v.Size = pushes [Call.push 1, Call.pushMove 2, Call.pop, Call.push 3] -
        pops [Call.push 1, Call.pushMove 2, Call.pop, Call.push 3] ∧
      v.contents =
        (seqAfter [Call.push 1, Call.pushMove 2, Call.pop, Call.push 3] []).map some ∧
      ∀ i, i < v.Size →
        v.elemAt i = (seqAfter [Call.push 1, Call.pushMove 2, Call.pop, Call.push 3] [])[i]? :=
  C1_push_pop_sequence intElem [Call.push 1, Call.pushMove 2, Call.pop, Call.push 3]
    (by decide)

/-- C2, evaluated on the code: `v.Insert(v.begin(), v[2])` on `[1, 2, 3]`
(capacity 4), a call whose argument is the element of value 3. The insertion
is in place: the last element is move-constructed into slot 3,
`std::move_backward` shifts the others, which leaves the block
`[1, 1, 2, 3]`, and only then `T(args...)` reads the argument, which now is
the element of value 2. The call returns the iterator at index 0 and the
vector holds `[2, 1, 2, 3]`, not `[3, 1, 2, 3]`, for an element type like
`int` and for a class type. On the reallocating branch the argument is read
before any element is touched: the same call on `[1, 2, 3, 4]` gives
`[3, 1, 2, 3, 4]`; and with an argument from outside the vector the in-place
branch gives `[3, 1, 2, 3]`. The offset `int dist` that both branches use in
place of the position is the position up to `2^31 - 1`; it is negative for the
position `2^31` and is 1 for the position `2^32 + 1`. -/
theorem C2_insert_reads_argument_after_shift :
    Holds sample3 [1, 2, 3] ∧ sample3.Size < sample3.Capacity ∧
    sample3.elemAt 2 = some 3 ∧
    [1, 2, 3].take 0 ++ [3] ++ [1, 2, 3].drop 0 = [3, 1, 2, 3] ∧
    (move_backward intElem (moveConstruct intElem sample3.data_.cells 2 3) 2 2 3 noFaults).2 =
      [some 1, some 1, some 2, some 3] ∧
    (Insert intElem sample3 0 (.elem 2) noFaults).res = .ok 0 ∧
    (Insert intElem sample3 0 (.elem 2) noFaults).vec.elemAt 0 = some 2 ∧
    Holds (Insert intElem sample3 0 (.elem 2) noFaults).vec [2, 1, 2, 3] ∧
    ¬ Holds (Insert intElem sample3 0 (.elem 2) noFaults).vec [3, 1, 2, 3] ∧
    Holds (Insert copyElem sample3 0 (.elem 2) noFaults).vec [2, 1, 2, 3] ∧
    (Emplace intElem sample3 0 (.elem 2) noFaults).vec =
      (Insert intElem sample3 0 (.elem 2) noFaults).vec ∧
    Holds (Insert intElem full4 0 (.elem 2) noFaults).vec [3, 1, 2, 3, 4] ∧
    Holds (Insert intElem sample3 0 (.val 3) noFaults).vec [3, 1, 2, 3] ∧
    toInt 0 = 0 ∧ toInt (2 ^ 31 - 1) = 2147483647 ∧ toInt (2 ^ 31) = -2147483648 ∧
    toInt (2 ^ 32 + 1) = 1 := by
  decide

/-- C3, evaluated on the code: `Erase(begin())` on `[1, 2, 3]` (capacity 4) of
a class type whose destructor is not trivial. `Destroy(pos)` leaves slot 0
without an object. The first step of `std::move(pos + 1, end(), pos)` assigns
to that slot: no object takes the value 2, and its source is left moved-from.
The second step assigns 3 to slot 1. The call returns the iterator at index 0
with Size() 2 and Capacity() 4, but the vector does not hold `[2, 3]`: slot 0
holds no object and the value 2 is gone. Erase of the last element gives
`[1, 2]`. For an element type like `int`, whose destructor does nothing, the
same call gives `[2, 3]`. -/
theorem C3_erase_assigns_to_destroyed_element :
    Holds sample3 [1, 2, 3] ∧ 0 < sample3.Size ∧
    [1, 2, 3].eraseIdx 0 = [2, 3] ∧
    sample3.data_.cells.set 0 none = [none, some 2, some 3, none] ∧
    moveAssign copyElem [none, some 2, some 3, none] 1 0 = [none, some 0, some 3, none] ∧
    moveAssign copyElem [none, some 0, some 3, none] 2 1 = [none, some 3, some 0, none] ∧
    (Erase copyElem sample3 0 noFaults).res = .ok 0 ∧
    (Erase copyElem sample3 0 noFaults).vec.Size = 2 ∧
    (Erase copyElem sample3 0 noFaults).vec.Capacity = 4 ∧
    (Erase copyElem sample3 0 noFaults).vec.contents = [none, some 3] ∧
    (Erase copyElem sample3 0 noFaults).vec.elemAt 0 = none ∧
    ¬ Holds (Erase copyElem sample3 0 noFaults).vec [2, 3] ∧
    (Erase copyElem sample3 1 noFaults).vec.contents = [some 1, none] ∧
    Holds (Erase copyElem sample3 2 noFaults).vec [1, 2] ∧
    Holds (Erase intElem sample3 0 noFaults).vec [2, 3] := by
  decide

theorem eraseIdx_insert (s : List α) (x : α) (i : Nat) (hi : i ≤ s.length) :
    (s.take i ++ [x] ++ s.drop i).eraseIdx i = s := by
  apply List.ext_getElem?
  intro k
  rw [List.getElem?_eraseIdx, get_insert _ _ _ _ hi, get_insert _ _ _ _ hi]
  split_ifs <;> first | rfl | (exfalso; omega)

/-- Insert at an index below Size() followed by Erase at the same index, for an
argument from outside the vector and an element type whose destructor is not
trivial: the Erase is not one of the last element, so the slot at the index
holds no object afterwards and the vector does not hold the sequence it held
before the two calls, nor any other. -/
theorem Insert_Erase_slot_dead (E : Elem α) (hE : E.trivialDestructor = false) (v : Vector α)
    (s : List α) (i : Nat) (x : α) (h : Holds v s) (hi : i < s.length) (hint : i < 2 ^ 31) :
    (Erase E (Insert E v i (.val x) noFaults).vec i noFaults).vec.elemAt i = none ∧
    ∀ t : List α, ¬ Holds (Erase E (Insert E v i (.val x) noFaults).vec i noFaults).vec t := by
  have hl : (s.take i ++ [x] ++ s.drop i).length = s.length + 1 := by
    simp only [List.length_append, List.length_take, List.length_singleton, List.length_drop]
    omega
  obtain ⟨_, r2, _⟩ := Emplace_ok E v s i x h (by omega) hint
  obtain ⟨e1, _, e3⟩ := Erase_slot_dead E hE _ _ i r2 (by rw [hl]; omega)
  exact ⟨e1, e3⟩

/-- Insert at an index followed by Erase at the same index, for an argument
from outside the vector and a trivially destructible element type: the vector
holds the sequence it held before. -/
theorem Insert_Erase_trivial (E : Elem α) (hE : E.trivialDestructor = true) (v : Vector α)
    (s : List α) (i : Nat) (x : α) (h : Holds v s) (hi : i ≤ s.length) (hint : i < 2 ^ 31) :
    Holds (Erase E (Insert E v i (.val x) noFaults).vec i noFaults).vec s := by
  have hl : (s.take i ++ [x] ++ s.drop i).length = s.length + 1 := by
    simp only [List.length_append, List.length_take, List.length_singleton, List.length_drop]
    omega
  obtain ⟨_, r2, _⟩ := Emplace_ok E v s i x h hi hint
  obtain ⟨_, e2, _⟩ := Erase_ok E hE _ _ i r2 (by rw [hl]; omega)
  rw [eraseIdx_insert s x i hi] at e2
  exact e2

/-- Insert at the index Size() followed by Erase at that index, for an argument
from outside the vector: the Erase is one of the last element, and the vector
holds the sequence it held before. -/
theorem Insert_Erase_end (E : Elem α) (v : Vector α) (s : List α) (x : α)
    (h : Holds v s) (hint : s.length < 2 ^ 31) :
    Holds (Erase E (Insert E v s.length (.val x) noFaults).vec s.length noFaults).vec s := by
  have hl : (s.take s.length ++ [x] ++ s.drop s.length).length = s.length + 1 := by
    simp only [List.length_append, List.length_take, List.length_singleton, List.length_drop]
    omega
  obtain ⟨_, r2, _⟩ := Emplace_ok E v s s.length x h (Nat.le_refl _) hint
  obtain ⟨_, e2, _⟩ := Erase_last_ok E _ _ s.length r2 (by rw [hl])
  rw [eraseIdx_insert s x s.length (Nat.le_refl _)] at e2
  exact e2

/-- C4, evaluated on the code: Insert of 99 at index 1 followed by Erase at
index 1, on `[1, 2, 3]` of a class type whose destructor is not trivial
(capacity 4, insertion in place) and on `[1, 2, 3, 4]` (capacity 4, insertion
with reallocation). The insertion gives
`[1, 99, 2, 3]` resp. `[1, 99, 2, 3, 4]`. The Erase destroys the element at
index 1 and then assigns to it: afterwards Size() is that before the two calls
but slot 1 holds no object and the value 2 is gone, so the vector does not hold
the sequence it held before. For the index Size(), where the Erase is one of
the last element, the sequence is restored, and so it is at index 1 for an
element type like `int`, whose destructor does nothing. -/
theorem C4_roundtrip_loses_element :
    Holds sample3 [1, 2, 3] ∧ 1 ≤ sample3.Size ∧
    (Insert copyElem sample3 1 (.val 99) noFaults).res = .ok 1 ∧
    Holds (Insert copyElem sample3 1 (.val 99) noFaults).vec [1, 99, 2, 3] ∧
    (Erase copyElem (Insert copyElem sample3 1 (.val 99) noFaults).vec 1 noFaults).res = .ok 1 ∧
    (Erase copyElem (Insert copyElem sample3 1 (.val 99) noFaults).vec 1 noFaults).vec.Size =
      sample3.Size ∧
    (Erase copyElem (Insert copyElem sample3 1 (.val 99) noFaults).vec 1 noFaults).vec.contents =
      [some 1, none, some 3] ∧
    ¬ Holds (Erase copyElem (Insert copyElem sample3 1 (.val 99) noFaults).vec 1 noFaults).vec
      [1, 2, 3] ∧
    Holds full4 [1, 2, 3, 4] ∧
    Holds (Insert copyElem full4 1 (.val 99) noFaults).vec [1, 99, 2, 3, 4] ∧
    (Erase copyElem (Insert copyElem full4 1 (.val 99) noFaults).vec 1 noFaults).vec.contents =
      [some 1, none, some 3, some 4] ∧
    ¬ Holds (Erase copyElem (Insert copyElem full4 1 (.val 99) noFaults).vec 1 noFaults).vec
      [1, 2, 3, 4] ∧
    Holds (Erase copyElem (Insert copyElem sample3 3 (.val 99) noFaults).vec 3 noFaults).vec
      [1, 2, 3] ∧
    Holds (Erase intElem (Insert intElem sample3 1 (.val 99) noFaults).vec 1 noFaults).vec
      [1, 2, 3] := by
  decide

/-- C5: for every vector and every `n`, a Reserve(n) that returns leaves Size()
and every element value unchanged; when `n <= Capacity()` before the call the
vector is unchanged altogether, otherwise Capacity() after the call is exactly
`n`; in both cases `Capacity() >= n` afterwards. When nothing fails the call
returns. -/
theorem C5_reserve (E : Elem α) (v : Vector α) (s : List α) (n : Nat) (f : Faults)
    (h : Holds v s) :
    ((Reserve E v n f).res = .ok () →
      (Reserve E v n f).vec.Size = v.Size ∧
      (Reserve E v n f).vec.contents = v.contents ∧
      Holds (Reserve E v n f).vec s ∧
      (n ≤ v.Capacity → (Reserve E v n f).vec = v) ∧
      (v.Capacity < n → (Reserve E v n f).vec.Capacity = n) ∧
      n ≤ (Reserve E v n f).vec.Capacity) ∧
    (Reserve E v n noFaults).res = .ok () := by
  obtain ⟨r1, r2, r3, _⟩ := Reserve_ok E v s n h
  refine ⟨?_, r1⟩
  intro hok
  rw [Reserve_succ E v n f hok]
  obtain ⟨_, _, h3, _⟩ := (holds_iff v s).1 h
  obtain ⟨_, _, b3, _⟩ := (holds_iff _ _).1 r2
  refine ⟨?_, ?_, r2, ?_, ?_, ?_⟩
  · show (Reserve E v n noFaults).vec.size_ = v.size_
    rw [b3, h3]
  · rw [r2.2.2, h.2.2]
  · intro hn
    unfold Reserve
    rw [if_pos (show n ≤ v.data_.Capacity from hn)]
  · intro hn
    rw [r3, if_neg (by omega)]
  · rw [r3]
    split <;> omega

/-- Witness of C5: `[1, 2, 3]` of capacity 4, Reserve(10) and Reserve(2). -/
theorem C5_reserve_witness :
    Holds sample3 [1, 2, 3] ∧
    ((Reserve intElem sample3 10 noFaults).res = .ok () →
      (Reserve intElem sample3 10 noFaults).vec.Size = sample3.Size ∧
      (Reserve intElem sample3 10 noFaults).vec.contents = sample3.contents ∧
      Holds (Reserve intElem sample3 10 noFaults).vec [1, 2, 3] ∧
      (10 ≤ sample3.Capacity → (Reserve intElem sample3 10 noFaults).vec = sample3) ∧
      (sample3.Capacity < 10 → (Reserve intElem sample3 10 noFaults).vec.Capacity = 10) ∧
      10 ≤ (Reserve intElem sample3 10 noFaults).vec.Capacity) ∧
    (Reserve intElem sample3 10 noFaults).res = .ok () :=
  ⟨by decide, C5_reserve intElem sample3 [1, 2, 3] 10 noFaults (by decide)⟩

/-- C6: for every vector, every fault schedule and every call of Reserve,
Resize, PushBack (either overload), EmplaceBack, PopBack, Insert (either
overload), Emplace, Erase or copy assignment, whether the call returns or
throws, Capacity() after the call is at least Capacity() before it. -/
theorem C6_capacity_never_shrinks (E : Elem α) (v rhs : Vector α) (n i : Nat) (x : α)
    (a : Arg α) (f : Faults) :
    v.Capacity ≤ (Reserve E v n f).vec.Capacity ∧
    v.Capacity ≤ (Resize E v n f).vec.Capacity ∧
    v.Capacity ≤ (PushBack E v x f).vec.Capacity ∧
    v.Capacity ≤ (PushBackMove E v x f).vec.Capacity ∧
    v.Capacity ≤ (EmplaceBack E v x f).vec.Capacity ∧
    v.Capacity ≤ ((PopBack v).getD v).Capacity ∧
    v.Capacity ≤ (Insert E v i a f).vec.Capacity ∧
    v.Capacity ≤ (InsertMove E v i a f).vec.Capacity ∧
    v.Capacity ≤ (Emplace E v i a f).vec.Capacity ∧
    v.Capacity ≤ (Erase E v i f).vec.Capacity ∧
    v.Capacity ≤ (copyAssign E v rhs f).vec.Capacity := by
  refine ⟨Reserve_capacity_le E v n f, Resize_capacity_le E v n f, ?_,
    PushBackMove_capacity_le E v x f, EmplaceBack_capacity_le E v x f, ?_,
    Emplace_capacity_le E v i a f, Emplace_capacity_le E v i a f,
    Emplace_capacity_le E v i a f, ?_, copyAssign_capacity_le E v rhs f⟩
  · rw [(PushBack_eq_EmplaceBack E v x f).1]
    exact EmplaceBack_capacity_le E v x f
  · unfold PopBack
    split <;> exact Nat.le_refl _
  · rw [Erase_capacity]

/-- C7: for every vector and every operation that acquires a block (Reserve and
Resize beyond the capacity, PushBack, EmplaceBack, Insert and Emplace when
`size_ == Capacity()`, copy assignment from a source larger than the capacity):
when the acquisition fails, the call fails with the allocation failure and the
vector, hence Size(), Capacity() and every element value, is as before the
call. -/
theorem C7_allocation_failure_no_change (E : Elem α) (v rhs : Vector α) (n i : Nat) (x : α)
    (a : Arg α) (f : Faults) (hf : f.alloc = true) :
    (v.Capacity < n →
      (Reserve E v n f).res = .error .AllocationFailure ∧ (Reserve E v n f).vec = v) ∧
    (v.Capacity < n →
      (Resize E v n f).res = .error .AllocationFailure ∧ (Resize E v n f).vec = v) ∧
    (v.Size = v.Capacity →
      ((PushBack E v x f).res = .error .AllocationFailure ∧ (PushBack E v x f).vec = v) ∧
      ((PushBackMove E v x f).res = .error .AllocationFailure ∧
        (PushBackMove E v x f).vec = v) ∧
      ((EmplaceBack E v x f).res = .error .AllocationFailure ∧
        (EmplaceBack E v x f).vec = v) ∧
      ((Insert E v i a f).res = .error .AllocationFailure ∧ (Insert E v i a f).vec = v) ∧
      ((InsertMove E v i a f).res = .error .AllocationFailure ∧
        (InsertMove E v i a f).vec = v) ∧
      ((Emplace E v i a f).res = .error .AllocationFailure ∧ (Emplace E v i a f).vec = v)) ∧
    (v.Capacity < rhs.Size →
      (copyAssign E v rhs f).res = .error .AllocationFailure ∧ (copyAssign E v rhs f).vec = v) := by
  have hR : v.Capacity < n →
      (Reserve E v n f).res = .error .AllocationFailure ∧ (Reserve E v n f).vec = v := by
    intro hn
    unfold Reserve
    rw [if_neg (show ¬ n ≤ v.data_.Capacity from by
      simp only [Capacity] at hn; omega), ofCapacity_fail f n hf (by omega)]
    exact ⟨rfl, rfl⟩
  refine ⟨hR, ?_, ?_, ?_⟩
  · intro hn
    obtain ⟨a, b⟩ := hR hn
    unfold Resize
    split
    · rename_i e v1 f1 heq
      rw [heq] at a b
      exact ⟨a, b⟩
    · rename_i u v1 f1 heq
      rw [heq] at a
      simp at a
  · intro hn
    have ht : (if v.size_ = 0 then 1 else v.size_ * 2) ≠ 0 := by split <;> omega
    have ha := ofCapacity_fail (α := α) f _ hf ht
    have hn2 : v.size_ = v.data_.Capacity := hn
    have hE : (Emplace E v i a f).res = .error .AllocationFailure ∧
        (Emplace E v i a f).vec = v := by
      unfold Emplace
      simp only
      rw [if_pos (show v.size_ = v.Capacity from hn), ha]
      exact ⟨rfl, rfl⟩
    refine ⟨?_, ?_, ?_, hE, hE, hE⟩
    · unfold PushBack
      simp only
      rw [if_pos hn2, ha]
      exact ⟨rfl, rfl⟩
    · unfold PushBackMove
      simp only
      rw [if_pos hn2, ha]
      exact ⟨rfl, rfl⟩
    · unfold EmplaceBack
      simp only
      rw [if_pos hn2, ha]
      exact ⟨rfl, rfl⟩
  · intro hn
    have hn2 : rhs.size_ > v.data_.Capacity := hn
    have hc : copy rhs f = .error .AllocationFailure := by
      unfold copy
      rw [ofCapacity_fail f _ hf (by omega)]
    unfold copyAssign
    rw [if_pos hn2, hc]
    exact ⟨rfl, rfl⟩

/-- Witness of C7: the full vector `[1, 2, 3, 4]` and Reserve(10) under a
schedule whose allocation fails. -/
theorem C7_allocation_failure_no_change_witness :
    (Faults.mk true none).alloc = true ∧ full4.Capacity < 10 ∧
    (Reserve intElem full4 10 (Faults.mk true none)).res = .error .AllocationFailure ∧
    (Reserve intElem full4 10 (Faults.mk true none)).vec = full4 :=
  ⟨rfl, by decide,
    (C7_allocation_failure_no_change intElem full4 five5 10 1 99 (.val 99)
      (Faults.mk true none) rfl).1 (by decide)⟩

/-- C8: for an element type relocated by copy (copy-constructible, move not
guaranteed non-failing): whatever makes Reserve, PushBack (either overload),
EmplaceBack, or a copy assignment from a source larger than the capacity fail,
the vector, hence Size(), Capacity() and every element value, is as before the
call; and when an element construction of the call fails (the `k + 1`-th one,
the first being the new element in PushBack and EmplaceBack), the call fails
with the element failure. -/
theorem C8_strong_guarantee_copy_path (E : Elem α) (hE : E.relocatesByMove = false)
    (v rhs : Vector α) (n : Nat) (x : α) (f : Faults) :
    ((∀ e, (Reserve E v n f).res = .error e → (Reserve E v n f).vec = v) ∧
      (∀ e, (PushBack E v x f).res = .error e → (PushBack E v x f).vec = v) ∧
      (∀ e, (PushBackMove E v x f).res = .error e → (PushBackMove E v x f).vec = v) ∧
      (∀ e, (EmplaceBack E v x f).res = .error e → (EmplaceBack E v x f).vec = v) ∧
      (v.Capacity < rhs.Size →
        ∀ e, (copyAssign E v rhs f).res = .error e → (copyAssign E v rhs f).vec = v)) ∧
    (∀ k, f.alloc = false → f.elem = some k →
      (v.Capacity < n → k < v.Size →
        (Reserve E v n f).res = .error .ElementOperationFailure) ∧
      ((if v.Size = v.Capacity then k < v.Size + 1 else k = 0) →
        (PushBack E v x f).res = .error .ElementOperationFailure ∧
        (PushBackMove E v x f).res = .error .ElementOperationFailure ∧
        (EmplaceBack E v x f).res = .error .ElementOperationFailure) ∧
      (v.Capacity < rhs.Size → k < rhs.Size →
        (copyAssign E v rhs f).res = .error .ElementOperationFailure)) := by
  obtain ⟨p1, _, p3⟩ := PushBack_eq_EmplaceBack E v x f
  have hP : ∀ e, (PushBack E v x f).res = .error e → (PushBack E v x f).vec = v := by
    intro e he
    rw [p3] at he
    rw [p1]
    cases hr : (EmplaceBack E v x f).res with
    | error e2 => exact EmplaceBack_strong E hE v x f e2 hr
    | ok r => rw [hr] at he; simp [Except.map] at he
  refine ⟨⟨fun e => Reserve_strong E hE v n f e, hP, ?_,
    fun e => EmplaceBack_strong E hE v x f e,
    fun hn e => copyAssign_strong E v rhs f e hn⟩, ?_⟩
  · rw [PushBackMove_of_copy E hE]
    exact hP
  · intro k ha hf
    refine ⟨fun hn hk => Reserve_elem_fail E hE v n k f ha hf hn hk, ?_,
      fun hn hk => copyAssign_elem_fail E v rhs k f ha hf hn hk⟩
    intro hk
    have hB := EmplaceBack_elem_fail E hE v x k f ha hf hk
    have hA : (PushBack E v x f).res = .error .ElementOperationFailure := by
      rw [p3, hB]
      rfl
    refine ⟨hA, ?_, hB⟩
    rw [PushBackMove_of_copy E hE]
    exact hA

/-- Witness of C8: the full vector `[1, 2, 3, 4]` of a type relocated by copy;
PushBack(99) reallocates and the third element construction throws. -/
theorem C8_strong_guarantee_copy_path_witness :
    copyElem.relocatesByMove = false ∧
    (PushBack copyElem full4 99 (Faults.mk false (some 2))).res =
      .error .ElementOperationFailure ∧
    (PushBack copyElem full4 99 (Faults.mk false (some 2))).vec = full4 :=
  ⟨rfl,
    ((C8_strong_guarantee_copy_path copyElem rfl full4 five5 10 99
      (Faults.mk false (some 2))).2 2 rfl rfl).2.1 (by decide) |>.1,
    (C8_strong_guarantee_copy_path copyElem rfl full4 five5 10 99
      (Faults.mk false (some 2))).1.2.1 .ElementOperationFailure (by decide)⟩

/-- C9, evaluated on the code: `Emplace(begin() + 1, 99)` on the full vector
`[1, 2, 3, 4]` of a type relocated by copy. Whether the construction of the new
element throws (first schedule) or the copy of the third existing element
throws (second schedule), the call returns the iterator normally and the
vector is as before: the failure does not reach the caller. -/
theorem C9_emplace_realloc_swallows_failure :
    (Emplace copyElem full4 1 (.val 99) (Faults.mk false (some 0))).res = .ok 1 ∧
    (Emplace copyElem full4 1 (.val 99) (Faults.mk false (some 0))).vec = full4 ∧
    (Emplace copyElem full4 1 (.val 99) (Faults.mk false (some 3))).res = .ok 1 ∧
    (Emplace copyElem full4 1 (.val 99) (Faults.mk false (some 3))).vec = full4 ∧
    (EmplaceBack copyElem full4 99 (Faults.mk false (some 0))).res =
      .error .ElementOperationFailure := by
  decide

/-- Resize(n) then Resize(s), and a single growing Resize(n), for an element
type whose default-initialisation gives the default value of `T`: the first
`min n s` elements are those before the calls and the elements introduced by
growth have the default value. -/
theorem Resize_roundtrip (E : Elem α) (hd : E.defaultInit = some E.dflt) (v : Vector α)
    (cs : List α) (n : Nat) (h : Holds v cs) :
    (Resize E v n noFaults).res = .ok () ∧
    (Resize E (Resize E v n noFaults).vec v.Size noFaults).res = .ok () ∧
    (Resize E (Resize E v n noFaults).vec v.Size noFaults).vec.Size = v.Size ∧
    (∀ k, k < min n v.Size →
      (Resize E (Resize E v n noFaults).vec v.Size noFaults).vec.elemAt k = v.elemAt k ∧
      v.elemAt k = cs[k]?) ∧
    (∀ k, min n v.Size ≤ k → k < v.Size →
      (Resize E (Resize E v n noFaults).vec v.Size noFaults).vec.elemAt k = some E.dflt) ∧
    (v.Size < n →
      (Resize E v n noFaults).vec.Size = n ∧
      (∀ k, k < v.Size → (Resize E v n noFaults).vec.elemAt k = v.elemAt k) ∧
      (∀ k, v.Size ≤ k → k < n → (Resize E v n noFaults).vec.elemAt k = some E.dflt)) := by
  obtain ⟨_, _, h3, h4⟩ := (holds_iff v cs).1 h
  obtain ⟨r1, r2⟩ := Resize_ok E E.dflt hd v cs n h
  obtain ⟨q1, q2⟩ := Resize_ok E E.dflt hd _ _ v.Size r2
  obtain ⟨_, _, a3, a4⟩ := (holds_iff _ _).1 r2
  obtain ⟨_, _, b3, b4⟩ := (holds_iff _ _).1 q2
  have hl1 : (cs.take n ++ List.replicate (n - cs.length) E.dflt).length = n := by
    simp only [List.length_append, List.length_take, List.length_replicate]
    omega
  have hl2 : ((cs.take n ++ List.replicate (n - cs.length) E.dflt).take v.Size ++
      List.replicate (v.Size - (cs.take n ++ List.replicate (n - cs.length) E.dflt).length)
        E.dflt).length = v.Size := by
    simp only [List.length_append, List.length_take, List.length_replicate]
    omega
  rw [hl1] at a3
  rw [hl2] at b3
  have hs : v.Size = v.size_ := rfl
  refine ⟨r1, q1, b3, ?_, ?_, ?_⟩
  · intro k hk
    have hk1 : k < v.size_ := by rw [← hs]; omega
    have e1 : v.elemAt k = cs[k]? := h4 k hk1
    refine ⟨?_, e1⟩
    rw [e1]
    show (Resize E (Resize E v n noFaults).vec v.Size noFaults).vec.data_.cells.getD k none = _
    rw [b4 k (by rw [b3]; omega), get_resized, get_resized, hl1,
      if_pos (by omega), if_pos (by omega)]
  · intro k hk1 hk2
    show (Resize E (Resize E v n noFaults).vec v.Size noFaults).vec.data_.cells.getD k none = _
    rw [b4 k (by rw [b3]; omega), get_resized, hl1, if_neg (by omega), if_pos hk2]
  · intro hn
    refine ⟨a3, ?_, ?_⟩
    · intro k hk
      have hk1 : k < v.size_ := hk
      have e1 : v.elemAt k = cs[k]? := h4 k hk1
      rw [e1]
      show (Resize E v n noFaults).vec.data_.cells.getD k none = _
      rw [a4 k (by rw [a3]; omega), get_resized, if_pos (by omega)]
    · intro k hk1 hk2
      show (Resize E v n noFaults).vec.data_.cells.getD k none = _
      rw [a4 k (by rw [a3]; omega), get_resized, if_neg (by omega), if_pos hk2]

/-- C10, evaluated on the code for an element type like `int`: `[1, 2, 3]`
after Resize(1) and Resize(3) has size 3 and its first element, but the two
elements introduced by growth are default-initialised, that is not
initialised: they have no determinate value and do not equal the default value
0. After a single Resize(5) the elements at the indices 3 and 4 are in the same
state. The size constructor, which value-initialises, gives the default
value. -/
theorem C10_resize_growth_not_default_valued :
    (Resize intElem (Resize intElem sample3 1 noFaults).vec 3 noFaults).vec.Size = 3 ∧
    (Resize intElem (Resize intElem sample3 1 noFaults).vec 3 noFaults).vec.elemAt 0 =
      some 1 ∧
    (Resize intElem (Resize intElem sample3 1 noFaults).vec 3 noFaults).vec.elemAt 1 ≠
      some intElem.dflt ∧
    (Resize intElem (Resize intElem sample3 1 noFaults).vec 3 noFaults).vec.elemAt 2 ≠
      some intElem.dflt ∧
    (Resize intElem sample3 5 noFaults).vec.elemAt 3 ≠ some intElem.dflt ∧
    (ofSize intElem 2 noFaults).map (fun w => (w.elemAt 0, w.elemAt 1)) =
      .ok (some intElem.dflt, some intElem.dflt) := by
  decide

end YP

namespace YP

/-! ## The size constructor -/

theorem uninitialized_value_construct_n_length (E : Elem α) :
    ∀ (n : Nat) (cs : List (Option α)) (first : Nat) (f : Faults),
      (uninitialized_value_construct_n E cs first n f).2.length = cs.length := by
  intro n
  induction n with
  | zero => intro cs first f; rfl
  | succ n ih =>
    intro cs first f
    unfold uninitialized_value_construct_n
    cases f.tick with
    | none => rfl
    | some f1 =>
      have h := ih (cs.set first (some E.dflt)) (first + 1) f1
      simp only
      generalize uninitialized_value_construct_n E (cs.set first (some E.dflt)) (first + 1) n
        f1 = r at h ⊢
      obtain ⟨o, c1⟩ := r
      cases o <;> simpa using h

theorem uninitialized_value_construct_n_ok (E : Elem α) :
    ∀ (n : Nat) (cs : List (Option α)) (first : Nat),
      (uninitialized_value_construct_n E cs first n noFaults).1 = some noFaults := by
  intro n
  induction n with
  | zero => intro cs first; rfl
  | succ n ih =>
    intro cs first
    unfold uninitialized_value_construct_n
    rw [tick_noFaults]
    have h := ih (cs.set first (some E.dflt)) (first + 1)
    simp only
    generalize uninitialized_value_construct_n E (cs.set first (some E.dflt)) (first + 1) n
      noFaults = r at h ⊢
    obtain ⟨o, c1⟩ := r
    cases o with
    | none => simp at h
    | some g => exact h

theorem uninitialized_value_construct_n_getD (E : Elem α) :
    ∀ (n : Nat) (cs : List (Option α)) (first k : Nat),
      (uninitialized_value_construct_n E cs first n noFaults).2.getD k none =
        if first ≤ k ∧ k < first + n ∧ k < cs.length then some E.dflt else cs.getD k none := by
  intro n
  induction n with
  | zero => intro cs first k; rw [if_neg (by omega)]; rfl
  | succ n ih =>
    intro cs first k
    unfold uninitialized_value_construct_n
    rw [tick_noFaults]
    have h := ih (cs.set first (some E.dflt)) (first + 1) k
    have h1 := uninitialized_value_construct_n_ok E n (cs.set first (some E.dflt)) (first + 1)
    simp only
    generalize uninitialized_value_construct_n E (cs.set first (some E.dflt)) (first + 1) n
      noFaults = r at h h1 ⊢
    obtain ⟨o, c1⟩ := r
    cases o with
    | none => simp at h1
    | some g =>
      simp only at h ⊢
      rw [h]
      simp only [List.length_set, getD_set]
      split_ifs <;> first | rfl | (exfalso; omega)

/-- A value construction that completes builds the same block under every
fault schedule. -/
theorem uninitialized_value_construct_n_succ (E : Elem α) :
    ∀ (n : Nat) (cs : List (Option α)) (first : Nat) (f f2 : Faults),
      (uninitialized_value_construct_n E cs first n f).1 = some f2 →
      (uninitialized_value_construct_n E cs first n f).2 =
        (uninitialized_value_construct_n E cs first n noFaults).2 := by
  intro n
  induction n with
  | zero => intro cs first f f2 _; rfl
  | succ n ih =>
    intro cs first f f2 h
    have hok := uninitialized_value_construct_n_ok E n (cs.set first (some E.dflt)) (first + 1)
    unfold uninitialized_value_construct_n at h ⊢
    rw [tick_noFaults]
    cases ht : f.tick with
    | none => rw [ht] at h; simp at h
    | some f1 =>
      rw [ht] at h
      simp only at h ⊢
      have hi := ih (cs.set first (some E.dflt)) (first + 1) f1
      generalize uninitialized_value_construct_n E (cs.set first (some E.dflt)) (first + 1) n
        f1 = r at h hi ⊢
      generalize uninitialized_value_construct_n E (cs.set first (some E.dflt)) (first + 1) n
        noFaults = r0 at hok hi ⊢
      obtain ⟨o, c1⟩ := r
      obtain ⟨o0, c0⟩ := r0
      cases o with
      | none => simp at h
      | some g =>
        cases o0 with
        | none => simp at hok
        | some g0 => exact hi g rfl

namespace Vector

theorem ofSize_ok (E : Elem α) (n : Nat) :
    ∃ v, ofSize E n noFaults = .ok v ∧ v.size_ = n ∧ v.data_.capacity_ = n ∧
      Holds v (List.replicate n E.dflt) ∧ (n = 0 → v = Vector.empty) := by
  unfold ofSize
  obtain ⟨m, hm, hc, hcap⟩ := ofCapacity_ok (α := α) noFaults n rfl
  rw [hm]
  simp only
  have b1 := uninitialized_value_construct_n_ok E n m.cells 0
  have b2 := uninitialized_value_construct_n_getD E n m.cells 0
  have b3 := uninitialized_value_construct_n_length E n m.cells 0 noFaults
  generalize uninitialized_value_construct_n E m.cells 0 n noFaults = r at b1 b2 b3 ⊢
  obtain ⟨o, c1⟩ := r
  simp only at b1 b2 b3
  subst b1
  have e := cells_store m c1 b3
  refine ⟨_, rfl, rfl, hcap, ?_, ?_⟩
  · apply holds_of_getD
    · show (m.store c1).cells.length = m.capacity_
      rw [e, b3, hc, hcap]; simp
    · show n ≤ m.capacity_
      omega
    · show n = _
      simp
    · intro k hk
      have hk2 : k < n := hk
      show (m.store c1).cells.getD k none = _
      rw [e, b2, hc, if_pos (by simp; omega)]
      simp [List.getElem?_replicate, hk2]
  · intro hn
    subst hn
    unfold RawMemory.ofCapacity RawMemory.Allocate at hm
    simp at hm
    rw [← hm]
    rfl

theorem ofSize_succ (E : Elem α) (n : Nat) (f : Faults) (v : Vector α)
    (h : ofSize E n f = .ok v) : ofSize E n noFaults = .ok v := by
  unfold ofSize at h ⊢
  cases hm : (RawMemory.ofCapacity f n : Except Failure (RawMemory α)) with
  | error e => rw [hm] at h; simp at h
  | ok m =>
    rw [ofCapacity_succ f n m hm]
    rw [hm] at h
    simp only at h ⊢
    have hok := uninitialized_value_construct_n_ok E n m.cells 0
    have hs := uninitialized_value_construct_n_succ E n m.cells 0 f
    generalize uninitialized_value_construct_n E m.cells 0 n f = r at h hs ⊢
    generalize uninitialized_value_construct_n E m.cells 0 n noFaults = r0 at hok hs ⊢
    obtain ⟨o, c1⟩ := r
    obtain ⟨o0, c0⟩ := r0
    cases o with
    | none => simp at h
    | some g =>
      cases o0 with
      | none => simp at hok
      | some g0 =>
        have := hs g rfl
        simp only at this h ⊢
        rw [← this]
        exact h

end Vector

end YP

namespace YP

namespace Vector

/-! ## Appending under every fault schedule -/

/-- An `EmplaceBack` that returns leaves the same vector, and returns the same
reference, under every fault schedule. -/
theorem EmplaceBack_succ (E : Elem α) (v : Vector α) (x : α) (f : Faults) (r : Nat)
    (h : (EmplaceBack E v x f).res = .ok r) :
    (EmplaceBack E v x f).vec = (EmplaceBack E v x noFaults).vec ∧
    (EmplaceBack E v x noFaults).res = .ok r := by
  unfold EmplaceBack at h ⊢
  by_cases hn : v.size_ = v.data_.Capacity
  · simp only [hn, if_true] at h ⊢
    rw [← hn] at h ⊢
    cases hm : (RawMemory.ofCapacity f (if v.size_ = 0 then 1 else v.size_ * 2) :
        Except Failure (RawMemory α)) with
    | error e => rw [hm] at h; simp at h
    | ok m =>
      rw [ofCapacity_succ f _ m hm]
      rw [hm] at h
      simp only [tick_noFaults] at h ⊢
      cases ht : f.tick with
      | none => rw [ht] at h; simp at h
      | some f1 =>
        rw [ht] at h
        simp only at h ⊢
        have hok := (relocate_ok E v m (m.cells.set v.size_ (some x)) (by simp)).1
        have hs := relocate_succ E v m (m.cells.set v.size_ (some x)) f1
        generalize relocate E v m (m.cells.set v.size_ (some x)) f1 = q at h hs ⊢
        generalize relocate E v m (m.cells.set v.size_ (some x)) noFaults = q0 at hok hs ⊢
        obtain ⟨o, a⟩ := q
        obtain ⟨o0, a0⟩ := q0
        cases o with
        | none => simp at h
        | some g =>
          cases o0 with
          | none => simp at hok
          | some g0 =>
            have e := hs g rfl
            simp only at e h ⊢
            subst e
            exact ⟨rfl, h⟩
  · simp only [hn, if_false, tick_noFaults] at h ⊢
    cases ht : f.tick with
    | none => rw [ht] at h; simp at h
    | some f1 =>
      rw [ht] at h
      exact ⟨rfl, h⟩

end Vector

end YP

namespace YP

/-! ## A growing Resize whose default construction throws -/

theorem uninitialized_default_construct_n_fail (E : Elem α) :
    ∀ (n : Nat) (cs : List (Option α)) (first : Nat) (f : Faults) (k : Nat),
      f.elem = some k → k < n → (uninitialized_default_construct_n E cs first n f).1 = none := by
  intro n
  induction n with
  | zero => intro cs first f k _ hk; omega
  | succ n ih =>
    intro cs first f k hf hk
    unfold uninitialized_default_construct_n
    cases k with
    | zero => rw [tick_zero f hf]
    | succ k =>
      rw [tick_succ f k hf]
      simp only
      have h := ih (cs.set first E.defaultInit) (first + 1) { f with elem := some k } k rfl
        (by omega)
      generalize uninitialized_default_construct_n E (cs.set first E.defaultInit) (first + 1) n
        { f with elem := some k } = r at h ⊢
      obtain ⟨o, c1⟩ := r
      cases o with
      | none => rfl
      | some g => simp at h

/-- Default construction from slot `first` on never writes a slot below
`first`, whether it completes or throws. -/
theorem uninitialized_default_construct_n_below (E : Elem α) :
    ∀ (n : Nat) (cs : List (Option α)) (first : Nat) (f : Faults) (k : Nat), k < first →
      (uninitialized_default_construct_n E cs first n f).2.getD k none = cs.getD k none := by
  intro n
  induction n with
  | zero => intro cs first f k _; rfl
  | succ n ih =>
    intro cs first f k hk
    unfold uninitialized_default_construct_n
    cases f.tick with
    | none => rfl
    | some f1 =>
      have h := ih (cs.set first E.defaultInit) (first + 1) f1 k (by omega)
      rw [getD_set, if_neg (by omega)] at h
      simp only
      generalize uninitialized_default_construct_n E (cs.set first E.defaultInit) (first + 1) n
        f1 = r at h ⊢
      obtain ⟨o, c1⟩ := r
      cases o with
      | none =>
        simp only at h ⊢
        rw [getD_set, if_neg (by omega)]
        exact h
      | some g => exact h

end YP

namespace YP

/-! ## Copy construction and copy assignment -/

theorem copy_assign_n_length (E : Elem α) (src : List (Option α)) :
    ∀ (n first : Nat) (dst : List (Option α)) (f : Faults),
      (copy_assign_n E src first n dst f).2.length = dst.length := by
  intro n
  induction n with
  | zero => intro first dst f; rfl
  | succ n ih =>
    intro first dst f
    unfold copy_assign_n
    cases f.tick with
    | none => rfl
    | some f1 => simp only [ih, assignSlot_length]

theorem copy_assign_n_ok (E : Elem α) (src : List (Option α)) :
    ∀ (n first : Nat) (dst : List (Option α)),
      (copy_assign_n E src first n dst noFaults).1 = some noFaults := by
  intro n
  induction n with
  | zero => intro first dst; rfl
  | succ n ih =>
    intro first dst
    unfold copy_assign_n
    rw [tick_noFaults]
    exact ih _ _

/-- The copy-assignment loop over slots that can be assigned to. -/
theorem copy_assign_n_getD (E : Elem α) (src : List (Option α)) :
    ∀ (n first : Nat) (dst : List (Option α)) (k : Nat),
      (∀ j, first ≤ j → j < first + n →
        ((dst.getD j none).isSome = true ∨ E.trivialDestructor = true)) →
      (copy_assign_n E src first n dst noFaults).2.getD k none =
        if first ≤ k ∧ k < first + n ∧ k < dst.length then src.getD k none
        else dst.getD k none := by
  intro n
  induction n with
  | zero => intro first dst k _; rw [if_neg (by omega)]; rfl
  | succ n ih =>
    intro first dst k hlive
    unfold copy_assign_n
    rw [tick_noFaults]
    simp only
    have h0 := hlive first (by omega) (by omega)
    rw [ih]
    · simp only [assignSlot_length, assignSlot_getD, h0, and_true]
      split_ifs <;> first | rfl | (exfalso; omega) | (congr 1; omega)
    · intro j hj1 hj2
      by_cases ht : E.trivialDestructor = true
      · exact Or.inr ht
      · left
        rw [assignSlot_getD, if_neg (by omega)]
        exact (hlive j (by omega) (by omega)).resolve_right ht

namespace Vector

theorem copy_ok (b : Vector α) (sb : List α) (h : Holds b sb) :
    ∃ t, copy b noFaults = .ok (t, noFaults) ∧ Holds t sb ∧ t.size_ = b.size_ ∧
      t.data_.capacity_ = b.size_ := by
  obtain ⟨h1, h2, h3, h4⟩ := (holds_iff b sb).1 h
  unfold copy
  obtain ⟨m, hm, hc, hcap⟩ := ofCapacity_ok (α := α) noFaults b.size_ rfl
  rw [hm]
  simp only
  have b1 := uninitialized_copy_n_ok b.data_.cells b.size_ 0 m.cells 0
  have b2 := uninitialized_copy_n_getD b.data_.cells b.size_ 0 m.cells 0
  have b3 := uninitialized_copy_n_length b.data_.cells b.size_ 0 m.cells 0 noFaults
  generalize uninitialized_copy_n b.data_.cells 0 b.size_ m.cells 0 noFaults = r at b1 b2 b3 ⊢
  obtain ⟨o, c1⟩ := r
  simp only at b1 b2 b3
  subst b1
  have e := cells_store m c1 b3
  refine ⟨_, rfl, ?_, rfl, hcap⟩
  apply holds_of_getD
  · show (m.store c1).cells.length = m.capacity_
    rw [e, b3, hc, hcap]; simp
  · show b.size_ ≤ m.capacity_
    omega
  · exact h3
  · intro k hk
    have hk2 : k < b.size_ := hk
    show (m.store c1).cells.getD k none = _
    rw [e, b2, hc, if_pos (by simp; omega)]
    simp only [Nat.zero_add, Nat.sub_zero]
    exact h4 k hk2

theorem copyAssign_ok (E : Elem α) (a b : Vector α) (sa sb : List α) (ha : Holds a sa) (hb : Holds b sb) :
    (copyAssign E a b noFaults).res = .ok () ∧
    Holds (copyAssign E a b noFaults).vec sb ∧
    (copyAssign E a b noFaults).vec.Capacity =
      (if b.Size ≤ a.Capacity then a.Capacity else b.Size) := by
  obtain ⟨a1, a2, a3, a4⟩ := (holds_iff a sa).1 ha
  obtain ⟨b1, b2, b3, b4⟩ := (holds_iff b sb).1 hb
  unfold copyAssign
  by_cases hn : b.size_ > a.data_.Capacity
  · rw [if_pos hn]
    obtain ⟨t, ht, hH, hs, hcap⟩ := copy_ok b sb hb
    rw [ht]
    simp only
    have hne : ¬ b.Size ≤ a.Capacity := by
      simp only [Size, Capacity]; omega
    rw [if_neg hne]
    obtain ⟨t1, t2, t3, t4⟩ := (holds_iff t sb).1 hH
    refine ⟨trivial, ?_, hcap⟩
    apply holds_of_getD
    · exact t1
    · show b.Size ≤ t.data_.capacity_
      simp only [Size]; omega
    · exact b3
    · intro k hk
      have hk2 : k < b.size_ := hk
      exact t4 k (by omega)
  · rw [if_neg hn]
    have hle : b.size_ ≤ a.data_.capacity_ := by
      simp only [RawMemory.Capacity] at hn; omega
    have hc : b.Size ≤ a.Capacity := hle
    rw [if_pos hc]
    have c1 := copy_assign_n_ok E b.data_.cells (min a.Size b.Size) 0 a.data_.cells
    have c2 := fun k => copy_assign_n_getD E b.data_.cells (min a.Size b.Size) 0 a.data_.cells k
      (by
        intro j _ hj
        left
        apply (holds_live a sa ha).2
        simp only [Size] at hj
        omega)
    have c3 := copy_assign_n_length E b.data_.cells (min a.Size b.Size) 0 a.data_.cells noFaults
    generalize copy_assign_n E b.data_.cells 0 (min a.Size b.Size) a.data_.cells noFaults = r
      at c1 c2 c3 ⊢
    obtain ⟨o, cs⟩ := r
    simp only at c1 c2 c3
    subst c1
    simp only [Size] at c2 c3 ⊢
    by_cases g1 : a.size_ > b.size_
    · rw [if_pos g1]
      have e := cells_store a.data_ (destroy_n cs b.size_ (a.size_ - b.size_))
        (by rw [destroy_n_length, c3])
      refine ⟨rfl, ?_, rfl⟩
      apply holds_of_getD
      · show (a.data_.store _).cells.length = a.data_.capacity_
        rw [e, destroy_n_length, c3, a1]
      · exact hle
      · exact b3
      · intro k hk
        have hk2 : k < b.size_ := hk
        show (a.data_.store _).cells.getD k none = _
        rw [e, destroy_n_getD, if_neg (by omega), c2, if_pos (by omega)]
        exact b4 k hk2
    · rw [if_neg g1]
      by_cases g2 : a.size_ < b.size_
      · rw [if_pos g2]
        have d1 := uninitialized_copy_n_ok b.data_.cells (b.size_ - a.size_) a.size_ cs a.size_
        have d2 := uninitialized_copy_n_getD b.data_.cells (b.size_ - a.size_) a.size_ cs
          a.size_
        have d3 := uninitialized_copy_n_length b.data_.cells (b.size_ - a.size_) a.size_ cs
          a.size_ noFaults
        generalize uninitialized_copy_n b.data_.cells a.size_ (b.size_ - a.size_) cs a.size_
          noFaults = r at d1 d2 d3 ⊢
        obtain ⟨o, cs2⟩ := r
        simp only at d1 d2 d3
        subst d1
        simp only
        have e := cells_store a.data_ cs2 (by rw [d3, c3])
        refine ⟨trivial, ?_, rfl⟩
        apply holds_of_getD
        · show (a.data_.store _).cells.length = a.data_.capacity_
          rw [e, d3, c3, a1]
        · exact hle
        · exact b3
        · intro k hk
          have hk2 : k < b.size_ := hk
          show (a.data_.store _).cells.getD k none = _
          rw [e, d2, c3]
          by_cases g3 : k < a.size_
          · rw [if_neg (by omega), c2, if_pos (by omega)]
            exact b4 k hk2
          · rw [if_pos (by omega)]
            have : a.size_ + (k - a.size_) = k := by omega
            rw [this]
            exact b4 k hk2
      · rw [if_neg g2]
        have e := cells_store a.data_ cs c3
        refine ⟨rfl, ?_, rfl⟩
        apply holds_of_getD
        · show (a.data_.store _).cells.length = a.data_.capacity_
          rw [e, c3, a1]
        · exact hle
        · exact b3
        · intro k hk
          have hk2 : k < b.size_ := hk
          show (a.data_.store _).cells.getD k none = _
          rw [e, c2, if_pos (by omega)]
          exact b4 k hk2

end Vector

end YP

namespace YP

namespace Vector

/-! ## Size within capacity, under every fault schedule -/

theorem Reserve_size (E : Elem α) (v : Vector α) (n : Nat) (f : Faults) :
    (Reserve E v n f).vec.size_ = v.size_ := by
  unfold Reserve
  split
  · rfl
  · split
    · rfl
    · rename_i new_data heq
      have hr := relocate_size E v new_data new_data.cells f
      split
      · rename_i v1 heq2
        rw [heq2] at hr
        exact hr
      · rename_i f1 v1 heq2
        rw [heq2] at hr
        exact hr

theorem Reserve_ok_capacity (E : Elem α) (v : Vector α) (n : Nat) (f : Faults)
    (h : (Reserve E v n f).res = .ok ()) : n ≤ (Reserve E v n f).vec.data_.capacity_ := by
  unfold Reserve at h ⊢
  by_cases hn : n ≤ v.data_.Capacity
  · simp only [hn, if_true]
    exact hn
  · simp only [hn, if_false] at h ⊢
    cases hm : (RawMemory.ofCapacity f n : Except Failure (RawMemory α)) with
    | error e => rw [hm] at h; simp at h
    | ok m =>
      rw [hm] at h
      simp only at h ⊢
      have hc := ofCapacity_capacity f n m hm
      have hr := relocate_capacity E v m m.cells f
      generalize relocate E v m m.cells f = q at h hr ⊢
      obtain ⟨o, a⟩ := q
      cases o with
      | none => simp at h
      | some g =>
        simp only at hr ⊢
        rw [hr, if_neg (by simp), hc]

theorem Reserve_inv (E : Elem α) (v : Vector α) (n : Nat) (f : Faults)
    (hv : v.size_ ≤ v.data_.capacity_) :
    (Reserve E v n f).vec.size_ ≤ (Reserve E v n f).vec.data_.capacity_ := by
  have h1 := Reserve_size E v n f
  have h2 : v.data_.capacity_ ≤ (Reserve E v n f).vec.data_.capacity_ :=
    Reserve_capacity_le E v n f
  omega

theorem Resize_inv (E : Elem α) (v : Vector α) (n : Nat) (f : Faults)
    (hv : v.size_ ≤ v.data_.capacity_) :
    (Resize E v n f).vec.size_ ≤ (Resize E v n f).vec.data_.capacity_ := by
  have h1 := Reserve_inv E v n f hv
  have h2 := Reserve_ok_capacity E v n f
  unfold Resize
  generalize Reserve E v n f = q at h1 h2
  obtain ⟨res, v1, f1⟩ := q
  simp only at h1 h2
  cases res with
  | error e => exact h1
  | ok u =>
    have h3 : n ≤ v1.data_.capacity_ := h2 rfl
    simp only
    split
    · exact h3
    · split
      · split
        · exact h1
        · exact h3
      · exact h3

theorem EmplaceBack_inv (E : Elem α) (v : Vector α) (x : α) (f : Faults)
    (hv : v.size_ ≤ v.data_.capacity_) :
    (EmplaceBack E v x f).vec.size_ ≤ (EmplaceBack E v x f).vec.data_.capacity_ := by
  unfold EmplaceBack
  split
  · rename_i hn
    simp only
    split
    · exact hv
    · rename_i new_data heq
      have hc := ofCapacity_capacity f _ new_data heq
      have hgt := temp_size_gt v.size_
      split
      · exact hv
      · rename_i f1 _
        have hs := relocate_size E v new_data (new_data.cells.set v.size_ (some x)) f1
        have hr := relocate_capacity E v new_data (new_data.cells.set v.size_ (some x)) f1
        generalize relocate E v new_data (new_data.cells.set v.size_ (some x)) f1 = q
          at hs hr ⊢
        obtain ⟨o, a⟩ := q
        cases o with
        | none =>
          simp only at hs hr ⊢
          rw [if_pos trivial] at hr
          omega
        | some g =>
          simp only at hs hr ⊢
          rw [if_neg (by simp)] at hr
          omega
  · rename_i hn
    simp only [RawMemory.Capacity] at hn
    split
    · exact hv
    · show v.size_ + 1 ≤ v.data_.capacity_
      omega

theorem PushBackMove_inv (E : Elem α) (v : Vector α) (x : α) (f : Faults)
    (hv : v.size_ ≤ v.data_.capacity_) :
    (PushBackMove E v x f).vec.size_ ≤ (PushBackMove E v x f).vec.data_.capacity_ := by
  unfold PushBackMove
  split
  · rename_i hn
    simp only
    split
    · exact hv
    · rename_i new_data heq
      have hc := ofCapacity_capacity f _ new_data heq
      have hgt := temp_size_gt v.size_
      split
      · exact hv
      · rename_i f1 _
        have hs := relocate_size E v new_data (new_data.cells.set v.size_ (some x)) f1
        have hr := relocate_capacity E v new_data (new_data.cells.set v.size_ (some x)) f1
        generalize relocate E v new_data (new_data.cells.set v.size_ (some x)) f1 = q
          at hs hr ⊢
        obtain ⟨o, a⟩ := q
        cases o with
        | none =>
          simp only at hs hr ⊢
          rw [if_pos trivial] at hr
          omega
        | some g =>
          simp only at hs hr ⊢
          rw [if_neg (by simp)] at hr
          omega
  · rename_i hn
    simp only [RawMemory.Capacity] at hn
    split
    · exact hv
    · show v.size_ + 1 ≤ v.data_.capacity_
      omega

theorem Emplace_inv (E : Elem α) (v : Vector α) (pos : Nat) (a : Arg α) (f : Faults)
    (hv : v.size_ ≤ v.data_.capacity_) :
    (Emplace E v pos a f).vec.size_ ≤ (Emplace E v pos a f).vec.data_.capacity_ := by
  unfold Emplace
  simp only
  split
  · rename_i hn
    split
    · exact hv
    · rename_i new_data heq
      have hc := ofCapacity_capacity f _ new_data heq
      have hgt := temp_size_gt v.size_
      have hle : v.size_ + 1 ≤ new_data.capacity_ := by omega
      repeat' split
      all_goals first | exact hv | exact hle
  · rename_i hn
    have hlt : v.size_ + 1 ≤ v.data_.capacity_ := by
      simp only [Capacity, RawMemory.Capacity] at hn; omega
    repeat' split
    all_goals first | exact hv | exact hlt

theorem Erase_inv (E : Elem α) (v : Vector α) (pos : Nat) (f : Faults)
    (hv : v.size_ ≤ v.data_.capacity_) :
    (Erase E v pos f).vec.size_ ≤ (Erase E v pos f).vec.data_.capacity_ := by
  unfold Erase
  simp only
  split
  · exact hv
  · show v.size_ - 1 ≤ v.data_.capacity_
    omega

theorem copyAssign_inv (E : Elem α) (v rhs : Vector α) (f : Faults) (hv : v.size_ ≤ v.data_.capacity_) :
    (copyAssign E v rhs f).vec.size_ ≤ (copyAssign E v rhs f).vec.data_.capacity_ := by
  unfold copyAssign
  split
  · split
    · exact hv
    · rename_i temp f1 heq
      obtain ⟨hc, _⟩ := copy_shape rhs temp f f1 heq
      show rhs.size_ ≤ temp.data_.capacity_
      omega
  · rename_i hn
    have hle : rhs.size_ ≤ v.data_.capacity_ := by
      simp only [RawMemory.Capacity] at hn; omega
    split
    · exact hv
    · split
      · exact hle
      · split
        · split
          · exact hv
          · exact hle
        · exact hle

end Vector

end YP

namespace YP

namespace Vector

/-! ## Copy construction under every fault schedule; slots after Erase -/

theorem storageInv_live (v : Vector α) (h : StorageInv v) :
    v.size_ ≤ v.data_.cells.length ∧
      ∀ k, k < v.size_ → (v.data_.cells.getD k none).isSome := by
  obtain ⟨h1, h2, h3⟩ := h
  refine ⟨by omega, ?_⟩
  intro k hk
  rw [h3 k (by omega)]
  exact decide_eq_true hk

/-- Erase at a position that is not the last leaves a live, moved-from object
in the slot of the old last element, which is outside the new size. -/
theorem Erase_leaves_last_live (E : Elem α) (v : Vector α) (pos : Nat) (h : StorageInv v)
    (hp : pos + 1 < v.size_) :
    (Erase E v pos noFaults).vec.size_ = v.size_ - 1 ∧
    ((Erase E v pos noFaults).vec.data_.cells.getD (v.size_ - 1) none).isSome = true := by
  obtain ⟨l1, l2⟩ := storageInv_live v h
  cases hE : E.trivialDestructor with
  | false =>
    obtain ⟨_, r2, _, r4⟩ := Erase_getD E hE v pos l1 l2 (by omega)
    refine ⟨r2, ?_⟩
    rw [r4, if_neg (by omega), if_neg (by omega), if_pos (by omega)]
    simp only [Option.isSome_map']
    exact l2 _ (by omega)
  | true =>
    unfold Erase
    simp only
    have b1 := std_move_ok E (v.size_ - (pos + 1)) (v.data_.cells.set pos none) (pos + 1) pos
    have b2 := std_move_getD E (v.size_ - (pos + 1)) (v.data_.cells.set pos none) pos
      (v.size_ - 1) (by rw [List.length_set]; omega) (fun _ _ _ => Or.inr hE)
    have b3 := std_move_length E (v.size_ - (pos + 1)) (v.data_.cells.set pos none) (pos + 1)
      pos noFaults
    generalize std_move E (v.data_.cells.set pos none) (pos + 1) (v.size_ - (pos + 1)) pos
      noFaults = r at b1 b2 b3 ⊢
    obtain ⟨o, c2⟩ := r
    simp only [List.length_set] at b1 b2 b3
    subst b1
    simp only
    refine ⟨trivial, ?_⟩
    rw [cells_store v.data_ c2 b3, b2, if_neg (by omega), if_pos (by omega), getD_set,
      if_neg (by omega)]
    simp only [Option.isSome_map']
    exact l2 _ (by omega)

/-- Erase at a position that is not the last breaks the storage invariant. -/
theorem Erase_breaks_storage_invariant (E : Elem α) (v : Vector α) (pos : Nat)
    (h : StorageInv v) (hp : pos + 1 < v.size_) :
    ¬ StorageInv (Erase E v pos noFaults).vec := by
  obtain ⟨e1, e2⟩ := Erase_leaves_last_live E v pos h hp
  intro hc
  have hcap : (Erase E v pos noFaults).vec.data_.capacity_ = v.data_.capacity_ :=
    Erase_capacity E v pos noFaults
  have := hc.2.2 (v.size_ - 1) (by rw [hcap]; have := h.2.1; omega)
  rw [e2, e1] at this
  simp at this

end Vector

end YP

namespace YP

namespace VectorObject

/-! ## The free store: a copy has a block of its own -/

/-- Two objects with the same block are not isolated: an assignment through one
is read through the other. -/
theorem shared_block_not_isolated :
    (object3.read heap3).contents = [some 1, some 2, some 3] ∧
    (object3.read (call Vector.intElem noFaults (.assignAt 0 7) heap3 object3).1).contents =
      [some 7, some 2, some 3] := by
  decide

end VectorObject

end YP

namespace YP

open Vector

/-- C13: for every vector `v`, move-constructing `w` from `v` gives `w` the
block, hence Size(), Capacity() and element sequence, that `v` had, and leaves
the source empty: Size() == 0 and Capacity() == 0. -/
theorem C13_move_construct (v : Vector α) :
    (moveCtor v).1 = v ∧
    (moveCtor v).1.Size = v.Size ∧
    (moveCtor v).1.Capacity = v.Capacity ∧
    (moveCtor v).1.contents = v.contents ∧
    (moveCtor v).2 = Vector.empty ∧
    (moveCtor v).2.Size = 0 ∧
    (moveCtor v).2.Capacity = 0 := by
  refine ⟨rfl, rfl, rfl, rfl, rfl, rfl, rfl⟩

/-- C19 as stated fails for move assignment: assigning the buffer of three
slots to the buffer of two slots leaves the source with the block of two slots,
not with the null address and capacity 0. -/
theorem C19_move_assign_source_not_empty :
    ¬ ((RawMemory.moveAssignFrom RawMemory.twoSlots RawMemory.threeSlots).1 =
        RawMemory.threeSlots ∧
      (RawMemory.moveAssignFrom RawMemory.twoSlots RawMemory.threeSlots).2.buffer_ = none ∧
      (RawMemory.moveAssignFrom RawMemory.twoSlots RawMemory.threeSlots).2.Capacity = 0) := by
  decide

/-- C19, amended: move construction transfers the block of the source (address
and capacity) to the new buffer and leaves the source in the empty state, null
address and capacity 0. Move assignment is a swap: the destination receives
the block of the source and the source receives the block the destination had,
so that the source is empty afterwards exactly when the destination was empty
before. -/
theorem C19_move_transfers_block (self other : RawMemory α) :
    (RawMemory.moveCtor other).1 = other ∧
    (RawMemory.moveCtor other).2.buffer_ = none ∧
    (RawMemory.moveCtor other).2.Capacity = 0 ∧
    (RawMemory.moveAssignFrom self other).1 = other ∧
    (RawMemory.moveAssignFrom self other).2 = self ∧
    ((RawMemory.moveAssignFrom self other).2 = RawMemory.empty ↔ self = RawMemory.empty) := by
  refine ⟨rfl, rfl, rfl, rfl, rfl, Iff.rfl⟩

/-- C18: for every `n`, constructing a Vector with initial size `n` returns
when nothing fails, and every such construction that returns gives
`Size() == n`, `Capacity() == n` and `n` elements that all equal the default
value of the type; for `n = 0` it is the empty vector with capacity 0. -/
theorem C18_size_constructor (E : Elem α) (n : Nat) :
    (∃ v, ofSize E n noFaults = .ok v) ∧
    ∀ (f : Faults) (v : Vector α), ofSize E n f = .ok v →
      v.Size = n ∧ v.Capacity = n ∧
      v.contents = (List.replicate n E.dflt).map some ∧
      (∀ k, k < n → v.elemAt k = some E.dflt) ∧
      (n = 0 → v = Vector.empty) := by
  obtain ⟨v0, h0, h1, h2, h3, h4⟩ := ofSize_ok E n
  refine ⟨⟨v0, h0⟩, ?_⟩
  intro f v hv
  have := ofSize_succ E n f v hv
  rw [h0] at this
  simp only [Except.ok.injEq] at this
  subst this
  obtain ⟨_, _, _, b4⟩ := (holds_iff _ _).1 h3
  refine ⟨h1, h2, h3.2.2, ?_, h4⟩
  intro k hk
  show v0.data_.cells.getD k none = _
  rw [b4 k (by omega)]
  simp [List.getElem?_replicate, hk]

/-- Witness of C18: initial size 5 of a type like `int`. -/
theorem C18_size_constructor_witness :
    ofSize intElem 5 noFaults =
        .ok ⟨⟨some [some 0, some 0, some 0, some 0, some 0], 5⟩, 5⟩ ∧
      (Vector.mk (RawMemory.mk (some [some 0, some 0, some 0, some 0, some 0]) 5) 5).Size = 5 ∧
      (Vector.mk (RawMemory.mk (some [some 0, some 0, some 0, some 0, some 0]) 5) 5).Capacity
        = 5 :=
  ⟨by decide,
    ((C18_size_constructor intElem 5).2 noFaults
      ⟨⟨some [some 0, some 0, some 0, some 0, some 0], 5⟩, 5⟩ (by decide)).1,
    ((C18_size_constructor intElem 5).2 noFaults
      ⟨⟨some [some 0, some 0, some 0, some 0, some 0], 5⟩, 5⟩ (by decide)).2.1⟩

/-- C17: for every vector with contents `s` and every constructor argument
list, with `x = T(args...)`, an EmplaceBack that returns leaves the contents
equal to `s ++ [x]` and returns a reference to the element at index
`Size() - 1` of the resulting vector, whose value is `x`; on the reallocating
and on the in-place branch alike. When nothing fails the call returns. -/
theorem C17_emplace_back (E : Elem α) (v : Vector α) (s : List α) (x : α) (f : Faults)
    (h : Holds v s) :
    (∀ r, (EmplaceBack E v x f).res = .ok r →
      (EmplaceBack E v x f).vec.contents = (s ++ [x]).map some ∧
      Holds (EmplaceBack E v x f).vec (s ++ [x]) ∧
      r = (EmplaceBack E v x f).vec.Size - 1 ∧
      (EmplaceBack E v x f).vec.elemAt r = some x) ∧
    (EmplaceBack E v x noFaults).res = .ok s.length := by
  obtain ⟨r1, r2, _⟩ := EmplaceBack_ok E v s x h
  obtain ⟨_, _, b3, b4⟩ := (holds_iff _ _).1 r2
  refine ⟨?_, r1⟩
  intro r hr
  obtain ⟨e1, e2⟩ := EmplaceBack_succ E v x f r hr
  rw [e1]
  rw [r1] at e2
  simp only [Except.ok.injEq] at e2
  subst e2
  refine ⟨r2.2.2, r2, ?_, ?_⟩
  · show s.length = (EmplaceBack E v x noFaults).vec.size_ - 1
    rw [b3]; simp
  · show (EmplaceBack E v x noFaults).vec.data_.cells.getD s.length none = _
    rw [b4 s.length (by rw [b3]; simp)]
    simp

/-- Witness of C17: EmplaceBack(99) on `[1, 2, 3]` in place and on the full
`[1, 2, 3, 4]` with reallocation. -/
theorem C17_emplace_back_witness :
    (Holds sample3 [1, 2, 3] ∧ (EmplaceBack intElem sample3 99 noFaults).res = .ok 3 ∧
      (EmplaceBack intElem sample3 99 noFaults).vec.contents = ([1, 2, 3] ++ [99]).map some) ∧
    (Holds full4 [1, 2, 3, 4] ∧ (EmplaceBack intElem full4 99 noFaults).res = .ok 4 ∧
      (EmplaceBack intElem full4 99 noFaults).vec.contents =
        ([1, 2, 3, 4] ++ [99]).map some) :=
  ⟨⟨by decide, by decide,
      ((C17_emplace_back intElem sample3 [1, 2, 3] 99 noFaults (by decide)).1 3
        (by decide)).1⟩,
    ⟨by decide, by decide,
      ((C17_emplace_back intElem full4 [1, 2, 3, 4] 99 noFaults (by decide)).1 4
        (by decide)).1⟩⟩

/-- C11: for every vector and every `n`: Resize(n) with `n <= Size()` returns
under every fault schedule; and in a Resize(n) with `n > Size()` whose Reserve
step returns and in which the default construction of one of the `n - Size()`
new trailing elements throws, the call fails with the element failure, Size()
is as before the call and the elements at the indices below Size() are
unchanged: no growth is visible. -/
theorem C11_resize_failure (E : Elem α) (v : Vector α) (s : List α) (n : Nat) (f : Faults)
    (h : Holds v s) :
    (n ≤ v.Size → (Resize E v n f).res = .ok ()) ∧
    (v.Size < n → ∀ k, (Reserve E v n f).res = .ok () →
      (Reserve E v n f).rest.elem = some k → k < n - v.Size →
      (Resize E v n f).res = .error .ElementOperationFailure ∧
      (Resize E v n f).vec.Size = v.Size ∧
      (Resize E v n f).vec.contents = v.contents ∧
      Holds (Resize E v n f).vec s) := by
  obtain ⟨h1, h2, h3, h4⟩ := (holds_iff v s).1 h
  constructor
  · intro hn
    simp only [Size] at hn
    have hn2 : n ≤ v.data_.Capacity := by
      simp only [RawMemory.Capacity]; omega
    unfold Resize Reserve
    simp only [hn2, if_true]
    split
    · rfl
    · split
      · omega
      · rfl
  · intro hn k hok hk hkn
    have hsucc := Reserve_succ E v n f hok
    obtain ⟨_, r2, r3, _⟩ := Reserve_ok E v s n h
    rw [← hsucc] at r2 r3
    unfold Resize
    generalize Reserve E v n f = q at hok hk r2 r3
    obtain ⟨res, v1, f1⟩ := q
    simp only at hok hk r2 r3
    subst hok
    obtain ⟨a1, a2, a3, a4⟩ := (holds_iff v1 s).1 r2
    have hs : v1.size_ = v.size_ := by rw [a3, h3]
    simp only [Size] at hn hkn
    simp only
    rw [if_neg (by omega), if_pos (show n > v1.size_ from by omega)]
    have b1 := uninitialized_default_construct_n_fail E (n - v1.size_) v1.data_.cells v1.size_
      f1 k hk (by omega)
    have b2 := fun j => uninitialized_default_construct_n_below E (n - v1.size_)
      v1.data_.cells v1.size_ f1 j
    have b3 := uninitialized_default_construct_n_length E (n - v1.size_) v1.data_.cells
      v1.size_ f1
    generalize uninitialized_default_construct_n E v1.data_.cells v1.size_ (n - v1.size_)
      f1 = q at b1 b2 b3 ⊢
    obtain ⟨o, c1⟩ := q
    simp only at b1 b2 b3
    subst b1
    simp only
    have e := cells_store v1.data_ c1 b3
    have hH : Holds (Vector.mk (v1.data_.store c1) v1.size_) s := by
      apply holds_of_getD
      · show (v1.data_.store c1).cells.length = v1.data_.capacity_
        rw [e, b3, a1]
      · exact a2
      · exact a3
      · intro j hj
        show (v1.data_.store c1).cells.getD j none = _
        rw [e, b2 j hj]
        exact a4 j hj
    refine ⟨trivial, hs, ?_, hH⟩
    rw [hH.2.2, h.2.2]

/-- Witness of C11: `[1, 2, 3]` of a class type relocated by copy, Resize(5)
under a schedule that lets the three copies of the Reserve step and one default
construction complete and makes the second default construction throw. -/
theorem C11_resize_failure_witness :
    Holds sample3 [1, 2, 3] ∧ sample3.Size < 5 ∧
    (Reserve copyElem sample3 5 (Faults.mk false (some 4))).res = .ok () ∧
    (Reserve copyElem sample3 5 (Faults.mk false (some 4))).rest.elem = some 1 ∧
    1 < 5 - sample3.Size ∧
    ((Resize copyElem sample3 5 (Faults.mk false (some 4))).res =
        .error .ElementOperationFailure ∧
      (Resize copyElem sample3 5 (Faults.mk false (some 4))).vec.Size = sample3.Size ∧
      (Resize copyElem sample3 5 (Faults.mk false (some 4))).vec.contents =
        sample3.contents ∧
      Holds (Resize copyElem sample3 5 (Faults.mk false (some 4))).vec [1, 2, 3]) :=
  ⟨by decide, by decide, by decide, by decide, by decide,
    (C11_resize_failure copyElem sample3 [1, 2, 3] 5 (Faults.mk false (some 4))
      (by decide)).2 (by decide) 1 (by decide) (by decide) (by decide)⟩

/-- C14: for all vectors `a` and `b`, after the copy assignment `a = b`, no
element operation failing, `a` has the Size() and the element sequence of `b`
(`b`, passed by reference to const, is not written); when
`b.Size() <= a.Capacity()` before the call the Capacity() of `a` is unchanged,
and when `b.Size() > a.Capacity()` it becomes exactly `b.Size()`. -/
theorem C14_copy_assignment (E : Elem α) (a b : Vector α) (sa sb : List α)
    (ha : Holds a sa) (hb : Holds b sb) :
    (copyAssign E a b noFaults).res = .ok () ∧
    (copyAssign E a b noFaults).vec.Size = b.Size ∧
    (copyAssign E a b noFaults).vec.contents = b.contents ∧
    Holds (copyAssign E a b noFaults).vec sb ∧
    (b.Size ≤ a.Capacity → (copyAssign E a b noFaults).vec.Capacity = a.Capacity) ∧
    (a.Capacity < b.Size → (copyAssign E a b noFaults).vec.Capacity = b.Size) := by
  obtain ⟨r1, r2, r3⟩ := copyAssign_ok E a b sa sb ha hb
  obtain ⟨_, _, b3, _⟩ := (holds_iff b sb).1 hb
  obtain ⟨_, _, c3, _⟩ := (holds_iff _ _).1 r2
  refine ⟨r1, ?_, ?_, r2, ?_, ?_⟩
  · show (copyAssign E a b noFaults).vec.size_ = b.size_
    rw [c3, b3]
  · rw [r2.2.2, hb.2.2]
  · intro hn
    rw [r3, if_pos hn]
  · intro hn
    rw [r3, if_neg (by omega)]

/-- Witness of C14: `[7, 8, 9, 10, 11]` assigned to `[1, 2, 3]` of capacity 4
(copy and swap), and `[1, 2, 3]` assigned to the full `[1, 2, 3, 4]` (storage
reused). -/
theorem C14_copy_assignment_witness :
    (Holds sample3 [1, 2, 3] ∧ Holds five5 [7, 8, 9, 10, 11] ∧
      (copyAssign intElem sample3 five5 noFaults).vec.contents = five5.contents ∧
      (copyAssign intElem sample3 five5 noFaults).vec.Capacity = 5) ∧
    (Holds full4 [1, 2, 3, 4] ∧ Holds sample3 [1, 2, 3] ∧
      (copyAssign intElem full4 sample3 noFaults).vec.contents = sample3.contents ∧
      (copyAssign intElem full4 sample3 noFaults).vec.Capacity = 4) :=
  ⟨⟨by decide, by decide,
      (C14_copy_assignment intElem sample3 five5 [1, 2, 3] [7, 8, 9, 10, 11] (by decide)
        (by decide)).2.2.1,
      (C14_copy_assignment intElem sample3 five5 [1, 2, 3] [7, 8, 9, 10, 11] (by decide)
        (by decide)).2.2.2.2.2 (by decide)⟩,
    ⟨by decide, by decide,
      (C14_copy_assignment intElem full4 sample3 [1, 2, 3, 4] [1, 2, 3] (by decide)
        (by decide)).2.2.1,
      (C14_copy_assignment intElem full4 sample3 [1, 2, 3, 4] [1, 2, 3] (by decide)
        (by decide)).2.2.2.2.1 (by decide)⟩⟩

/-- C15: `Size() <= Capacity()` holds for every default-, size-, copy- and
move-constructed vector and is preserved by Reserve, Resize, PushBack (either
overload), EmplaceBack, PopBack, Insert (either overload), Emplace, Erase, copy
and move assignment and Swap, under every fault schedule, whether the call
returns or throws. -/
theorem C15_size_within_capacity (E : Elem α) (v rhs : Vector α) (n i : Nat) (x : α)
    (a : Arg α) (f : Faults) (hv : v.Size ≤ v.Capacity) (hr : rhs.Size ≤ rhs.Capacity) :
    ((Vector.empty : Vector α).Size ≤ (Vector.empty : Vector α).Capacity ∧
      (∀ w, ofSize E n f = .ok w → w.Size ≤ w.Capacity) ∧
      (∀ w g, copy rhs f = .ok (w, g) → w.Size ≤ w.Capacity) ∧
      (moveCtor v).1.Size ≤ (moveCtor v).1.Capacity ∧
      (moveCtor v).2.Size ≤ (moveCtor v).2.Capacity) ∧
    (Reserve E v n f).vec.Size ≤ (Reserve E v n f).vec.Capacity ∧
    (Resize E v n f).vec.Size ≤ (Resize E v n f).vec.Capacity ∧
    (PushBack E v x f).vec.Size ≤ (PushBack E v x f).vec.Capacity ∧
    (PushBackMove E v x f).vec.Size ≤ (PushBackMove E v x f).vec.Capacity ∧
    (EmplaceBack E v x f).vec.Size ≤ (EmplaceBack E v x f).vec.Capacity ∧
    (∀ w, PopBack v = some w → w.Size ≤ w.Capacity) ∧
    (Insert E v i a f).vec.Size ≤ (Insert E v i a f).vec.Capacity ∧
    (InsertMove E v i a f).vec.Size ≤ (InsertMove E v i a f).vec.Capacity ∧
    (Emplace E v i a f).vec.Size ≤ (Emplace E v i a f).vec.Capacity ∧
    (Erase E v i f).vec.Size ≤ (Erase E v i f).vec.Capacity ∧
    (copyAssign E v rhs f).vec.Size ≤ (copyAssign E v rhs f).vec.Capacity ∧
    ((moveAssignFrom v rhs).1.Size ≤ (moveAssignFrom v rhs).1.Capacity ∧
      (moveAssignFrom v rhs).2.Size ≤ (moveAssignFrom v rhs).2.Capacity) ∧
    ((Swap v rhs).1.Size ≤ (Swap v rhs).1.Capacity ∧
      (Swap v rhs).2.Size ≤ (Swap v rhs).2.Capacity) := by
  refine ⟨⟨Nat.le_refl _, ?_, ?_, hv, Nat.le_refl _⟩, Reserve_inv E v n f hv,
    Resize_inv E v n f hv, ?_, PushBackMove_inv E v x f hv, EmplaceBack_inv E v x f hv, ?_,
    Emplace_inv E v i a f hv, Emplace_inv E v i a f hv, Emplace_inv E v i a f hv,
    Erase_inv E v i f hv, copyAssign_inv E v rhs f hv, ⟨hr, hv⟩, ⟨hr, hv⟩⟩
  · intro w hw
    have h0 := ofSize_succ E n f w hw
    obtain ⟨v0, e0, e1, e2, _, _⟩ := ofSize_ok E n
    rw [e0] at h0
    simp only [Except.ok.injEq] at h0
    subst h0
    show v0.size_ ≤ v0.data_.capacity_
    omega
  · intro w g hw
    obtain ⟨c1, c2⟩ := copy_shape rhs w f g hw
    show w.size_ ≤ w.data_.capacity_
    omega
  · rw [(PushBack_eq_EmplaceBack E v x f).1]
    exact EmplaceBack_inv E v x f hv
  · intro w hw
    unfold PopBack at hw
    split at hw
    · simp only [Option.some.injEq] at hw
      rw [← hw]
      show v.size_ - 1 ≤ v.data_.capacity_
      have : v.size_ ≤ v.data_.capacity_ := hv
      omega
    · simp at hw

/-- Witness of C15: the full vector `[1, 2, 3, 4]`, with `[1, 2, 3]` as the
other vector, under a schedule whose second element operation throws. -/
theorem C15_size_within_capacity_witness :
    full4.Size ≤ full4.Capacity ∧ sample3.Size ≤ sample3.Capacity ∧
    (PushBack copyElem full4 99 (Faults.mk false (some 1))).vec.Size ≤
      (PushBack copyElem full4 99 (Faults.mk false (some 1))).vec.Capacity ∧
    (Erase copyElem full4 1 (Faults.mk false (some 1))).vec.Size ≤
      (Erase copyElem full4 1 (Faults.mk false (some 1))).vec.Capacity :=
  ⟨by decide, by decide,
    (C15_size_within_capacity copyElem full4 sample3 10 1 99 (.val 99)
      (Faults.mk false (some 1)) (by decide) (by decide)).2.2.2.1,
    (C15_size_within_capacity copyElem full4 sample3 10 1 99 (.val 99)
      (Faults.mk false (some 1)) (by decide) (by decide)).2.2.2.2.2.2.2.2.2.2.1⟩

/-- C20, evaluated on the code: `Erase(begin())` on `[1, 2, 3]` (capacity 4) of
a class type. The vector satisfies the storage invariant before the call.
`Destroy(pos)` leaves slot 0 without an object, and the first step of
`std::move(pos + 1, end(), pos)` assigns into that slot. After the call Size()
is 2, slot 0 holds no object, and slot 2, the slot of the old last element,
still holds a live (moved-from) object: the storage invariant does not hold for
the new size. Erase of the last element keeps the invariant. -/
theorem C20_erase_breaks_storage_invariant :
    StorageInv sample3 ∧
    (sample3.data_.cells.set 0 none).getD 0 none = none ∧
    std_move copyElem (sample3.data_.cells.set 0 none) 1 2 0 noFaults =
      std_move copyElem (moveAssign copyElem (sample3.data_.cells.set 0 none) 1 0) 2 1 1
        noFaults ∧
    (Erase copyElem sample3 0 noFaults).vec.Size = 2 ∧
    (Erase copyElem sample3 0 noFaults).vec.contents = [none, some 3] ∧
    (Erase copyElem sample3 0 noFaults).vec.elemAt 2 = some 0 ∧
    ¬ StorageInv (Erase copyElem sample3 0 noFaults).vec ∧
    StorageInv (Erase copyElem sample3 2 noFaults).vec := by
  decide

end YP
